import Mathlib

/-!
# Block directory of the region allocator (src/allocator.c)

The allocator keeps one global singly linked chain of block headers
(`struct mem_block`), starting at `g_head`.  The chain is embedded as the list
of the headers met when following `next` from `g_head`; each header carries the
address it is stored at, so that pointer results (`block + 1`) and pointer
arguments (`ptr - 1`) are plain address arithmetic.  Payload bytes are not part
of the state: `memset`/`memcpy` calls are represented only by the condition
that their destination stays inside the block they write to.  The debug fill
(`ALLOCATOR_SCRIBBLE`) writes payload bytes of the returned block only and is
left out, as are the mutex and the logging.

A result `none` of an operation means that the C execution leaves the
header-level model: it dereferences a pointer that is not a header of the
chain, or writes a header or payload bytes outside the block it belongs to.
The code makes such writes without a check; what it does then is evaluated on
a second embedding, the byte-level `Machine`, which holds the memory as bytes
together with the set of mapped addresses and runs the same functions with
their loads and stores.

`sizeof(struct mem_block)` comes from `allocator.h`, which is not among the
sources; it is the parameter `H` of every operation that uses it, and the
offsets of the fields are the parameter `Layout` of the machine.
-/

namespace Allocator

/-! ## Data model -/

/-- Number of values of `size_t` (64-bit). -/
def WORD : Nat := 2 ^ 64

/-- Page size, `static size_t page_sz = 4096`. -/
def page_sz : Nat := 4096

/-- Header `struct mem_block` together with the address it is stored at.  The
`next` pointer is the successor in the list of the state.  `region_size` is
`none` when the code never wrote the field (blocks made by `split`). -/
structure mem_block where
  addr : Nat
  alloc_id : Nat
  name : String
  size : Nat
  usage : Nat
  region_start : Nat
  region_size : Option Nat
deriving DecidableEq

/-- Global state: `g_head`, as the chain of headers it points to, and the
counter `g_allocations` (a natural number: it cannot wrap in fewer than 2^64
calls). -/
structure State where
  g_head : List mem_block
  g_allocations : Nat
deriving DecidableEq

/-- State before the first call: `g_head = NULL`, `g_allocations = 0`. -/
def State.init : State := { g_head := [], g_allocations := 0 }

/-- The C expression `curr->size - curr->usage` on `size_t`. -/
def free_space (b : mem_block) : Nat := (b.size + WORD - b.usage) % WORD

/-! ## Placement policies

A returned pointer is represented by the position of the block in the chain. -/

/-- Loop of `first_fit`; the second argument is the position of the list head
in the whole chain.  Both `return NULL` statements are the empty-list case. -/
def first_fit_from (size : Nat) : List mem_block → Nat → Option Nat
  | [], _ => none
  | curr :: rest, i =>
    if free_space curr ≥ size then some i
    else first_fit_from size rest (i + 1)

/-- Policy `first_fit(size)`. -/
def first_fit (s : State) (size : Nat) : Option Nat :=
  first_fit_from size s.g_head 0

/-- Loop of `worst_fit`; the loop state is `(worst, worst_difference)`. -/
def worst_fit_from (size : Nat) :
    List mem_block → Nat → Option (Nat × Nat) → Option (Nat × Nat)
  | [], _, worst => worst
  | curr :: rest, i, worst =>
    let check_difference := free_space curr
    if check_difference ≥ size then
      match worst with
      | none => worst_fit_from size rest (i + 1) (some (i, check_difference))
      | some (w, worst_difference) =>
        if check_difference > worst_difference then
          worst_fit_from size rest (i + 1) (some (i, check_difference))
        else
          worst_fit_from size rest (i + 1) (some (w, worst_difference))
    else worst_fit_from size rest (i + 1) worst

/-- Policy `worst_fit(size)`. -/
def worst_fit (s : State) (size : Nat) : Option Nat :=
  (worst_fit_from size s.g_head 0 none).map Prod.fst

/-- First `if` inside the `else if` branch of `best_fit`: `best == NULL`. -/
def best_init (i check_difference : Nat) : Option (Nat × Nat) → Nat × Nat
  | none => (i, check_difference)
  | some p => p

/-- Second `if` inside the `else if` branch of `best_fit`. -/
def best_update (i check_difference : Nat) (p : Nat × Nat) : Nat × Nat :=
  if check_difference < p.2 ∧ check_difference ≠ p.2 then (i, check_difference) else p

/-- Loop of `best_fit`; the loop state is `(best, best_difference)`. -/
def best_fit_from (size : Nat) :
    List mem_block → Nat → Option (Nat × Nat) → Option (Nat × Nat)
  | [], _, best => best
  | curr :: rest, i, best =>
    let check_difference := free_space curr
    if (curr.usage = 0 ∧ curr.size = size) ∨ check_difference = size then
      some (i, check_difference)
    else if check_difference > size then
      best_fit_from size rest (i + 1)
        (some (best_update i check_difference (best_init i check_difference best)))
    else best_fit_from size rest (i + 1) best

/-- Policy `best_fit(size)`. -/
def best_fit (s : State) (size : Nat) : Option Nat :=
  (best_fit_from size s.g_head 0 none).map Prod.fst

/-! ## Splitter -/

/-- Function `populate(block, requested_sz, block_sz, start)`: the header
written at address `block` and the advanced counter.  The counter is a natural
number here; `Machine.populate` advances it modulo `2^64`, as the
`unsigned long` of the code. -/
def populate (g_allocations block requested_sz block_sz start : Nat) : mem_block × Nat :=
  ({ addr := block
     alloc_id := g_allocations
     name := "Allocation " ++ toString g_allocations
     size := block_sz
     usage := requested_sz
     region_start := start
     region_size := none },
   g_allocations + 1)

/-- Function `split(block, size)` on the block at position `block`.  The
result is the new state and the position of the returned block.  The code
writes the new header at `curr + curr->usage` without a check.  The result is
`none` for the calls in which that header does not lie behind the header of
`curr` and inside `curr`: the code then writes over the fields of `curr` or
over the bytes behind the block, and what it leaves is not a chain of intact
headers (`Machine.split` runs such a call on the bytes, and `clobbered_state`
lists the fields after one). -/
def split (H : Nat) (s : State) (block size : Nat) : Option (State × Nat) :=
  match s.g_head[block]? with
  | none => none
  | some curr =>
    if curr.usage = 0 then
      some ({ s with g_head := s.g_head.set block { curr with usage := size } }, block)
    else if H ≤ curr.usage ∧ curr.usage + H ≤ curr.size then
      let new_block_sz := curr.size - curr.usage
      let r := populate s.g_allocations (curr.addr + curr.usage) size new_block_sz
        curr.region_start
      some ({ g_head := s.g_head.take block ++
                { curr with size := curr.usage } :: r.1 :: s.g_head.drop (block + 1)
              g_allocations := r.2 },
            block + 1)
    else none

/-- Policy call made by `reuse(size)`; `env_algo` is the value of the
environment variable `ALLOCATOR_ALGORITHM`.  An unknown policy name makes
`reuse` return `NULL`, as a miss does. -/
def select_policy (env_algo : Option String) (s : State) (size : Nat) : Option Nat :=
  let algo := match env_algo with
    | none => "first_fit"
    | some a => a
  if algo = "first_fit" then first_fit s size
  else if algo = "best_fit" then best_fit s size
  else if algo = "worst_fit" then worst_fit s size
  else none

/-- Function `reuse(size)`.  The second component is the returned block
position (`none` for `NULL`). -/
def reuse (H : Nat) (env_algo : Option String) (s : State) (size : Nat) :
    Option (State × Option Nat) :=
  match select_policy env_algo s size with
  | none => some (s, none)
  | some block => (split H s block size).map (fun r => (r.1, some r.2))

/-! ## Allocation -/

/-- Rounding step of `malloc` and `realloc`:
`if (size % 8 != 0) size = size + (8 - size % 8)` on `size_t`. -/
def align8 (size : Nat) : Nat :=
  if size % 8 ≠ 0 then (size + (8 - size % 8)) % WORD else size

/-- Value of `block_sz` in `malloc(size)`: header added, then rounded. -/
def block_size (H size : Nat) : Nat := align8 ((size + H) % WORD)

/-- Value of `region_sz` in `malloc` for a given `block_sz`. -/
def region_size_of (block_sz : Nat) : Nat :=
  let num_pages := block_sz / page_sz
  let num_pages := if block_sz % page_sz ≠ 0 then num_pages + 1 else num_pages
  (num_pages * page_sz) % WORD

/-- Function `request(region_sz)`.  `os` is what the operating system answers
to a mapping request (`none` is `MAP_FAILED`); `mmap` fails on length 0. -/
def request (region_sz : Nat) (os : Option Nat) : Option Nat :=
  if region_sz = 0 then none else os

/-- First block of a fresh region at address `block`:
`populate(block, size, region_sz, block); block->region_size = region_sz`. -/
def region_block (g_allocations block size region_sz : Nat) : mem_block × Nat :=
  let r := populate g_allocations block size region_sz block
  ({ r.1 with region_size := some region_sz }, r.2)

/-- Function `malloc(size)`.  The result is the new state and the returned
pointer, 0 for `NULL`.  The header of a fresh region is assumed to fit in it
(`H` is at most one page). -/
def malloc (H : Nat) (env_algo : Option String) (s : State) (size : Nat) (os : Option Nat) :
    Option (State × Nat) :=
  if size = 0 then some (s, 0)
  else
    let size := block_size H size
    let region_sz := region_size_of size
    match s.g_head with
    | [] =>
      match request region_sz os with
      | none => some (s, 0)
      | some block =>
        let r := region_block s.g_allocations block size region_sz
        some ({ g_head := [r.1], g_allocations := r.2 }, block + H)
    | _ :: _ =>
      match reuse H env_algo s size with
      | none => none
      | some (s1, some block) =>
        match s1.g_head[block]? with
        | none => none
        | some b => some (s1, b.addr + H)
      | some (s1, none) =>
        match request region_sz os with
        | none => some (s1, 0)
        | some block =>
          let r := region_block s1.g_allocations block size region_sz
          some ({ g_head := s1.g_head ++ [r.1], g_allocations := r.2 }, block + H)

/-- Position of the first header of the chain stored at address `a`. -/
def find_block (a : Nat) : List mem_block → Option Nat
  | [] => none
  | b :: rest => if b.addr = a then some 0 else (find_block a rest).map (· + 1)

/-- Header `(struct mem_block *) ptr - 1` of a payload pointer: its position
in the chain and its contents. -/
def header_of (H : Nat) (s : State) (ptr : Nat) : Option (Nat × mem_block) :=
  if ptr < H then none
  else
    match find_block (ptr - H) s.g_head with
    | none => none
    | some i =>
      match s.g_head[i]? with
      | none => none
      | some b => some (i, b)

/-- Function `malloc_name(size, name)`.  `name_sz` is the capacity in bytes of
the field `name` (from `allocator.h`).  `sprintf` is applied to the header in
front of the pointer `malloc` returned, without a check.  The result is `none`
when that pointer is `NULL`, and when the bytes of the label and the
terminating zero do not fit in the field: the code then writes over the fields
behind the label. -/
def malloc_name (H name_sz : Nat) (env_algo : Option String) (s : State) (size : Nat)
    (name : String) (os : Option Nat) : Option (State × Nat) :=
  match malloc H env_algo s size os with
  | none => none
  | some (s1, ptr) =>
    match header_of H s1 ptr with
    | none => none
    | some (i, block) =>
      if name.utf8ByteSize < name_sz then
        some ({ s1 with g_head := s1.g_head.set i { block with name := name } }, ptr)
      else none

/-- Function `calloc(nmemb, size)`: `malloc(nmemb * size)` followed by
`memset(ptr, 0, nmemb * size)`, without a check.  The result is `none` when
`memset` does not end inside the block. -/
def calloc (H : Nat) (env_algo : Option String) (s : State) (nmemb size : Nat)
    (os : Option Nat) : Option (State × Nat) :=
  let n := (nmemb * size) % WORD
  match malloc H env_algo s n os with
  | none => none
  | some (s1, ptr) =>
    if n = 0 then some (s1, ptr)
    else
      match header_of H s1 ptr with
      | none => none
      | some (_, block) => if H + n ≤ block.size then some (s1, ptr) else none

/-! ## Release -/

/-- Loop `while (curr->region_start == start)` of `free`, run on the chain
from `start` on: the flag `region_empty` and the chain from the final `curr`
on (empty for `NULL`). -/
def region_scan (start : Nat) : List mem_block → Bool × List mem_block
  | [] => (true, [])
  | curr :: rest =>
    if curr.region_start = start then
      if curr.usage ≠ 0 then (false, curr :: rest)
      else region_scan start rest
    else (true, curr :: rest)

/-- Function `free(ptr)`; `munmap_ret` is the result of `munmap`.  `before` is
the chain in front of the block stored at `start` (it ends with `prev`), so
`before = []` is the test `start == g_head`.  The chain is relinked before
`munmap` is called, so both outcomes of `munmap` leave the same chain. -/
def free (H : Nat) (s : State) (ptr : Nat) (munmap_ret : Int) : Option State :=
  if ptr = 0 then some s
  else
    match header_of H s ptr with
    | none => none
    | some (i, block) =>
      let chain := s.g_head.set i { block with usage := 0 }
      let start := block.region_start
      let before := chain.takeWhile (fun b => decide (b.addr ≠ start))
      match chain.dropWhile (fun b => decide (b.addr ≠ start)) with
      | [] => none
      | first :: rest =>
        let r := region_scan start (first :: rest)
        if r.1 then
          if before = [] then
            let s1 := { s with g_head := r.2 }
            if munmap_ret = -1 then some s1 else some s1
          else
            let s1 := { s with g_head := before ++ r.2 }
            if munmap_ret = -1 then some s1 else some s1
        else some { s with g_head := chain }

/-! ## Resize -/

/-- Function `realloc(ptr, size)`.  In the growing case the code calls
`memcpy(new_ptr, ptr, curr->usage)` without a check.  The result is `none` for
the calls in which the copy does not end inside the block `malloc` returned:
the code then writes over the header behind that block (`Machine.realloc`
runs such a call on the bytes, and `overrun_state` lists the fields after
one). -/
def realloc (H : Nat) (env_algo : Option String) (s : State) (ptr size : Nat)
    (os : Option Nat) (munmap_ret : Int) : Option (State × Nat) :=
  let check_size := align8 ((size + H) % WORD)
  if ptr = 0 then malloc H env_algo s size os
  else if size = 0 then (free H s ptr munmap_ret).map (fun s1 => (s1, 0))
  else
    match header_of H s ptr with
    | none => none
    | some (i, curr) =>
      if curr.size ≥ check_size then
        some ({ s with g_head := s.g_head.set i { curr with usage := check_size } }, ptr)
      else
        match malloc H env_algo s size os with
        | none => none
        | some (s1, new_ptr) =>
          if new_ptr = 0 then some (s1, 0)
          else
            match header_of H s1 ptr, header_of H s1 new_ptr with
            | some (_, old), some (_, new) =>
              if H + old.usage ≤ new.size then
                (free H s1 ptr munmap_ret).map (fun s2 => (s2, new_ptr))
              else none
            | _, _ => none

/-! ## Reachable states -/

/-- Answer of the operating system to a mapping request of `region_sz` bytes
in state `s`: a mapped region is not at address 0, lies inside the address
space and overlaps no block of the directory. -/
def Fresh (s : State) (region_sz : Nat) (os : Option Nat) : Prop :=
  ∀ a, os = some a →
    0 < a ∧ a + region_sz ≤ WORD ∧
      ∀ b ∈ s.g_head, a + region_sz ≤ b.addr ∨ b.addr + b.size ≤ a

/-- States reached from the initial state by calls of the public operations,
with arbitrary `size_t` arguments, in which every write of a header, a label
or a payload stays inside the block it is made for, and every pointer passed
to `free` and `realloc` is a payload pointer of the directory: these are the
calls on which the operations above give a result.  The states the code is in
after a write outside a block, such as `overrun_state` and `clobbered_state`,
are not among them. -/
inductive Reachable (H : Nat) : State → Prop
  | init : Reachable H State.init
  | malloc {s s1 : State} {env : Option String} {size p : Nat} {os : Option Nat} :
      Reachable H s → size < WORD →
      Fresh s (region_size_of (block_size H size)) os →
      malloc H env s size os = some (s1, p) → Reachable H s1
  | malloc_name {s s1 : State} {env : Option String} {size p name_sz : Nat} {name : String}
      {os : Option Nat} :
      Reachable H s → size < WORD →
      Fresh s (region_size_of (block_size H size)) os →
      malloc_name H name_sz env s size name os = some (s1, p) → Reachable H s1
  | calloc {s s1 : State} {env : Option String} {nmemb size p : Nat} {os : Option Nat} :
      Reachable H s → nmemb < WORD → size < WORD →
      Fresh s (region_size_of (block_size H ((nmemb * size) % WORD))) os →
      calloc H env s nmemb size os = some (s1, p) → Reachable H s1
  | free {s s1 : State} {ptr : Nat} {ret : Int} :
      Reachable H s → free H s ptr ret = some s1 → Reachable H s1
  | realloc {s s1 : State} {env : Option String} {ptr size p : Nat} {os : Option Nat}
      {ret : Int} :
      Reachable H s → size < WORD →
      Fresh s (region_size_of (block_size H size)) os →
      realloc H env s ptr size os ret = some (s1, p) → Reachable H s1

/-- Two blocks occupy disjoint address ranges. -/
def apart (a b : mem_block) : Prop :=
  a.addr + a.size ≤ b.addr ∨ b.addr + b.size ≤ a.addr

/-- Run structure of a chain: every block starts a region (its back-reference
is its own address) or stays in the region of its predecessor, whose
back-reference is `prev` (`none` in front of the head of the chain). -/
def runs : Option Nat → List mem_block → Prop
  | _, [] => True
  | prev, b :: rest =>
    (b.region_start = b.addr ∨ prev = some b.region_start) ∧ runs (some b.region_start) rest

/-- Back-reference of the last block of a chain, `prev` for the empty chain. -/
def last_region : Option Nat → List mem_block → Option Nat
  | prev, [] => prev
  | _, b :: rest => last_region (some b.region_start) rest

/-- Shape of a chain: blocks are non-empty and pairwise disjoint, and the
chain is a sequence of runs, each starting with the first block of a region. -/
structure ShapeL (l : List mem_block) : Prop where
  pos : ∀ b ∈ l, 0 < b.size
  disj : l.Pairwise apart
  run : runs none l

/-- Shape of the directory of a state. -/
def Shape (s : State) : Prop := ShapeL s.g_head

/-- Selection of `worst_fit`: position `i` holds the first block of maximal
free capacity, and that capacity covers the request. -/
def FirstMax (l : List mem_block) (size i : Nat) : Prop :=
  ∃ b, l[i]? = some b ∧ size ≤ free_space b ∧
    (∀ c ∈ l, free_space c ≤ free_space b) ∧
    ∀ j, j < i → ∀ c, l[j]? = some c → free_space c < free_space b

/-- Selection of `best_fit`: position `i` holds the first block of minimal
free capacity among the blocks whose free capacity covers the request. -/
def FirstBest (l : List mem_block) (size i : Nat) : Prop :=
  ∃ b, l[i]? = some b ∧ size ≤ free_space b ∧
    (∀ c ∈ l, size ≤ free_space c → free_space b ≤ free_space c) ∧
    ∀ j, j < i → ∀ c, l[j]? = some c → size ≤ free_space c → free_space b < free_space c

/-- Arguments `(dest, src, n)` of the call `memcpy(new_ptr, ptr, curr->usage)`
made by `realloc(ptr, size)`; `none` when the call is not reached. -/
def realloc_memcpy (H : Nat) (env_algo : Option String) (s : State) (ptr size : Nat)
    (os : Option Nat) : Option (Nat × Nat × Nat) :=
  let check_size := align8 ((size + H) % WORD)
  if ptr = 0 then none
  else if size = 0 then none
  else
    match header_of H s ptr with
    | none => none
    | some (_, curr) =>
      if curr.size ≥ check_size then none
      else
        match malloc H env_algo s size os with
        | none => none
        | some (s1, new_ptr) =>
          if new_ptr = 0 then none
          else
            match header_of H s1 ptr with
            | none => none
            | some (_, old) => some (new_ptr, ptr, old.usage)

/-! ## Introspection -/

/-- Lines printed by `write_memory`: `[REGION] start-stop size` and
`[BLOCK] start-stop (id) 'name' size usage payload`.  The size of a region is
the field `region_size` of the header at the region start, `none` when the
code never wrote it. -/
inductive Line where
  | region (start : Nat) (stop size : Option Nat)
  | block (start stop id : Nat) (name : String) (size usage payload : Nat)
deriving DecidableEq

/-- Last field of a `[BLOCK]` line, the C expression
`usage == 0 ? 0 : usage - sizeof(struct mem_block)` on `size_t`. -/
def payload_in_use (H : Nat) (b : mem_block) : Nat :=
  if b.usage = 0 then 0 else (b.usage + WORD - H) % WORD

/-- The `[BLOCK]` line of a block. -/
def block_line (H : Nat) (b : mem_block) : Line :=
  Line.block b.addr (b.addr + b.size) b.alloc_id b.name b.size b.usage (payload_in_use H b)

/-- Whether a line is a `[BLOCK]` line. -/
def Line.is_block : Line → Bool
  | Line.block _ _ _ _ _ _ _ => true
  | Line.region _ _ _ => false

/-- The `[REGION]` line printed from the header `r` at a region start. -/
def region_line (r : mem_block) : Line :=
  Line.region r.addr (r.region_size.map (fun n => r.addr + n)) r.region_size

/-- Loop of `write_memory` over the rest of the chain; `current_region` is the
local variable of that name (0 for `NULL`), `chain` the whole chain, in which
the header `current_region` points to is looked up. -/
def write_memory_from (H : Nat) (chain : List mem_block) :
    List mem_block → Nat → Option (List Line)
  | [], _ => some []
  | current_block :: rest, current_region =>
    if current_block.region_start ≠ current_region then
      match find_block current_block.region_start chain with
      | none => none
      | some j =>
        match chain[j]? with
        | none => none
        | some r =>
          (write_memory_from H chain rest current_block.region_start).map
            (fun ls => region_line r :: block_line H current_block :: ls)
    else
      (write_memory_from H chain rest current_region).map
        (fun ls => block_line H current_block :: ls)

/-- Function `write_memory(fp)`: the state it leaves and the lines it prints. -/
def write_memory (H : Nat) (s : State) : Option (State × List Line) :=
  (write_memory_from H s.g_head s.g_head 0).map (fun ls => (s, ls))

/-- Lines expected for a chain: every block gives its `[BLOCK]` line, preceded
by a `[REGION]` line when the block is the first block of a region. -/
def layout (H : Nat) (l : List mem_block) : List Line :=
  l.flatMap (fun b =>
    if b.region_start = b.addr then [region_line b, block_line H b] else [block_line H b])

/-! ## Restricted reachability and invariants -/

/-- Reachable states when every requested size satisfies `ok`. -/
inductive ReachableIf (ok : Nat → Prop) (H : Nat) : State → Prop
  | init : ReachableIf ok H State.init
  | malloc {s s1 : State} {env : Option String} {size p : Nat} {os : Option Nat} :
      ReachableIf ok H s → size < WORD → ok size →
      Fresh s (region_size_of (block_size H size)) os →
      malloc H env s size os = some (s1, p) → ReachableIf ok H s1
  | malloc_name {s s1 : State} {env : Option String} {size p name_sz : Nat} {name : String}
      {os : Option Nat} :
      ReachableIf ok H s → size < WORD → ok size →
      Fresh s (region_size_of (block_size H size)) os →
      malloc_name H name_sz env s size name os = some (s1, p) → ReachableIf ok H s1
  | calloc {s s1 : State} {env : Option String} {nmemb size p : Nat} {os : Option Nat} :
      ReachableIf ok H s → nmemb < WORD → size < WORD → ok ((nmemb * size) % WORD) →
      Fresh s (region_size_of (block_size H ((nmemb * size) % WORD))) os →
      calloc H env s nmemb size os = some (s1, p) → ReachableIf ok H s1
  | free {s s1 : State} {ptr : Nat} {ret : Int} :
      ReachableIf ok H s → free H s ptr ret = some s1 → ReachableIf ok H s1
  | realloc {s s1 : State} {env : Option String} {ptr size p : Nat} {os : Option Nat}
      {ret : Int} :
      ReachableIf ok H s → size < WORD → ok size →
      Fresh s (region_size_of (block_size H size)) os →
      realloc H env s ptr size os ret = some (s1, p) → ReachableIf ok H s1

/-- A request whose size plus header, rounded up to a multiple of 8, does not
wrap on `size_t`. -/
def NoWrap (H size : Nat) : Prop := size + H + 7 < WORD

/-- Every region of the chain holds a block with nonzero usage. -/
def Occupied (l : List mem_block) : Prop :=
  ∀ b ∈ l, ∃ c ∈ l, c.region_start = b.region_start ∧ c.usage ≠ 0

/-- Per-block facts kept by every operation: the usage fits in the block, the
block and its region start are not at address 0, and the block lies inside the
address space. -/
structure Sound (b : mem_block) : Prop where
  usage_le : b.usage ≤ b.size
  addr_pos : 0 < b.addr
  start_pos : 0 < b.region_start
  in_space : b.addr + b.size ≤ WORD

/-! ## Tiling, runs and identifiers -/

/-- Progress of a walk through a region: the region start, the address at
which the next block has to begin, and the end of the region. -/
structure Cursor where
  start : Nat
  next : Nat
  stop : Nat
deriving DecidableEq

/-- A walk is closed when it is in no region or stands at the end of its
region. -/
def closed : Option Cursor → Prop
  | none => True
  | some c => c.next = c.stop

/-- Walk through a chain from the state `st` to the state `fin`.  A block
stored at its region start opens a region, the one before being closed, and
its `region_size` gives the end of the region; any other block belongs to the
current region, lies behind the region start and begins where its predecessor
ends. -/
def tiles : Option Cursor → List mem_block → Option Cursor → Prop
  | st, [], fin => st = fin
  | st, b :: rest, fin =>
    (b.region_start = b.addr ∧ closed st ∧
      ∃ rsz, b.region_size = some rsz ∧
        tiles (some ⟨b.addr, b.addr + b.size, b.addr + rsz⟩) rest fin) ∨
    (b.region_start < b.addr ∧
      ∃ c, st = some c ∧ b.region_start = c.start ∧ b.addr = c.next ∧
        tiles (some ⟨c.start, c.next + b.size, c.stop⟩) rest fin)

/-- The chain is a sequence of completely tiled regions. -/
def Tiled (l : List mem_block) : Prop := ∃ fin, tiles none l fin ∧ closed fin

/-- The blocks of `l` are laid one after the other from address `a` on. -/
def laid_from : Nat → List mem_block → Prop
  | _, [] => True
  | a, b :: rest => b.addr = a ∧ laid_from (a + b.size) rest

/-- Region runs of a chain: the blocks with the back-reference of `b` form one
run `h :: run` of the chain, and `h` is stored at the region start and refers
to itself. -/
def RegionRuns (l : List mem_block) : Prop :=
  ∀ b ∈ l, ∃ pre h run post, l = pre ++ (h :: run) ++ post ∧ b ∈ h :: run ∧
    (∀ y ∈ h :: run, y.region_start = b.region_start) ∧
    (∀ y ∈ pre ++ post, y.region_start ≠ b.region_start) ∧
    h.addr = b.region_start ∧ h.region_start = h.addr

/-- Physical tiling of a chain: the run `h :: run` of the region of `b` is
laid without gap from the region start on, and the sizes of its blocks sum to
the region size recorded in `h`. -/
def RegionTiling (l : List mem_block) : Prop :=
  ∀ b ∈ l, ∃ pre h run post rsz, l = pre ++ (h :: run) ++ post ∧ b ∈ h :: run ∧
    (∀ y ∈ h :: run, y.region_start = b.region_start) ∧
    (∀ y ∈ pre ++ post, y.region_start ≠ b.region_start) ∧
    laid_from b.region_start (h :: run) ∧
    h.region_size = some rsz ∧ ((h :: run).map (fun y => y.size)).sum = rsz

/-- One call of a public operation whose writes stay inside their blocks. -/
inductive Transition (H : Nat) : State → State → Prop
  | malloc {s s1 : State} {env : Option String} {size p : Nat} {os : Option Nat} :
      size < WORD → Fresh s (region_size_of (block_size H size)) os →
      malloc H env s size os = some (s1, p) → Transition H s s1
  | malloc_name {s s1 : State} {env : Option String} {size p name_sz : Nat} {name : String}
      {os : Option Nat} :
      size < WORD → Fresh s (region_size_of (block_size H size)) os →
      malloc_name H name_sz env s size name os = some (s1, p) → Transition H s s1
  | calloc {s s1 : State} {env : Option String} {nmemb size p : Nat} {os : Option Nat} :
      nmemb < WORD → size < WORD →
      Fresh s (region_size_of (block_size H ((nmemb * size) % WORD))) os →
      calloc H env s nmemb size os = some (s1, p) → Transition H s s1
  | free {s s1 : State} {ptr : Nat} {ret : Int} :
      free H s ptr ret = some s1 → Transition H s s1
  | realloc {s s1 : State} {env : Option String} {ptr size p : Nat} {os : Option Nat}
      {ret : Int} :
      size < WORD → Fresh s (region_size_of (block_size H size)) os →
      realloc H env s ptr size os ret = some (s1, p) → Transition H s s1

/-- State `s1` comes after `s`: the id counter has not decreased, and every
block of `s1` either carries the id of a block of `s` stored at the same
address or an id that is not below the counter of `s`. -/
def Later (s s1 : State) : Prop :=
  s.g_allocations ≤ s1.g_allocations ∧
  ∀ x ∈ s1.g_head,
    (∃ y ∈ s.g_head, y.alloc_id = x.alloc_id ∧ y.addr = x.addr) ∨
      s.g_allocations ≤ x.alloc_id

/-- Identifiers of a state: every id is below the counter and no id occurs
twice. -/
def UniqueIds (s : State) : Prop :=
  (∀ b ∈ s.g_head, b.alloc_id < s.g_allocations) ∧
  (s.g_head.map (fun b => b.alloc_id)).Nodup

/-! ## Byte-level machine

The operations above describe the directory as a list of headers and give no
result for a call that writes outside the block the write is meant for.  The
machine below runs the same code on the bytes of the memory, so that such a
write has the effect it has in the code.  The declaration of
`struct mem_block` is in `allocator.h`, which is not among the sources: the
offsets of its fields are a parameter. -/

/-- Size of `struct mem_block` and offsets of its fields. -/
structure Layout where
  sizeof : Nat
  alloc_id : Nat
  name : Nat
  size : Nat
  usage : Nat
  region_start : Nat
  region_size : Nat
  next : Nat

/-- Header of 80 bytes: `alloc_id`, a label of 32 bytes, `size`, `usage`,
`region_start`, `region_size` and `next`, in this order. -/
def layout80 : Layout :=
  { sizeof := 80, alloc_id := 0, name := 8, size := 40, usage := 48, region_start := 56,
    region_size := 64, next := 72 }

/-- Memory and globals of the process: the byte stored at each address, the
set of mapped addresses, `g_head` and `g_allocations` (0 is `NULL`). -/
structure Machine where
  mem : Nat → Nat
  mapped : Nat → Bool
  g_head : Nat
  g_allocations : Nat

/-- Machine before the first call: nothing is mapped, `g_head = NULL`,
`g_allocations = 0`. -/
def Machine.init : Machine :=
  { mem := fun _ => 0, mapped := fun _ => false, g_head := 0, g_allocations := 0 }

/-- Whether the `n` bytes from address `a` on are mapped. -/
def Machine.accessible (M : Machine) (a n : Nat) : Bool :=
  (List.range n).all (fun i => M.mapped (a + i))

/-- The 64-bit word stored at address `a` (little-endian). -/
def Machine.word_at (M : Machine) (a : Nat) : Nat :=
  (List.range 8).foldr (fun i acc => M.mem (a + i) + 256 * acc) 0

/-- Read of a 64-bit field; `none` when the access faults. -/
def Machine.load (M : Machine) (a : Nat) : Option Nat :=
  if M.accessible a 8 then some (M.word_at a) else none

/-- Write of the given bytes from address `a` on; `none` when the access
faults. -/
def Machine.store_bytes (M : Machine) (a : Nat) (bytes : List Nat) : Option Machine :=
  if M.accessible a bytes.length then
    some { M with
           mem := fun x => if a ≤ x ∧ x < a + bytes.length then bytes.getD (x - a) 0
                           else M.mem x }
  else none

/-- Write of a 64-bit field. -/
def Machine.store (M : Machine) (a v : Nat) : Option Machine :=
  M.store_bytes a ((List.range 8).map (fun i => v / 256 ^ i % 256))

/-- Bytes of a string (UTF-8). -/
def string_bytes (s : String) : List Nat :=
  (s.data.flatMap String.utf8EncodeChar).map (fun b => b.toNat)

/-- The call `sprintf(dst, ...)` for the formatted text `s`: its bytes and a
terminating zero are written at `dst`, whatever the capacity of the target. -/
def Machine.sprintf (M : Machine) (dst : Nat) (s : String) : Option Machine :=
  M.store_bytes dst (string_bytes s ++ [0])

/-- The call `memcpy(dest, src, n)`. -/
def Machine.memcpy (M : Machine) (dest src n : Nat) : Option Machine :=
  if M.accessible dest n ∧ M.accessible src n then
    some { M with
           mem := fun x => if dest ≤ x ∧ x < dest + n then M.mem (src + (x - dest))
                           else M.mem x }
  else none

/-- Function `request(region_sz)`: `mmap` of `region_sz` zeroed bytes at the
address `os` chosen by the operating system; the result 0 is `NULL`
(`MAP_FAILED`, which is also the answer for a length of 0). -/
def Machine.request (M : Machine) (region_sz : Nat) (os : Option Nat) : Machine × Nat :=
  if region_sz = 0 then (M, 0)
  else
    match os with
    | none => (M, 0)
    | some a =>
      ({ M with
         mem := fun x => if a ≤ x ∧ x < a + region_sz then 0 else M.mem x
         mapped := fun x => decide (a ≤ x ∧ x < a + region_sz) || M.mapped x }, a)

/-- The call `munmap(addr, length)` with result `ret`. -/
def Machine.munmap (M : Machine) (addr length : Nat) (ret : Int) : Machine :=
  if ret = -1 then M
  else { M with mapped := fun x => !decide (addr ≤ x ∧ x < addr + length) && M.mapped x }

/-- Function `populate(block, requested_sz, block_sz, start)`. -/
def Machine.populate (L : Layout) (M : Machine) (block requested_sz block_sz start : Nat) :
    Option Machine := do
  let M1 ← M.store (block + L.alloc_id) M.g_allocations
  let M2 := { M1 with g_allocations := (M.g_allocations + 1) % WORD }
  let id ← M2.load (block + L.alloc_id)
  let M3 ← M2.sprintf (block + L.name) ("Allocation " ++ toString id)
  let M4 ← M3.store (block + L.size) block_sz
  let M5 ← M4.store (block + L.usage) requested_sz
  let M6 ← M5.store (block + L.region_start) start
  M6.store (block + L.next) 0

/-- Function `split(block, size)`: the machine it leaves and the returned
pointer. -/
def Machine.split (L : Layout) (M : Machine) (block size : Nat) : Option (Machine × Nat) := do
  let curr := block
  let usage ← M.load (curr + L.usage)
  if usage = 0 then
    let M1 ← M.store (curr + L.usage) size
    pure (M1, curr)
  else
    let new_block_sz ← M.load (curr + L.size)
    let M1 ← M.store (curr + L.size) usage
    let usage1 ← M1.load (curr + L.usage)
    let new_block_sz := (new_block_sz + WORD - usage1) % WORD
    let size1 ← M1.load (curr + L.size)
    let new := (curr + size1) % WORD
    let start ← M1.load (curr + L.region_start)
    let M2 ← populate L M1 new size new_block_sz start
    let next ← M2.load (curr + L.next)
    let M3 ← if next ≠ 0 then M2.store (new + L.next) next else pure M2
    let M4 ← M3.store (curr + L.next) new
    pure (M4, new)

/-- Loop of `first_fit(size)` from `curr` on; `fuel` bounds the number of
iterations (`none` when it is used up or an access faults). -/
def Machine.first_fit_from (L : Layout) (M : Machine) (size : Nat) : Nat → Nat → Option Nat
  | 0, _ => none
  | fuel + 1, curr =>
    if curr = 0 then some 0
    else do
      let sz ← M.load (curr + L.size)
      let us ← M.load (curr + L.usage)
      if (sz + WORD - us) % WORD ≥ size then pure curr
      else
        let next ← M.load (curr + L.next)
        if next = 0 then pure 0 else first_fit_from L M size fuel next

/-- Function `first_fit(size)`. -/
def Machine.first_fit (L : Layout) (fuel : Nat) (M : Machine) (size : Nat) : Option Nat :=
  M.first_fit_from L size fuel M.g_head

/-- Loop of `worst_fit(size)` with its local variables. -/
def Machine.worst_fit_from (L : Layout) (M : Machine) (size : Nat) :
    Nat → Nat → Nat → Nat → Option Nat
  | 0, _, _, _ => none
  | fuel + 1, curr, worst, worst_difference =>
    if curr = 0 then some worst
    else do
      let sz ← M.load (curr + L.size)
      let us ← M.load (curr + L.usage)
      let check_difference := (sz + WORD - us) % WORD
      let next ← M.load (curr + L.next)
      if check_difference ≥ size then
        if worst = 0 then worst_fit_from L M size fuel next curr check_difference
        else if check_difference > worst_difference then
          worst_fit_from L M size fuel next curr check_difference
        else worst_fit_from L M size fuel next worst worst_difference
      else worst_fit_from L M size fuel next worst worst_difference

/-- Function `worst_fit(size)`. -/
def Machine.worst_fit (L : Layout) (fuel : Nat) (M : Machine) (size : Nat) : Option Nat :=
  M.worst_fit_from L size fuel M.g_head 0 0

/-- Loop of `best_fit(size)` with its local variables. -/
def Machine.best_fit_from (L : Layout) (M : Machine) (size : Nat) :
    Nat → Nat → Nat → Nat → Option Nat
  | 0, _, _, _ => none
  | fuel + 1, curr, best, best_difference =>
    if curr = 0 then some best
    else do
      let sz ← M.load (curr + L.size)
      let us ← M.load (curr + L.usage)
      let check_difference := (sz + WORD - us) % WORD
      if (us = 0 ∧ sz = size) ∨ check_difference = size then pure curr
      else
        let next ← M.load (curr + L.next)
        if check_difference > size then
          if best = 0 then best_fit_from L M size fuel next curr check_difference
          else if check_difference < best_difference ∧ check_difference ≠ best_difference then
            best_fit_from L M size fuel next curr check_difference
          else best_fit_from L M size fuel next best best_difference
        else best_fit_from L M size fuel next best best_difference

/-- Function `best_fit(size)`. -/
def Machine.best_fit (L : Layout) (fuel : Nat) (M : Machine) (size : Nat) : Option Nat :=
  M.best_fit_from L size fuel M.g_head 0 0

/-- Function `reuse(size)`; `env_algo` is the value of `ALLOCATOR_ALGORITHM`. -/
def Machine.reuse (L : Layout) (fuel : Nat) (env_algo : Option String) (M : Machine)
    (size : Nat) : Option (Machine × Nat) := do
  let algo := match env_algo with
    | none => "first_fit"
    | some a => a
  let ptr ←
    if algo = "first_fit" then first_fit L fuel M size
    else if algo = "best_fit" then best_fit L fuel M size
    else if algo = "worst_fit" then worst_fit L fuel M size
    else pure 0
  if ptr ≠ 0 then split L M ptr size else pure (M, 0)

/-- Loop `while(curr->next != NULL) curr = curr->next` of `malloc`. -/
def Machine.last_block (L : Layout) (M : Machine) : Nat → Nat → Option Nat
  | 0, _ => none
  | fuel + 1, curr => do
    let next ← M.load (curr + L.next)
    if next ≠ 0 then last_block L M fuel next else pure curr

/-- Function `malloc(size)`, with `ALLOCATOR_SCRIBBLE` unset: the machine it
leaves and the returned pointer. -/
def Machine.malloc (L : Layout) (fuel : Nat) (env_algo : Option String) (M : Machine)
    (size : Nat) (os : Option Nat) : Option (Machine × Nat) :=
  if size = 0 then some (M, 0)
  else do
    let size := (size + L.sizeof) % WORD
    let size := if size % 8 ≠ 0 then (size + (8 - size % 8)) % WORD else size
    let block_sz := size
    let num_pages := block_sz / page_sz
    let num_pages := if block_sz % page_sz ≠ 0 then num_pages + 1 else num_pages
    let region_sz := (num_pages * page_sz) % WORD
    if M.g_head = 0 then
      let r := M.request region_sz os
      if r.2 = 0 then pure (r.1, 0)
      else
        let M1 ← populate L r.1 r.2 size region_sz r.2
        let M2 ← M1.store (r.2 + L.region_size) region_sz
        pure ({ M2 with g_head := r.2 }, (r.2 + L.sizeof) % WORD)
    else
      let r ← reuse L fuel env_algo M size
      if r.2 = 0 then
        let r1 := r.1.request region_sz os
        if r1.2 = 0 then pure (r1.1, 0)
        else
          let M1 ← populate L r1.1 r1.2 size region_sz r1.2
          let M2 ← M1.store (r1.2 + L.region_size) region_sz
          let curr ← last_block L M2 fuel M2.g_head
          let M3 ← M2.store (curr + L.next) r1.2
          pure (M3, (r1.2 + L.sizeof) % WORD)
      else pure (r.1, (r.2 + L.sizeof) % WORD)

/-- Loop `while (curr->region_start == start)` of `free`: the flag
`region_empty` and the final `curr`. -/
def Machine.free_scan (L : Layout) (M : Machine) (start : Nat) : Nat → Nat → Option (Bool × Nat)
  | 0, _ => none
  | fuel + 1, curr => do
    let rs ← M.load (curr + L.region_start)
    if rs = start then
      let us ← M.load (curr + L.usage)
      if us ≠ 0 then pure (false, curr)
      else
        let next ← M.load (curr + L.next)
        if next = 0 then pure (true, 0) else free_scan L M start fuel next
    else pure (true, curr)

/-- Loop `while(prev->next != start) prev = prev->next` of `free`. -/
def Machine.free_prev (L : Layout) (M : Machine) (start : Nat) : Nat → Nat → Option Nat
  | 0, _ => none
  | fuel + 1, prev => do
    let next ← M.load (prev + L.next)
    if next ≠ start then free_prev L M start fuel next else pure prev

/-- Function `free(ptr)`; `munmap_ret` is the result of `munmap`. -/
def Machine.free (L : Layout) (fuel : Nat) (M : Machine) (ptr : Nat) (munmap_ret : Int) :
    Option Machine :=
  if ptr = 0 then some M
  else do
    let block := (ptr + WORD - L.sizeof) % WORD
    let M1 ← M.store (block + L.usage) 0
    let start ← M1.load (block + L.region_start)
    let curr := start
    let reset_head := decide (start = M1.g_head)
    let r ← free_scan L M1 start fuel curr
    if r.1 then
      if reset_head then
        let M2 := { M1 with g_head := r.2 }
        let empty_size ← M2.load (start + L.region_size)
        pure (M2.munmap start empty_size munmap_ret)
      else
        let prev ← free_prev L M1 start fuel M1.g_head
        let M2 ← M1.store (prev + L.next) r.2
        let empty_size ← M2.load (start + L.region_size)
        pure (M2.munmap start empty_size munmap_ret)
    else pure M1

/-- Function `realloc(ptr, size)`. -/
def Machine.realloc (L : Layout) (fuel : Nat) (env_algo : Option String) (M : Machine)
    (ptr size : Nat) (os : Option Nat) (munmap_ret : Int) : Option (Machine × Nat) :=
  let check_size := (size + L.sizeof) % WORD
  let check_size :=
    if check_size % 8 ≠ 0 then (check_size + (8 - check_size % 8)) % WORD else check_size
  if ptr = 0 then malloc L fuel env_algo M size os
  else if size = 0 then (free L fuel M ptr munmap_ret).map (fun M1 => (M1, 0))
  else do
    let curr := (ptr + WORD - L.sizeof) % WORD
    let sz ← M.load (curr + L.size)
    if sz ≥ check_size then
      let M1 ← M.store (curr + L.usage) check_size
      pure (M1, ptr)
    else
      let r ← malloc L fuel env_algo M size os
      if r.2 = 0 then pure (r.1, 0)
      else
        let us ← r.1.load (curr + L.usage)
        let M2 ← r.1.memcpy r.2 ptr us
        let M3 ← free L fuel M2 ptr munmap_ret
        pure (M3, r.2)

/-- The zero-terminated string stored at address `a`, read up to `fuel` bytes. -/
def Machine.string_at (M : Machine) : Nat → Nat → List Char
  | 0, _ => []
  | fuel + 1, a =>
    if M.mem a = 0 then [] else Char.ofNat (M.mem a) :: string_at M fuel (a + 1)

/-- Loop of `write_memory`: the lines printed from `current_block` on. -/
def Machine.write_memory_from (L : Layout) (M : Machine) :
    Nat → Nat → Nat → Option (List Line)
  | 0, _, _ => none
  | fuel + 1, current_block, current_region =>
    if current_block = 0 then some []
    else do
      let rs ← M.load (current_block + L.region_start)
      let head ←
        if rs ≠ current_region then do
          let rsz ← M.load (rs + L.region_size)
          pure [Line.region rs (some ((rs + rsz) % WORD)) (some rsz)]
        else pure []
      let sz ← M.load (current_block + L.size)
      let id ← M.load (current_block + L.alloc_id)
      let us ← M.load (current_block + L.usage)
      let next ← M.load (current_block + L.next)
      let rest ← write_memory_from L M fuel next rs
      pure (head ++ Line.block current_block ((current_block + sz) % WORD) id
        (String.mk (M.string_at L.sizeof (current_block + L.name)))
        sz us (if us = 0 then 0 else (us + WORD - L.sizeof) % WORD) :: rest)

/-- Function `write_memory(fp)`: the lines it prints. -/
def Machine.write_memory (L : Layout) (fuel : Nat) (M : Machine) : Option (List Line) :=
  M.write_memory_from L fuel M.g_head 0

/-- The header stored at address `a`, field by field. -/
def Machine.header_at (L : Layout) (M : Machine) (a : Nat) : mem_block :=
  { addr := a
    alloc_id := M.word_at (a + L.alloc_id)
    name := String.mk (M.string_at L.sizeof (a + L.name))
    size := M.word_at (a + L.size)
    usage := M.word_at (a + L.usage)
    region_start := M.word_at (a + L.region_start)
    region_size := some (M.word_at (a + L.region_size)) }

/-- The headers met along the `next` pointers from `p` on (at most `fuel`). -/
def Machine.chain_at (L : Layout) (M : Machine) : Nat → Nat → List mem_block
  | 0, _ => []
  | fuel + 1, p =>
    if p = 0 then [] else M.header_at L p :: chain_at L M fuel (M.word_at (p + L.next))

/-- The directory a machine holds: the chain from `g_head` and the counter. -/
def Machine.directory (L : Layout) (fuel : Nat) (M : Machine) : State :=
  { g_head := M.chain_at L fuel M.g_head, g_allocations := M.g_allocations }

/-! ## Concrete states used by the examples -/

/-- A block with the default label. -/
def blk (addr id size usage start : Nat) (rsz : Option Nat) : mem_block :=
  { addr := addr, alloc_id := id, name := "Allocation " ++ toString id, size := size,
    usage := usage, region_start := start, region_size := rsz }

/-- Two blocks with free capacities 50 and 30, in this order. -/
def caps_50_30 : State :=
  { g_head := [blk 4096 0 146 96 4096 (some 4096), blk 4192 1 126 96 4096 none]
    g_allocations := 2 }

/-- Two blocks with free capacities 30 and 50, in this order. -/
def caps_30_50 : State :=
  { g_head := [blk 4096 0 126 96 4096 (some 4096), blk 4192 1 146 96 4096 none]
    g_allocations := 2 }

/-- One block of size 4096 of which 96 bytes are used. -/
def part_state : State :=
  { g_head := [blk 4096 0 4096 96 4096 (some 4096)], g_allocations := 1 }

/-- State after `malloc(10)` twice from the initial state, with an 80-byte
header: the page is split into a used block and the block behind it. -/
def two_blocks : State :=
  { g_head := [blk 4096 0 96 96 4096 (some 4096), blk 4192 1 4000 96 4096 none]
    g_allocations := 2 }

/-- State after `malloc(2^64 - 1)` in the initial state. -/
def wrapped_state : State :=
  { g_head := [blk 4096 0 4096 80 4096 (some 4096)], g_allocations := 1 }

/-- State after `malloc(2^64 - 72)` in the initial state, for a header of 80
bytes: the request wraps to 8, below the size of a header. -/
def short_state : State :=
  { g_head := [blk 4096 0 4096 8 4096 (some 4096)], g_allocations := 1 }

/-! ### States behind a write outside a block

The two call sequences below make the code write outside the block the write
is meant for.  The states list the header fields the code leaves, for the
header `layout80` and a page mapped at 4096; `clobber_run_directory` and
`overrun_run_directory` obtain them by running the calls on the machine.  A
`region_size` of `some 0` is a word of the page that was never written. -/

/-- State after `malloc(24)` and `malloc(10)` three times from the initial
state: the returned pointers are 4176, 4280, 4376 and 4472. -/
def four_blocks : State :=
  { g_head := [blk 4096 0 104 104 4096 (some 4096), blk 4200 1 96 96 4096 none,
               blk 4296 2 96 96 4096 none, blk 4392 3 3800 96 4096 none]
    g_allocations := 4 }

/-- State `four_blocks` after `free(4176)`. -/
def head_freed_state : State :=
  { g_head := [blk 4096 0 104 0 4096 (some 4096), blk 4200 1 96 96 4096 none,
               blk 4296 2 96 96 4096 none, blk 4392 3 3800 96 4096 none]
    g_allocations := 4 }

/-- Header at 4200 after `memcpy(4176, 4376, 96)`: the copy fills the 24
payload bytes of the block at 4096 and then the first 72 bytes of this header
with the bytes 8 to 80 of the header at 4392, so that `alloc_id` holds the
first eight bytes of the label "Allocation 3", the label starts with "on 3",
`size` holds the usage 96, `usage` the back-reference 4096, and `region_start`
and `region_size` the two zero words behind it; `next` is not reached. -/
def torn_block : mem_block :=
  { addr := 4200, alloc_id := 7598805550979902529, name := "on 3", size := 96,
    usage := 4096, region_start := 0, region_size := some 0 }

/-- State `head_freed_state` after `malloc(20)`, which returns 4176, and
`memcpy(4176, 4376, 96)`: the state in which `realloc(4376, 20)` calls
`free(4376)`. -/
def copied_state : State :=
  { g_head := [blk 4096 0 104 104 4096 (some 4096), torn_block,
               blk 4296 2 96 96 4096 (some 0), blk 4392 3 3800 96 4096 (some 0)]
    g_allocations := 4 }

/-- State `head_freed_state` after `realloc(4376, 20)`, which returns 4176. -/
def overrun_state : State :=
  { g_head := [blk 4096 0 104 104 4096 (some 4096), torn_block,
               blk 4296 2 96 0 4096 (some 0), blk 4392 3 3800 96 4096 (some 0)]
    g_allocations := 4 }

/-- Header at 4096 after the call `split(4096, 96)` made by `malloc(10)` in
`short_state`: the new header is written at 4104, so that its `alloc_id`
falls on the label of this header, its `size` 4088 on `usage`, its `usage` 96
on `region_start` and its `region_start` 4096 on `region_size`; `size` is the
old usage 8. -/
def clobbered_block : mem_block :=
  { addr := 4096, alloc_id := 0, name := "\x01", size := 8, usage := 4088,
    region_start := 96, region_size := some 4096 }

/-- Header at 4104 written by that call; its field `region_size` is the field
`next` of the header at 4096, which `split` sets to 4104. -/
def inner_block : mem_block :=
  { addr := 4104, alloc_id := 1, name := "Allocation 1", size := 4088, usage := 96,
    region_start := 4096, region_size := some 4104 }

/-- State after `malloc(2^64 - 72)` and `malloc(10)` from the initial state;
the second call returns 4184. -/
def clobbered_state : State :=
  { g_head := [clobbered_block, inner_block], g_allocations := 2 }

/-- The calls `malloc(2^64 - 72)` and `malloc(10)` on the machine, from the
initial machine and with the page mapped at 4096: the machine they leave and
the two returned pointers. -/
def clobber_run : Option (Machine × Nat × Nat) := do
  let r1 ← Machine.malloc layout80 8 none Machine.init (2 ^ 64 - 72) (some 4096)
  let r2 ← Machine.malloc layout80 8 none r1.1 10 none
  pure (r2.1, r1.2, r2.2)

/-- The calls `a = malloc(24)`, `malloc(10)`, `o = malloc(10)`, `malloc(10)`,
`free(a)` and `q = realloc(o, 20)` on the machine, from the initial machine
and with the page mapped at 4096: the machine they leave, `o` and `q`. -/
def overrun_run : Option (Machine × Nat × Nat) := do
  let r1 ← Machine.malloc layout80 8 none Machine.init 24 (some 4096)
  let r2 ← Machine.malloc layout80 8 none r1.1 10 none
  let r3 ← Machine.malloc layout80 8 none r2.1 10 none
  let r4 ← Machine.malloc layout80 8 none r3.1 10 none
  let M5 ← Machine.free layout80 8 r4.1 r1.2 0
  let r6 ← Machine.realloc layout80 8 none M5 r3.2 20 none 0
  pure (r6.1, r3.2, r6.2)

/-! ## Placement policies -/

theorem free_space_eq (b : mem_block) (hu : b.usage ≤ b.size) (hs : b.size < WORD) :
    free_space b = b.size - b.usage := by
  unfold free_space
  have h1 : b.size + WORD - b.usage = (b.size - b.usage) + WORD := by omega
  rw [h1, Nat.add_mod_right]
  exact Nat.mod_eq_of_lt (by omega)

theorem first_fit_from_some (size : Nat) (l : List mem_block) (k i : Nat) :
    first_fit_from size l k = some i ↔
      ∃ j b, i = k + j ∧ l[j]? = some b ∧ size ≤ free_space b ∧
        ∀ m, m < j → ∀ c, l[m]? = some c → free_space c < size := by
  induction l generalizing k i with
  | nil => simp [first_fit_from]
  | cons a rest ih =>
    unfold first_fit_from
    by_cases h : free_space a ≥ size
    · rw [if_pos h]
      constructor
      · intro e
        refine ⟨0, a, ?_, by simp, h, ?_⟩
        · simp at e; omega
        · intro m hm; omega
      · rintro ⟨j, b, rfl, hb, hsz, hmin⟩
        cases j with
        | zero => simp
        | succ j =>
          have := hmin 0 (by omega) a (by simp)
          omega
    · rw [if_neg h, ih]
      constructor
      · rintro ⟨j, b, rfl, hb, hsz, hmin⟩
        refine ⟨j + 1, b, by omega, by simpa using hb, hsz, ?_⟩
        intro m hm c hc
        cases m with
        | zero =>
          simp at hc; subst hc; omega
        | succ m => exact hmin m (by omega) c (by simpa using hc)
      · rintro ⟨j, b, rfl, hb, hsz, hmin⟩
        cases j with
        | zero =>
          simp at hb; subst hb; omega
        | succ j =>
          refine ⟨j, b, by omega, by simpa using hb, hsz, ?_⟩
          intro m hm c hc
          exact hmin (m + 1) (by omega) c (by simpa using hc)

theorem first_fit_from_none (size : Nat) (l : List mem_block) (k : Nat) :
    first_fit_from size l k = none ↔ ∀ b ∈ l, free_space b < size := by
  induction l generalizing k with
  | nil => simp [first_fit_from]
  | cons a rest ih =>
    unfold first_fit_from
    by_cases h : free_space a ≥ size
    · rw [if_pos h]
      simp only [List.mem_cons, forall_eq_or_imp]
      constructor
      · intro h1; cases h1
      · intro h1; omega
    · rw [if_neg h, ih]
      simp only [List.mem_cons, forall_eq_or_imp]
      constructor
      · intro h1; exact ⟨by omega, h1⟩
      · intro h1; exact h1.2

/-- C1: `first_fit(size)` returns the first block in list order whose free
capacity `size - usage` is at least `size`, and `NULL` exactly when no block
of the list has that much free capacity. -/
theorem first_fit_first_match (s : State) (size : Nat) :
    (∀ i, first_fit s size = some i ↔
      ∃ b, s.g_head[i]? = some b ∧ size ≤ free_space b ∧
        ∀ j, j < i → ∀ c, s.g_head[j]? = some c → free_space c < size) ∧
    (first_fit s size = none ↔ ∀ b ∈ s.g_head, free_space b < size) ∧
    (∀ b : mem_block, b.usage ≤ b.size → b.size < WORD → free_space b = b.size - b.usage) := by
  refine ⟨?_, ?_, free_space_eq⟩
  · intro i
    unfold first_fit
    rw [first_fit_from_some]
    constructor
    · rintro ⟨j, b, rfl, hb, hsz, hmin⟩
      exact ⟨b, by simpa using hb, hsz, by simpa using hmin⟩
    · rintro ⟨b, hb, hsz, hmin⟩
      exact ⟨i, b, by simp, hb, hsz, hmin⟩
  · exact first_fit_from_none size s.g_head 0

theorem free_space_exact (a : mem_block) (size : Nat) (hs : size < WORD) :
    ((a.usage = 0 ∧ a.size = size) ∨ free_space a = size) ↔ free_space a = size := by
  constructor
  · rintro (⟨h0, h1⟩ | h)
    · unfold free_space
      rw [h0, h1, Nat.sub_zero, Nat.add_mod_right]
      exact Nat.mod_eq_of_lt hs
    · exact h
  · intro h; exact Or.inr h

theorem best_fit_from_cons (size : Nat) (hs : size < WORD) (a : mem_block)
    (rest : List mem_block) (k : Nat) (acc : Option (Nat × Nat)) :
    best_fit_from size (a :: rest) k acc =
      if free_space a = size then some (k, size)
      else if free_space a > size then
        best_fit_from size rest (k + 1)
          (some (best_update k (free_space a) (best_init k (free_space a) acc)))
      else best_fit_from size rest (k + 1) acc := by
  rw [best_fit_from]
  simp only [free_space_exact a size hs]
  by_cases h : free_space a = size
  · simp [h]
  · simp [h]

theorem best_fit_from_none (size : Nat) (hs : size < WORD) (l : List mem_block) (k : Nat)
    (acc : Option (Nat × Nat)) :
    best_fit_from size l k acc = none ↔ acc = none ∧ ∀ b ∈ l, free_space b < size := by
  induction l generalizing k acc with
  | nil => simp [best_fit_from]
  | cons a rest ih =>
    rw [best_fit_from_cons size hs]
    simp only [List.mem_cons, forall_eq_or_imp]
    by_cases h : free_space a = size
    · rw [if_pos h]
      constructor
      · intro h1; cases h1
      · intro h1; omega
    · rw [if_neg h]
      by_cases h2 : free_space a > size
      · rw [if_pos h2, ih]
        constructor
        · intro h1; cases h1.1
        · intro h1; omega
      · rw [if_neg h2, ih]
        constructor
        · intro h1; exact ⟨h1.1, by omega, h1.2⟩
        · intro h1; exact ⟨h1.1, h1.2.2⟩

theorem best_acc_cases (k cd : Nat) (acc : Option (Nat × Nat)) :
    (best_update k cd (best_init k cd acc) = (k, cd) ∧ ∀ w d0, acc = some (w, d0) → cd < d0) ∨
    (∃ w d0, acc = some (w, d0) ∧ best_update k cd (best_init k cd acc) = (w, d0) ∧ d0 ≤ cd) := by
  cases acc with
  | none =>
    left
    refine ⟨?_, by intro w d0 e; cases e⟩
    simp [best_init, best_update]
  | some p =>
    obtain ⟨w, d0⟩ := p
    by_cases h : cd < d0
    · left
      refine ⟨?_, ?_⟩
      · simp only [best_init, best_update]
        rw [if_pos ⟨h, by omega⟩]
      · intro w1 d1 e
        simp only [Option.some.injEq, Prod.mk.injEq] at e
        omega
    · right
      refine ⟨w, d0, rfl, ?_, by omega⟩
      simp only [best_init, best_update]
      rw [if_neg (by intro h1; exact h h1.1)]

theorem best_fit_from_some (size : Nat) (hs : size < WORD) (l : List mem_block) (k : Nat)
    (acc : Option (Nat × Nat)) (i d : Nat)
    (h : best_fit_from size l k acc = some (i, d)) :
    (acc = some (i, d) ∧ ∀ b ∈ l, size ≤ free_space b → d ≤ free_space b) ∨
    (∃ j b, i = k + j ∧ l[j]? = some b ∧ free_space b = d ∧ size ≤ d ∧
      (∀ w d0, acc = some (w, d0) → d < d0 ∨ d = size) ∧
      (∀ m, m < j → ∀ c, l[m]? = some c → size ≤ free_space c → d < free_space c) ∧
      (∀ c ∈ l, size ≤ free_space c → d ≤ free_space c)) := by
  induction l generalizing k acc with
  | nil =>
    left
    simp only [best_fit_from] at h
    simp [h]
  | cons a rest ih =>
    rw [best_fit_from_cons size hs] at h
    by_cases hex : free_space a = size
    · rw [if_pos hex] at h
      simp only [Option.some.injEq, Prod.mk.injEq] at h
      obtain ⟨rfl, rfl⟩ := h
      right
      refine ⟨0, a, rfl, by simp, hex, le_refl _, ?_, ?_, ?_⟩
      · intro w d0 _; exact Or.inr rfl
      · intro m hm; omega
      · intro c _ hc; exact hc
    · rw [if_neg hex] at h
      by_cases hgt : free_space a > size
      · rw [if_pos hgt] at h
        rcases ih (k + 1) _ h with ⟨e, hmin⟩ | ⟨j, b, hi, hb, hd, hsz, hac, hearly, hmin⟩
        · simp only [Option.some.injEq] at e
          rcases best_acc_cases k (free_space a) acc with ⟨e1, hlt⟩ | ⟨w, d0, e2, e1, hle⟩
          · rw [e1] at e
            simp only [Prod.mk.injEq] at e
            obtain ⟨rfl, rfl⟩ := e
            right
            refine ⟨0, a, rfl, by simp, rfl, by omega, ?_, ?_, ?_⟩
            · intro w d0 e; exact Or.inl (hlt w d0 e)
            · intro m hm; omega
            · intro c hcm hcs
              rcases List.mem_cons.1 hcm with rfl | hcm
              · exact le_refl _
              · exact hmin c hcm hcs
          · rw [e1] at e
            simp only [Prod.mk.injEq] at e
            obtain ⟨rfl, rfl⟩ := e
            left
            refine ⟨e2, ?_⟩
            intro c hcm hcs
            rcases List.mem_cons.1 hcm with rfl | hcm
            · exact hle
            · exact hmin c hcm hcs
        · right
          have hda : d < free_space a := by
            rcases best_acc_cases k (free_space a) acc with ⟨e1, _⟩ | ⟨w, d0, _, e1, hle⟩
            · rcases hac k (free_space a) (by rw [e1]) with h1 | h1
              · exact h1
              · omega
            · rcases hac w d0 (by rw [e1]) with h1 | h1
              · omega
              · omega
          refine ⟨j + 1, b, by omega, by simpa using hb, hd, hsz, ?_, ?_, ?_⟩
          · intro w d0 e
            rcases best_acc_cases k (free_space a) acc with ⟨e1, hlt⟩ | ⟨w1, d1, e2, e1, hle⟩
            · have := hlt w d0 e
              left; omega
            · rw [e2] at e
              simp only [Option.some.injEq, Prod.mk.injEq] at e
              obtain ⟨rfl, rfl⟩ := e
              exact hac w1 d1 (by rw [e1])
          · intro m hm c hcm hcs
            cases m with
            | zero =>
              simp at hcm; subst hcm; exact hda
            | succ m => exact hearly m (by omega) c (by simpa using hcm) hcs
          · intro c hcm hcs
            rcases List.mem_cons.1 hcm with rfl | hcm
            · omega
            · exact hmin c hcm hcs
      · rw [if_neg hgt] at h
        rcases ih (k + 1) acc h with ⟨e, hmin⟩ | ⟨j, b, hi, hb, hd, hsz, hac, hearly, hmin⟩
        · left
          refine ⟨e, ?_⟩
          intro c hcm hcs
          rcases List.mem_cons.1 hcm with rfl | hcm
          · omega
          · exact hmin c hcm hcs
        · right
          refine ⟨j + 1, b, by omega, by simpa using hb, hd, hsz, hac, ?_, ?_⟩
          · intro m hm c hcm hcs
            cases m with
            | zero =>
              simp at hcm; subst hcm; omega
            | succ m => exact hearly m (by omega) c (by simpa using hcm) hcs
          · intro c hcm hcs
            rcases List.mem_cons.1 hcm with rfl | hcm
            · omega
            · exact hmin c hcm hcs

/-- C2: for a request `size` (a `size_t` value), `best_fit(size)` returns the
first block, in list order, of minimal free capacity among the blocks whose
free capacity is at least `size`, when such a block exists; otherwise it
returns `NULL`.  With free capacities 50 and 30, in either order, and a
request of 20 the block with capacity 30 is selected. -/
theorem best_fit_first_min (s : State) (size : Nat) (hs : size < WORD) :
    (∀ i, best_fit s size = some i ↔ FirstBest s.g_head size i) ∧
    (best_fit s size = none ↔ ∀ b ∈ s.g_head, free_space b < size) ∧
    ((∃ b ∈ s.g_head, size ≤ free_space b) → ∃ i, FirstBest s.g_head size i) ∧
    (caps_50_30.g_head.map free_space = [50, 30] ∧ best_fit caps_50_30 20 = some 1) ∧
    (caps_30_50.g_head.map free_space = [30, 50] ∧ best_fit caps_30_50 20 = some 0) := by
  have hnone : best_fit s size = none ↔ ∀ b ∈ s.g_head, free_space b < size := by
    unfold best_fit
    rw [Option.map_eq_none', best_fit_from_none size hs]
    simp
  have hsome : ∀ i, best_fit s size = some i → FirstBest s.g_head size i := by
    intro i h
    unfold best_fit at h
    rw [Option.map_eq_some'] at h
    obtain ⟨⟨i1, d⟩, h1, h2⟩ := h
    simp only at h2
    subst h2
    rcases best_fit_from_some size hs s.g_head 0 none i1 d h1 with
      ⟨e, _⟩ | ⟨j, b, hi, hb, hd, hsz, _, hearly, hmin⟩
    · cases e
    · have hij : i1 = j := by omega
      subst hij
      refine ⟨b, hb, by omega, ?_, ?_⟩
      · intro c hc hcs
        have := hmin c hc hcs; omega
      · intro m hm c hc hcs
        have := hearly m hm c hc hcs; omega
  have huniq : ∀ i k, FirstBest s.g_head size i → FirstBest s.g_head size k → i = k := by
    intro i k ⟨b, hb, hbs, hbmin, hbfirst⟩ ⟨c, hc, hcs, hcmin, hcfirst⟩
    rcases Nat.lt_trichotomy i k with hlt | heq | hgt
    · have h1 := hcfirst i hlt b hb hbs
      have h2 := hbmin c (List.getElem?_mem hc) hcs
      omega
    · exact heq
    · have h1 := hbfirst k hgt c hc hcs
      have h2 := hcmin b (List.getElem?_mem hb) hbs
      omega
  have hex : ∀ i, FirstBest s.g_head size i → ∃ k, best_fit s size = some k := by
    intro i ⟨b, hb, hsz, _, _⟩
    cases hw : best_fit s size with
    | some k => exact ⟨k, rfl⟩
    | none =>
      have := hnone.1 hw b (List.getElem?_mem hb)
      omega
  refine ⟨?_, hnone, ?_, ⟨by decide, by decide⟩, ⟨by decide, by decide⟩⟩
  · intro i
    constructor
    · exact hsome i
    · intro hi
      obtain ⟨k, hk⟩ := hex i hi
      rw [hk, huniq i k hi (hsome k hk)]
  · rintro ⟨b, hb, hsz⟩
    cases hw : best_fit s size with
    | some k => exact ⟨k, hsome k hw⟩
    | none =>
      have := hnone.1 hw b hb
      omega

/-- Instance of C2 on the chain with free capacities 50 and 30. -/
theorem best_fit_first_min_witness : 20 < WORD ∧ FirstBest caps_50_30.g_head 20 1 :=
  ⟨by decide, ((best_fit_first_min caps_50_30 20 (by decide)).1 1).1 (by decide)⟩

theorem worst_fit_from_none (size : Nat) (l : List mem_block) (k : Nat)
    (acc : Option (Nat × Nat)) :
    worst_fit_from size l k acc = none ↔ acc = none ∧ ∀ b ∈ l, free_space b < size := by
  induction l generalizing k acc with
  | nil => simp [worst_fit_from]
  | cons a rest ih =>
    unfold worst_fit_from
    simp only [List.mem_cons, forall_eq_or_imp]
    by_cases h : free_space a ≥ size
    · simp only [h, if_true]
      cases acc with
      | none =>
        simp only [ih]
        constructor
        · intro h1; simp at h1
        · intro h1; omega
      | some p =>
        obtain ⟨w, d⟩ := p
        simp only
        split_ifs <;> simp [ih]
    · simp only [h, if_false, ih]
      constructor
      · intro h1; exact ⟨h1.1, by omega, h1.2⟩
      · intro h1; exact ⟨h1.1, h1.2.2⟩

theorem worst_fit_from_some (size : Nat) (l : List mem_block) (k : Nat)
    (acc : Option (Nat × Nat)) (i d : Nat)
    (h : worst_fit_from size l k acc = some (i, d)) :
    (acc = some (i, d) ∧ ∀ b ∈ l, size ≤ free_space b → free_space b ≤ d) ∨
    (∃ j b, i = k + j ∧ l[j]? = some b ∧ free_space b = d ∧ size ≤ d ∧
      (∀ w d0, acc = some (w, d0) → d0 < d) ∧
      (∀ m, m < j → ∀ c, l[m]? = some c → size ≤ free_space c → free_space c < d) ∧
      (∀ c ∈ l, size ≤ free_space c → free_space c ≤ d)) := by
  induction l generalizing k acc with
  | nil =>
    left
    simp only [worst_fit_from] at h
    simp [h]
  | cons a rest ih =>
    unfold worst_fit_from at h
    by_cases hc : free_space a ≥ size
    · simp only [hc, if_true] at h
      -- the accumulator after visiting `a`
      have key : ∀ acc1 : Option (Nat × Nat),
          worst_fit_from size rest (k + 1) acc1 = some (i, d) →
          (acc1 = some (k, free_space a) ∧ (∀ w d0, acc = some (w, d0) → d0 < free_space a)) ∨
            (acc1 = acc ∧ ∃ w d0, acc = some (w, d0) ∧ free_space a ≤ d0) →
          (acc = some (i, d) ∧ ∀ b ∈ a :: rest, size ≤ free_space b → free_space b ≤ d) ∨
          (∃ j b, i = k + j ∧ (a :: rest)[j]? = some b ∧ free_space b = d ∧ size ≤ d ∧
            (∀ w d0, acc = some (w, d0) → d0 < d) ∧
            (∀ m, m < j → ∀ c, (a :: rest)[m]? = some c → size ≤ free_space c →
              free_space c < d) ∧
            (∀ c ∈ a :: rest, size ≤ free_space c → free_space c ≤ d)) := by
        intro acc1 hr hacc
        rcases ih (k + 1) acc1 hr with ⟨e, hmax⟩ | ⟨j, b, hi, hb, hd, hsz, hac, hearly, hmax⟩
        · rcases hacc with ⟨e1, hlt⟩ | ⟨e1, w, d0, e2, hle⟩
          · rw [e1] at e
            simp only [Option.some.injEq, Prod.mk.injEq] at e
            obtain ⟨rfl, rfl⟩ := e
            right
            refine ⟨0, a, rfl, by simp, rfl, hc, hlt, ?_, ?_⟩
            · intro m hm; omega
            · intro c hcm hcs
              rcases List.mem_cons.1 hcm with rfl | hcm
              · exact le_refl _
              · exact hmax c hcm hcs
          · rw [e1] at e
            left
            refine ⟨e, ?_⟩
            intro c hcm hcs
            rw [e2] at e
            simp only [Option.some.injEq, Prod.mk.injEq] at e
            obtain ⟨rfl, rfl⟩ := e
            rcases List.mem_cons.1 hcm with rfl | hcm
            · exact hle
            · exact hmax c hcm hcs
        · right
          have hda : free_space a < d := by
            rcases hacc with ⟨e1, _⟩ | ⟨e1, w, d0, e2, hle⟩
            · exact hac k (free_space a) e1
            · have := hac w d0 (by rw [e1, e2])
              omega
          refine ⟨j + 1, b, by omega, by simpa using hb, hd, hsz, ?_, ?_, ?_⟩
          · intro w d0 e
            rcases hacc with ⟨e1, hlt⟩ | ⟨e1, w1, d1, e2, hle⟩
            · have := hlt w d0 e
              omega
            · exact hac w d0 (by rw [e1, e])
          · intro m hm c hcm hcs
            cases m with
            | zero =>
              simp at hcm; subst hcm; exact hda
            | succ m => exact hearly m (by omega) c (by simpa using hcm) hcs
          · intro c hcm hcs
            rcases List.mem_cons.1 hcm with rfl | hcm
            · omega
            · exact hmax c hcm hcs
      cases acc with
      | none =>
        simp only at h
        exact key _ h (Or.inl ⟨rfl, by intro w d0 e; cases e⟩)
      | some p =>
        obtain ⟨w, d0⟩ := p
        simp only at h
        by_cases hgt : free_space a > d0
        · rw [if_pos hgt] at h
          refine key _ h (Or.inl ⟨rfl, ?_⟩)
          intro w1 d1 e
          simp only [Option.some.injEq, Prod.mk.injEq] at e
          omega
        · rw [if_neg hgt] at h
          exact key _ h (Or.inr ⟨rfl, w, d0, rfl, by omega⟩)
    · simp only [hc, if_false] at h
      rcases ih (k + 1) acc h with ⟨e, hmax⟩ | ⟨j, b, hi, hb, hd, hsz, hac, hearly, hmax⟩
      · left
        refine ⟨e, ?_⟩
        intro c hcm hcs
        rcases List.mem_cons.1 hcm with rfl | hcm
        · omega
        · exact hmax c hcm hcs
      · right
        refine ⟨j + 1, b, by omega, by simpa using hb, hd, hsz, hac, ?_, ?_⟩
        · intro m hm c hcm hcs
          cases m with
          | zero =>
            simp at hcm; subst hcm; omega
          | succ m => exact hearly m (by omega) c (by simpa using hcm) hcs
        · intro c hcm hcs
          rcases List.mem_cons.1 hcm with rfl | hcm
          · omega
          · exact hmax c hcm hcs

/-- C3: `worst_fit(size)` returns the first block, in list order, whose free
capacity is the maximum over the whole list, provided some block has free
capacity at least `size`; otherwise it returns `NULL`.  With free capacities
50 and 30 and a request of 20 the block with capacity 50 is selected. -/
theorem worst_fit_first_max (s : State) (size : Nat) :
    (∀ i, worst_fit s size = some i ↔ FirstMax s.g_head size i) ∧
    (worst_fit s size = none ↔ ∀ b ∈ s.g_head, free_space b < size) ∧
    ((∃ b ∈ s.g_head, size ≤ free_space b) → ∃ i, FirstMax s.g_head size i) ∧
    (caps_50_30.g_head.map free_space = [50, 30] ∧ worst_fit caps_50_30 20 = some 0) ∧
    (caps_30_50.g_head.map free_space = [30, 50] ∧ worst_fit caps_30_50 20 = some 1) := by
  have hnone : worst_fit s size = none ↔ ∀ b ∈ s.g_head, free_space b < size := by
    unfold worst_fit
    rw [Option.map_eq_none', worst_fit_from_none]
    simp
  have hsome : ∀ i, worst_fit s size = some i → FirstMax s.g_head size i := by
    intro i h
    unfold worst_fit at h
    rw [Option.map_eq_some'] at h
    obtain ⟨⟨i1, d⟩, h1, h2⟩ := h
    simp only at h2
    subst h2
    rcases worst_fit_from_some size s.g_head 0 none i1 d h1 with
      ⟨e, _⟩ | ⟨j, b, hi, hb, hd, hsz, _, hearly, hmax⟩
    · cases e
    · have hij : i1 = j := by omega
      subst hij
      refine ⟨b, hb, by omega, ?_, ?_⟩
      · intro c hc
        by_cases hcs : size ≤ free_space c
        · have := hmax c hc hcs; omega
        · omega
      · intro m hm c hc
        by_cases hcs : size ≤ free_space c
        · have := hearly m hm c hc hcs; omega
        · omega
  have huniq : ∀ i k, FirstMax s.g_head size i → FirstMax s.g_head size k → i = k := by
    intro i k ⟨b, hb, _, hbmax, hbfirst⟩ ⟨c, hc, _, hcmax, hcfirst⟩
    rcases Nat.lt_trichotomy i k with hlt | heq | hgt
    · have h1 := hcfirst i hlt b hb
      have h2 := hbmax c (List.getElem?_mem hc)
      omega
    · exact heq
    · have h1 := hbfirst k hgt c hc
      have h2 := hcmax b (List.getElem?_mem hb)
      omega
  have hex : ∀ i, FirstMax s.g_head size i → ∃ k, worst_fit s size = some k := by
    intro i ⟨b, hb, hsz, _, _⟩
    cases hw : worst_fit s size with
    | some k => exact ⟨k, rfl⟩
    | none =>
      have := hnone.1 hw b (List.getElem?_mem hb)
      omega
  refine ⟨?_, hnone, ?_, ⟨by decide, by decide⟩, ⟨by decide, by decide⟩⟩
  · intro i
    constructor
    · exact hsome i
    · intro hi
      obtain ⟨k, hk⟩ := hex i hi
      rw [hk, huniq i k hi (hsome k hk)]
  · rintro ⟨b, hb, hsz⟩
    cases hw : worst_fit s size with
    | some k => exact ⟨k, hsome k hw⟩
    | none =>
      have := hnone.1 hw b hb
      omega

/-! ## Splitter -/

/-- C4 as stated fails: splitting a block of size 4096 with usage 96 for a
request of 200 creates a block of size 4000 (not 4096 - 200) with usage 200
(not 0) and leaves the first block with size 96 (not 200). -/
theorem split_partition_counterexample :
    (∃ b, part_state.g_head[0]? = some b ∧ 200 ≤ b.size - b.usage) ∧
    ∃ s1 b1 n1, split 80 part_state 0 200 = some (s1, 1) ∧ s1.g_head = [b1, n1] ∧
      ¬ (n1.size = 4096 - 200) ∧ ¬ (n1.usage = 0) ∧ ¬ (b1.size = 200) :=
  ⟨⟨_, rfl, by decide⟩, _, _, _, rfl, rfl, by decide, by decide, by decide⟩

/-- C4 (amended): when `split(b, size)` creates a new block (`b` is partly
used and the new header fits behind the used part), the new block has size
`b.size - b.usage` and usage `size`, it is linked immediately after `b`, and
`b` ends with its size equal to its unchanged usage. -/
theorem split_partition (H : Nat) (s : State) (i size : Nat) (b : mem_block)
    (hb : s.g_head[i]? = some b) (hu : b.usage ≠ 0)
    (hfit : H ≤ b.usage ∧ b.usage + H ≤ b.size) :
    ∃ s1 b1 n1, split H s i size = some (s1, i + 1) ∧
      s1.g_head = s.g_head.take i ++ b1 :: n1 :: s.g_head.drop (i + 1) ∧
      s1.g_head[i]? = some b1 ∧ s1.g_head[i + 1]? = some n1 ∧
      s1.g_head.length = s.g_head.length + 1 ∧
      n1.size = b.size - b.usage ∧ n1.usage = size ∧
      b1.size = b.usage ∧ b1.usage = b.usage ∧ b1.usage = b1.size := by
  have hi : i < s.g_head.length := (List.getElem?_eq_some.1 hb).1
  have hlen : (s.g_head.take i).length = i := by
    rw [List.length_take]; omega
  refine ⟨⟨s.g_head.take i ++ { b with size := b.usage } ::
      (populate s.g_allocations (b.addr + b.usage) size (b.size - b.usage) b.region_start).1 ::
      s.g_head.drop (i + 1), s.g_allocations + 1⟩,
    { b with size := b.usage }, (populate s.g_allocations (b.addr + b.usage) size
    (b.size - b.usage) b.region_start).1, ?_, rfl, ?_, ?_, ?_, rfl, rfl, rfl, rfl, rfl⟩
  · unfold split
    rw [hb]
    simp only [hu, if_false, hfit, and_self, if_true]
    rfl
  · rw [List.getElem?_append_right (by omega), hlen]
    simp
  · rw [List.getElem?_append_right (by omega), hlen]
    simp
  · simp only [List.length_append, List.length_cons, List.length_drop, hlen]
    omega

/-- Instance of the amended C4 at the block of `part_state`. -/
theorem split_partition_witness :
    ∃ s1 b1 n1, split 80 part_state 0 200 = some (s1, 1) ∧
      s1.g_head = part_state.g_head.take 0 ++ b1 :: n1 :: part_state.g_head.drop 1 ∧
      s1.g_head[0]? = some b1 ∧ s1.g_head[1]? = some n1 ∧
      s1.g_head.length = part_state.g_head.length + 1 ∧
      n1.size = 4096 - 96 ∧ n1.usage = 200 ∧
      b1.size = 96 ∧ b1.usage = 96 ∧ b1.usage = b1.size :=
  split_partition 80 part_state 0 200 (blk 4096 0 4096 96 4096 (some 4096)) rfl
    (by decide) (by decide)

/-- C5: on a wholly free block (usage 0) `split(b, size)` sets the usage to
`size` and returns `b` itself; no block is created, and the size, id, label,
region back-reference and successor of `b`, every other block and the id
counter are unchanged.  This holds for every `size`, in particular when
`size ≤ b.size` and the remainder `b.size - size` is smaller than a header. -/
theorem split_free_block (H : Nat) (s : State) (i size : Nat) (b : mem_block)
    (hb : s.g_head[i]? = some b) (h0 : b.usage = 0) :
    ∃ s1, split H s i size = some (s1, i) ∧
      s1.g_head = s.g_head.set i { b with usage := size } ∧
      s1.g_head.length = s.g_head.length ∧
      s1.g_head[i]? = some { b with usage := size } ∧
      (∀ j, j ≠ i → s1.g_head[j]? = s.g_head[j]?) ∧
      s1.g_allocations = s.g_allocations := by
  have hi : i < s.g_head.length := (List.getElem?_eq_some.1 hb).1
  refine ⟨{ s with g_head := s.g_head.set i { b with usage := size } }, ?_, rfl, ?_, ?_, ?_, rfl⟩
  · unfold split
    rw [hb]
    simp only [h0, if_true]
  · simp
  · simp [hi]
  · intro j hj
    simp only
    rw [List.getElem?_set_ne (Ne.symm hj)]

/-- Instance of C5: an exact fit on a free block of size 96. -/
theorem split_free_block_witness :
    ∃ s1, split 80 ⟨[blk 4096 0 96 0 4096 (some 4096)], 1⟩ 0 96 = some (s1, 0) ∧
      s1.g_head = [{ blk 4096 0 96 0 4096 (some 4096) with usage := 96 }] ∧
      s1.g_head.length = 1 ∧
      s1.g_head[0]? = some { blk 4096 0 96 0 4096 (some 4096) with usage := 96 } ∧
      (∀ j, j ≠ 0 → s1.g_head[j]? = [blk 4096 0 96 0 4096 (some 4096)][j]?) ∧
      s1.g_allocations = 1 :=
  split_free_block 80 ⟨[blk 4096 0 96 0 4096 (some 4096)], 1⟩ 0 96
    (blk 4096 0 96 0 4096 (some 4096)) rfl rfl

/-! ## Allocation -/

theorem align8_lt (x : Nat) (hx : x < WORD) : align8 x < WORD := by
  unfold align8
  split_ifs
  · exact Nat.mod_lt _ (by unfold WORD; norm_num)
  · exact hx

theorem block_size_lt (H size : Nat) : block_size H size < WORD :=
  align8_lt _ (Nat.mod_lt _ (by unfold WORD; norm_num))

theorem WORD_eq : WORD = 18446744073709551616 := by
  unfold WORD; norm_num

theorem block_size_no_wrap (H size : Nat) (h : size + H + 7 < WORD) :
    8 ∣ block_size H size ∧ size + H ≤ block_size H size ∧
      block_size H size < size + H + 8 := by
  rw [WORD_eq] at h
  have e1 : (size + H) % WORD = size + H := Nat.mod_eq_of_lt (by rw [WORD_eq]; omega)
  unfold block_size align8
  rw [e1]
  by_cases h8 : (size + H) % 8 ≠ 0
  · rw [if_pos h8, Nat.mod_eq_of_lt (by rw [WORD_eq]; omega)]
    refine ⟨by omega, by omega, by omega⟩
  · rw [if_neg h8]
    refine ⟨by omega, by omega, by omega⟩

theorem region_size_of_spec (b : Nat) (hb : b < WORD) (hr : region_size_of b ≠ 0) :
    page_sz ∣ region_size_of b ∧ b ≤ region_size_of b ∧
      ∀ m, page_sz ∣ m → b ≤ m → region_size_of b ≤ m := by
  unfold region_size_of page_sz WORD at *
  norm_num at *
  split_ifs at hr ⊢ with h0
  · have e : b / 4096 * 4096 % 18446744073709551616 = b / 4096 * 4096 := by omega
    rw [e]
    refine ⟨by omega, by omega, ?_⟩
    intro m hm hbm
    omega
  · have hne : (b / 4096 + 1) * 4096 ≠ 18446744073709551616 := by
      intro e
      rw [e] at hr
      norm_num at hr
    have e : (b / 4096 + 1) * 4096 % 18446744073709551616 = (b / 4096 + 1) * 4096 := by omega
    rw [e]
    refine ⟨by omega, by omega, ?_⟩
    intro m hm hbm
    omega

/-- C6 fails for a request that wraps: in the empty allocator `malloc(2^64 - 1)`
with a header of 80 bytes returns a non-null pointer to a block whose usage is
80, far below `n + H`, so not a single payload byte belongs to the caller. -/
theorem malloc_rounding_wraps :
    ∃ s1 p b, malloc 80 none State.init (2 ^ 64 - 1) (some 4096) = some (s1, p) ∧ p ≠ 0 ∧
      header_of 80 s1 p = some (0, b) ∧ b.usage = 80 ∧ b.size = 4096 ∧
      ¬ (2 ^ 64 - 1 + 80 ≤ b.usage) ∧ ¬ (2 ^ 64 - 1 ≤ b.usage - 80) :=
  ⟨_, _, _, rfl, by decide, rfl, rfl, rfl, by decide, by decide⟩

/-- C7: when the directory is empty or the selected policy reports a miss, and
the mapping of the region succeeds at address `a`, `malloc(size)` appends
exactly one block to the chain and returns its payload pointer.  The block has
the region size as its size, which is the smallest multiple of 4096 not below
the rounded request `block_size H size`; its usage is the rounded request, its
region back-reference is itself and its id is the previous counter value; the
blocks already in the chain are unchanged.  The rounded request is the smallest
multiple of 8 not below `size + H` whenever that sum does not wrap. -/
theorem malloc_new_region (H : Nat) (env : Option String) (s : State) (size a : Nat)
    (os : Option Nat) (hsize : size ≠ 0)
    (hmiss : s.g_head = [] ∨ select_policy env s (block_size H size) = none)
    (hos : request (region_size_of (block_size H size)) os = some a) :
    malloc H env s size os =
      some ({ g_head := s.g_head ++
                [{ addr := a
                   alloc_id := s.g_allocations
                   name := "Allocation " ++ toString s.g_allocations
                   size := region_size_of (block_size H size)
                   usage := block_size H size
                   region_start := a
                   region_size := some (region_size_of (block_size H size)) }]
              g_allocations := s.g_allocations + 1 }, a + H) ∧
    (page_sz ∣ region_size_of (block_size H size) ∧
      block_size H size ≤ region_size_of (block_size H size) ∧
      ∀ m, page_sz ∣ m → block_size H size ≤ m → region_size_of (block_size H size) ≤ m) ∧
    (size + H + 7 < WORD →
      8 ∣ block_size H size ∧ size + H ≤ block_size H size ∧
        block_size H size < size + H + 8) := by
  have hr : region_size_of (block_size H size) ≠ 0 := by
    intro e
    rw [e] at hos
    simp [request] at hos
  refine ⟨?_, region_size_of_spec _ (block_size_lt H size) hr, block_size_no_wrap H size⟩
  unfold malloc
  rw [if_neg hsize]
  simp only
  cases hl : s.g_head with
  | nil =>
    simp only [hos, region_block, populate, List.nil_append]
  | cons b rest =>
    have hsel : select_policy env s (block_size H size) = none := by
      rcases hmiss with h | h
      · rw [hl] at h; cases h
      · exact h
    simp only [reuse, hsel, hos, region_block, populate, hl]

/-- Instance of C7: the first allocation of 10 bytes maps one page. -/
theorem malloc_new_region_witness :
    malloc 80 none State.init 10 (some 4096) =
      some ({ g_head := State.init.g_head ++
                [{ addr := 4096
                   alloc_id := State.init.g_allocations
                   name := "Allocation " ++ toString State.init.g_allocations
                   size := region_size_of (block_size 80 10)
                   usage := block_size 80 10
                   region_start := 4096
                   region_size := some (region_size_of (block_size 80 10)) }]
              g_allocations := State.init.g_allocations + 1 }, 4096 + 80) ∧
    (page_sz ∣ region_size_of (block_size 80 10) ∧
      block_size 80 10 ≤ region_size_of (block_size 80 10) ∧
      ∀ m, page_sz ∣ m → block_size 80 10 ≤ m → region_size_of (block_size 80 10) ≤ m) ∧
    (10 + 80 + 7 < WORD →
      8 ∣ block_size 80 10 ∧ 10 + 80 ≤ block_size 80 10 ∧
        block_size 80 10 < 10 + 80 + 8) :=
  malloc_new_region 80 none State.init 10 4096 (some 4096) (by decide) (Or.inl rfl) rfl

/-- C8: `malloc(0)` returns `NULL` and leaves the chain and the id counter as
they were, in every state. -/
theorem malloc_zero (H : Nat) (env : Option String) (s : State) (os : Option Nat) :
    malloc H env s 0 os = some (s, 0) := by
  simp [malloc]

/-! ## Shape of the chain -/

theorem runs_append (p : Option Nat) (l1 l2 : List mem_block) :
    runs p (l1 ++ l2) ↔ runs p l1 ∧ runs (last_region p l1) l2 := by
  induction l1 generalizing p with
  | nil => simp [runs, last_region]
  | cons a t ih => simp [runs, last_region, ih, and_assoc]

theorem last_region_append (p : Option Nat) (l1 l2 : List mem_block) :
    last_region p (l1 ++ l2) = last_region (last_region p l1) l2 := by
  induction l1 generalizing p with
  | nil => rfl
  | cons a t ih => simp [last_region, ih]

theorem runs_of_self (p q : Option Nat) (h : mem_block) (t : List mem_block)
    (hr : runs p (h :: t)) (hs : h.region_start = h.addr) : runs q (h :: t) :=
  ⟨Or.inl hs, hr.2⟩

theorem last_region_of_all (p : Option Nat) (r : Nat) (l : List mem_block) (hne : l ≠ [])
    (h : ∀ x ∈ l, x.region_start = r) : last_region p l = some r := by
  induction l generalizing p with
  | nil => exact absurd rfl hne
  | cons a t ih =>
    have ha : a.region_start = r := h a (List.mem_cons_self _ _)
    cases t with
    | nil => simp [last_region, ha]
    | cons b t2 =>
      simp only [last_region]
      have := ih (some a.region_start) (by simp) (fun x hx => h x (List.mem_cons_of_mem _ hx))
      simpa [last_region] using this

theorem take_drop_of_getElem? {l : List mem_block} {i : Nat} {b : mem_block}
    (hb : l[i]? = some b) :
    l = l.take i ++ b :: l.drop (i + 1) ∧ (l.take i).length = i := by
  obtain ⟨hi, e⟩ := List.getElem?_eq_some.1 hb
  refine ⟨?_, by rw [List.length_take]; omega⟩
  conv_lhs => rw [← List.take_append_drop i l]
  rw [List.drop_eq_getElem_cons hi, e]

theorem set_of_getElem? {l : List mem_block} {i : Nat} {b : mem_block} (b1 : mem_block)
    (hb : l[i]? = some b) : l.set i b1 = l.take i ++ b1 :: l.drop (i + 1) := by
  obtain ⟨hi, _⟩ := List.getElem?_eq_some.1 hb
  rw [List.set_eq_take_append_cons_drop, if_pos hi]

theorem ShapeL.nil : ShapeL [] :=
  ⟨fun b hb => (List.not_mem_nil b hb).elim, List.Pairwise.nil, trivial⟩

/-- Replacing a block by one with the same address, size and back-reference. -/
theorem ShapeL.update {pre post : List mem_block} {b b1 : mem_block}
    (h : ShapeL (pre ++ b :: post)) (ha : b1.addr = b.addr) (hs : b1.size = b.size)
    (hr : b1.region_start = b.region_start) : ShapeL (pre ++ b1 :: post) := by
  obtain ⟨hpos, hdisj, hrun⟩ := h
  refine ⟨?_, ?_, ?_⟩
  · intro x hx
    rcases List.mem_append.1 hx with hx | hx
    · exact hpos x (List.mem_append_left _ hx)
    · rcases List.mem_cons.1 hx with rfl | hx
      · rw [hs]; exact hpos b (by simp)
      · exact hpos x (by simp [hx])
  · rw [List.pairwise_append, List.pairwise_cons] at hdisj ⊢
    obtain ⟨h1, ⟨h2, h3⟩, h4⟩ := hdisj
    refine ⟨h1, ⟨?_, h3⟩, ?_⟩
    · intro y hy
      have := h2 y hy
      unfold apart at this ⊢
      rw [ha, hs]; exact this
    · intro x hx y hy
      rcases List.mem_cons.1 hy with rfl | hy
      · have := h4 x hx b (by simp)
        unfold apart at this ⊢
        rw [ha, hs]; exact this
      · exact h4 x hx y (by simp [hy])
  · rw [runs_append] at hrun ⊢
    refine ⟨hrun.1, ?_⟩
    have h2 := hrun.2
    simp only [runs] at h2 ⊢
    rw [ha, hr]; exact h2

/-- Cutting a block in two at offset `u`. -/
theorem ShapeL.split {pre post : List mem_block} {b b1 n1 : mem_block} {u : Nat}
    (h : ShapeL (pre ++ b :: post)) (hu : 0 < u) (hub : u < b.size)
    (ha : b1.addr = b.addr) (hs : b1.size = u) (hr : b1.region_start = b.region_start)
    (hna : n1.addr = b.addr + u) (hns : n1.size = b.size - u)
    (hnr : n1.region_start = b.region_start) : ShapeL (pre ++ b1 :: n1 :: post) := by
  obtain ⟨hpos, hdisj, hrun⟩ := h
  refine ⟨?_, ?_, ?_⟩
  · intro x hx
    rcases List.mem_append.1 hx with hx | hx
    · exact hpos x (List.mem_append_left _ hx)
    · rcases List.mem_cons.1 hx with rfl | hx
      · omega
      · rcases List.mem_cons.1 hx with rfl | hx
        · omega
        · exact hpos x (by simp [hx])
  · rw [List.pairwise_append, List.pairwise_cons] at hdisj
    obtain ⟨h1, ⟨h2, h3⟩, h4⟩ := hdisj
    rw [List.pairwise_append, List.pairwise_cons, List.pairwise_cons]
    refine ⟨h1, ⟨?_, ?_, h3⟩, ?_⟩
    · intro y hy
      rcases List.mem_cons.1 hy with rfl | hy
      · unfold apart; left; omega
      · have := h2 y hy
        unfold apart at this ⊢
        omega
    · intro y hy
      have := h2 y hy
      unfold apart at this ⊢
      omega
    · intro x hx y hy
      have hxb := h4 x hx b (by simp)
      unfold apart at hxb
      rcases List.mem_cons.1 hy with rfl | hy
      · unfold apart; omega
      · rcases List.mem_cons.1 hy with rfl | hy
        · unfold apart; omega
        · exact h4 x hx y (by simp [hy])
  · rw [runs_append] at hrun ⊢
    refine ⟨hrun.1, ?_⟩
    have h2 := hrun.2
    simp only [runs] at h2 ⊢
    rw [ha, hr, hnr]
    exact ⟨h2.1, Or.inr rfl, h2.2⟩

/-- Appending the first block of a fresh region. -/
theorem ShapeL.append {l : List mem_block} {nb : mem_block} (h : ShapeL l)
    (hs : 0 < nb.size) (hr : nb.region_start = nb.addr) (hd : ∀ b ∈ l, apart b nb) :
    ShapeL (l ++ [nb]) := by
  obtain ⟨hpos, hdisj, hrun⟩ := h
  refine ⟨?_, ?_, ?_⟩
  · intro x hx
    rcases List.mem_append.1 hx with hx | hx
    · exact hpos x hx
    · rw [List.mem_singleton.1 hx]; exact hs
  · rw [List.pairwise_append]
    refine ⟨hdisj, List.pairwise_singleton _ _, ?_⟩
    intro x hx y hy
    rw [List.mem_singleton.1 hy]; exact hd x hx
  · rw [runs_append]
    exact ⟨hrun, Or.inl hr, trivial⟩

/-- Removing a whole run, the next block (if any) being in another region. -/
theorem ShapeL.remove {pre run post : List mem_block} {r : Nat}
    (h : ShapeL (pre ++ run ++ post)) (hrun : ∀ x ∈ run, x.region_start = r)
    (hpost : ∀ y ∈ post.head?, y.region_start ≠ r) : ShapeL (pre ++ post) := by
  obtain ⟨hpos, hdisj, hr⟩ := h
  have hsub : (pre ++ post).Sublist (pre ++ run ++ post) := by
    rw [List.append_assoc]
    exact List.Sublist.append (List.Sublist.refl _) (List.sublist_append_right _ _)
  refine ⟨fun x hx => hpos x (hsub.subset hx), hdisj.sublist hsub, ?_⟩
  rw [List.append_assoc, runs_append, runs_append] at hr
  rw [runs_append]
  refine ⟨hr.1, ?_⟩
  by_cases hne : run = []
  · subst hne
    simpa [last_region] using hr.2.2
  · rw [last_region_of_all _ r run hne hrun] at hr
    cases post with
    | nil => trivial
    | cons y t =>
      have hy : y.region_start ≠ r := hpost y (by simp)
      have h2 := hr.2.2
      refine runs_of_self _ _ y t h2 ?_
      rcases h2.1 with h3 | h3
      · exact h3
      · simp only [Option.some.injEq] at h3
        exact absurd h3.symm hy

theorem shape_init : Shape State.init := ShapeL.nil

theorem shape_set {s : State} {i : Nat} {b : mem_block} (b1 : mem_block) (h : Shape s)
    (hb : s.g_head[i]? = some b) (ha : b1.addr = b.addr) (hs : b1.size = b.size)
    (hr : b1.region_start = b.region_start) :
    Shape { s with g_head := s.g_head.set i b1 } := by
  unfold Shape at h ⊢
  simp only
  rw [set_of_getElem? b1 hb]
  rw [(take_drop_of_getElem? hb).1] at h
  exact h.update ha hs hr

theorem header_of_getElem? {H : Nat} {s : State} {ptr i : Nat} {b : mem_block}
    (h : header_of H s ptr = some (i, b)) : s.g_head[i]? = some b := by
  unfold header_of at h
  split_ifs at h
  cases hf : find_block (ptr - H) s.g_head with
  | none => simp [hf] at h
  | some k =>
    simp only [hf] at h
    cases hk : s.g_head[k]? with
    | none => simp [hk] at h
    | some c =>
      simp only [hk, Option.some.injEq, Prod.mk.injEq] at h
      obtain ⟨rfl, rfl⟩ := h
      exact hk

theorem shape_split {H : Nat} (hH : 0 < H) {s s1 : State} {i size j : Nat} (h : Shape s)
    (hsp : split H s i size = some (s1, j)) : Shape s1 := by
  unfold split at hsp
  cases hb : s.g_head[i]? with
  | none => simp [hb] at hsp
  | some curr =>
    simp only [hb] at hsp
    by_cases h0 : curr.usage = 0
    · rw [if_pos h0] at hsp
      simp only [Option.some.injEq, Prod.mk.injEq] at hsp
      rw [← hsp.1]
      exact shape_set _ h hb rfl rfl rfl
    · rw [if_neg h0] at hsp
      by_cases hg : H ≤ curr.usage ∧ curr.usage + H ≤ curr.size
      · rw [if_pos hg] at hsp
        simp only [Option.some.injEq, Prod.mk.injEq] at hsp
        rw [← hsp.1]
        unfold Shape at h ⊢
        simp only
        rw [(take_drop_of_getElem? hb).1] at h
        exact h.split (u := curr.usage) (by omega) (by omega) rfl rfl rfl rfl rfl rfl
      · rw [if_neg hg] at hsp
        cases hsp

theorem reuse_miss {H : Nat} {env : Option String} {s s1 : State} {size : Nat}
    (h : reuse H env s size = some (s1, none)) : s1 = s := by
  unfold reuse at h
  cases hp : select_policy env s size with
  | none =>
    simp only [hp, Option.some.injEq, Prod.mk.injEq] at h
    exact h.1.symm
  | some i =>
    simp only [hp, Option.map_eq_some'] at h
    obtain ⟨r, _, hr⟩ := h
    simp at hr

theorem shape_reuse {H : Nat} (hH : 0 < H) {env : Option String} {s s1 : State} {size : Nat}
    {r : Option Nat} (h : Shape s) (hre : reuse H env s size = some (s1, r)) : Shape s1 := by
  unfold Allocator.reuse at hre
  cases hp : select_policy env s size with
  | none =>
    simp only [hp, Option.some.injEq, Prod.mk.injEq] at hre
    rw [← hre.1]; exact h
  | some i =>
    simp only [hp, Option.map_eq_some'] at hre
    obtain ⟨q, hq, hr⟩ := hre
    simp only [Prod.mk.injEq] at hr
    rw [← hr.1]
    exact shape_split hH h (j := q.2) hq

theorem shape_region {s : State} (size : Nat) {rsz a : Nat} {os : Option Nat} (h : Shape s)
    (hf : Fresh s rsz os) (hos : request rsz os = some a) :
    Shape { g_head := s.g_head ++ [(region_block s.g_allocations a size rsz).1]
            g_allocations := (region_block s.g_allocations a size rsz).2 } := by
  unfold request at hos
  split_ifs at hos with h0
  obtain ⟨_, _, hd⟩ := hf a hos
  unfold Shape at h ⊢
  refine h.append ?_ rfl ?_
  · simp only [region_block, populate]; omega
  · intro b hb
    have := hd b hb
    unfold apart
    simp only [region_block, populate]
    omega

theorem shape_malloc {H : Nat} (hH : 0 < H) {env : Option String} {s s1 : State}
    {size p : Nat} {os : Option Nat} (h : Shape s)
    (hf : Fresh s (region_size_of (block_size H size)) os)
    (hm : malloc H env s size os = some (s1, p)) : Shape s1 := by
  unfold Allocator.malloc at hm
  by_cases hz : size = 0
  · rw [if_pos hz] at hm
    simp only [Option.some.injEq, Prod.mk.injEq] at hm
    rw [← hm.1]; exact h
  · rw [if_neg hz] at hm
    simp only at hm
    cases hl : s.g_head with
    | nil =>
      simp only [hl] at hm
      cases hos : request (region_size_of (block_size H size)) os with
      | none =>
        simp only [hos, Option.some.injEq, Prod.mk.injEq] at hm
        rw [← hm.1]; exact h
      | some a =>
        simp only [hos, Option.some.injEq, Prod.mk.injEq] at hm
        rw [← hm.1]
        have := shape_region (block_size H size) h hf hos
        rw [hl] at this
        exact this
    | cons b0 rest =>
      simp only [hl] at hm
      cases hre : reuse H env s (block_size H size) with
      | none => simp [hre] at hm
      | some q =>
        obtain ⟨s2, r⟩ := q
        have hs2 : Shape s2 := shape_reuse hH h hre
        cases r with
        | some j =>
          simp only [hre] at hm
          cases hj : s2.g_head[j]? with
          | none => simp [hj] at hm
          | some c =>
            simp only [hj, Option.some.injEq, Prod.mk.injEq] at hm
            rw [← hm.1]; exact hs2
        | none =>
          have e : s2 = s := reuse_miss hre
          subst e
          simp only [hre] at hm
          cases hos : request (region_size_of (block_size H size)) os with
          | none =>
            simp only [hos, Option.some.injEq, Prod.mk.injEq] at hm
            rw [← hm.1]; exact h
          | some a =>
            simp only [hos, Option.some.injEq, Prod.mk.injEq] at hm
            rw [← hm.1]
            exact shape_region (block_size H size) h hf hos

theorem region_scan_spec (r : Nat) (l : List mem_block) :
    ∃ run, l = run ++ (region_scan r l).2 ∧ (∀ x ∈ run, x.region_start = r) ∧
      ((region_scan r l).1 = true → ∀ y ∈ (region_scan r l).2.head?, y.region_start ≠ r) := by
  induction l with
  | nil => exact ⟨[], by simp [region_scan]⟩
  | cons a t ih =>
    unfold region_scan
    by_cases ha : a.region_start = r
    · rw [if_pos ha]
      by_cases hu : a.usage ≠ 0
      · rw [if_pos hu]
        exact ⟨[], by simp⟩
      · rw [if_neg hu]
        obtain ⟨run, e, h1, h2⟩ := ih
        refine ⟨a :: run, ?_, ?_, h2⟩
        · rw [List.cons_append, ← e]
        · intro x hx
          rcases List.mem_cons.1 hx with rfl | hx
          · exact ha
          · exact h1 x hx
    · rw [if_neg ha]
      refine ⟨[], by simp, by simp, ?_⟩
      intro _ y hy
      simp only [List.head?_cons, Option.mem_def, Option.some.injEq] at hy
      rw [← hy]; exact ha

theorem shape_free {H : Nat} {s s1 : State} {ptr : Nat} {ret : Int} (h : Shape s)
    (hfr : free H s ptr ret = some s1) : Shape s1 := by
  unfold Allocator.free at hfr
  by_cases hp : ptr = 0
  · rw [if_pos hp] at hfr
    simp only [Option.some.injEq] at hfr
    rw [← hfr]; exact h
  · rw [if_neg hp] at hfr
    cases hh : header_of H s ptr with
    | none => simp [hh] at hfr
    | some q =>
      obtain ⟨i, block⟩ := q
      simp only [hh] at hfr
      have hb := header_of_getElem? hh
      have h1 : Shape { s with g_head := s.g_head.set i { block with usage := 0 } } :=
        shape_set _ h hb rfl rfl rfl
      generalize hbl : s.g_head.set i { block with usage := 0 } = blocks at hfr h1
      have hsplit := List.takeWhile_append_dropWhile
        (fun b => decide (b.addr ≠ block.region_start)) blocks
      cases hd : blocks.dropWhile (fun b => decide (b.addr ≠ block.region_start)) with
      | nil =>
        rw [hd] at hfr
        cases hfr
      | cons first rest =>
        rw [hd] at hfr
        simp only at hfr
        rw [hd] at hsplit
        obtain ⟨run, e, hrun, hnext⟩ := region_scan_spec block.region_start (first :: rest)
        have key : Shape (State.mk
            (List.takeWhile (fun b => decide (b.addr ≠ block.region_start)) blocks ++
              (region_scan block.region_start (first :: rest)).2) s.g_allocations) →
            (region_scan block.region_start (first :: rest)).1 = true → Shape s1 := by
          intro hk ht
          rw [if_pos ht] at hfr
          split_ifs at hfr with hbe
          all_goals
            simp only [Option.some.injEq] at hfr
            rw [← hfr]
            first
              | exact hk
              | (rw [hbe] at hk; exact hk)
        by_cases ht : (region_scan block.region_start (first :: rest)).1 = true
        · refine key ?_ ht
          unfold Shape at h1 ⊢
          simp only at h1 ⊢
          rw [← hsplit, e, ← List.append_assoc] at h1
          exact h1.remove hrun (hnext ht)
        · rw [if_neg ht] at hfr
          simp only [Option.some.injEq] at hfr
          rw [← hfr]; exact h1

theorem shape_malloc_name {H name_sz : Nat} (hH : 0 < H) {env : Option String} {s s1 : State}
    {size p : Nat} {name : String} {os : Option Nat} (h : Shape s)
    (hf : Fresh s (region_size_of (block_size H size)) os)
    (hm : malloc_name H name_sz env s size name os = some (s1, p)) : Shape s1 := by
  unfold Allocator.malloc_name at hm
  cases hma : Allocator.malloc H env s size os with
  | none => simp [hma] at hm
  | some q =>
    obtain ⟨s2, ptr⟩ := q
    have hs2 : Shape s2 := shape_malloc hH h hf hma
    simp only [hma] at hm
    cases hh : header_of H s2 ptr with
    | none => simp [hh] at hm
    | some q2 =>
      obtain ⟨i, block⟩ := q2
      simp only [hh] at hm
      split_ifs at hm
      simp only [Option.some.injEq, Prod.mk.injEq] at hm
      rw [← hm.1]
      exact shape_set _ hs2 (header_of_getElem? hh) rfl rfl rfl

theorem shape_calloc {H : Nat} (hH : 0 < H) {env : Option String} {s s1 : State}
    {nmemb size p : Nat} {os : Option Nat} (h : Shape s)
    (hf : Fresh s (region_size_of (block_size H ((nmemb * size) % WORD))) os)
    (hm : calloc H env s nmemb size os = some (s1, p)) : Shape s1 := by
  unfold Allocator.calloc at hm
  simp only at hm
  cases hma : Allocator.malloc H env s ((nmemb * size) % WORD) os with
  | none => simp [hma] at hm
  | some q =>
    obtain ⟨s2, ptr⟩ := q
    have hs2 : Shape s2 := shape_malloc hH h hf hma
    simp only [hma] at hm
    split_ifs at hm
    · simp only [Option.some.injEq, Prod.mk.injEq] at hm
      rw [← hm.1]; exact hs2
    · cases hh : header_of H s2 ptr with
      | none => simp [hh] at hm
      | some q2 =>
        obtain ⟨i, block⟩ := q2
        simp only [hh] at hm
        split_ifs at hm
        simp only [Option.some.injEq, Prod.mk.injEq] at hm
        rw [← hm.1]; exact hs2

theorem shape_realloc {H : Nat} (hH : 0 < H) {env : Option String} {s s1 : State}
    {ptr size p : Nat} {os : Option Nat} {ret : Int} (h : Shape s)
    (hf : Fresh s (region_size_of (block_size H size)) os)
    (hm : realloc H env s ptr size os ret = some (s1, p)) : Shape s1 := by
  unfold Allocator.realloc at hm
  simp only at hm
  split_ifs at hm with hp hz
  · exact shape_malloc hH h hf hm
  · rw [Option.map_eq_some'] at hm
    obtain ⟨s2, hfr, e⟩ := hm
    simp only [Prod.mk.injEq] at e
    rw [← e.1]; exact shape_free h hfr
  · cases hh : header_of H s ptr with
    | none => simp [hh] at hm
    | some q =>
      obtain ⟨i, curr⟩ := q
      simp only [hh] at hm
      split_ifs at hm with hfit
      · simp only [Option.some.injEq, Prod.mk.injEq] at hm
        rw [← hm.1]
        exact shape_set _ h (header_of_getElem? hh) rfl rfl rfl
      · cases hma : Allocator.malloc H env s size os with
        | none => simp [hma] at hm
        | some q2 =>
          obtain ⟨s2, new_ptr⟩ := q2
          have hs2 : Shape s2 := shape_malloc hH h hf hma
          simp only [hma] at hm
          split_ifs at hm with hnp
          · simp only [Option.some.injEq, Prod.mk.injEq] at hm
            rw [← hm.1]; exact hs2
          · cases ho : header_of H s2 ptr with
            | none => simp [ho] at hm
            | some qo =>
              cases hn : header_of H s2 new_ptr with
              | none => simp [ho, hn] at hm
              | some qn =>
                simp only [ho, hn] at hm
                split_ifs at hm
                rw [Option.map_eq_some'] at hm
                obtain ⟨s3, hfr, e⟩ := hm
                simp only [Prod.mk.injEq] at e
                rw [← e.1]; exact shape_free hs2 hfr

/-- Every reachable state has a well-shaped directory. -/
theorem reachable_shape {H : Nat} (hH : 0 < H) {s : State} (h : Reachable H s) : Shape s := by
  induction h with
  | init => exact shape_init
  | malloc _ _ hf hm ih => exact shape_malloc hH ih hf hm
  | malloc_name _ _ hf hm ih => exact shape_malloc_name hH ih hf hm
  | calloc _ _ _ hf hm ih => exact shape_calloc hH ih hf hm
  | free _ hfr ih => exact shape_free ih hfr
  | realloc _ _ hf hm ih => exact shape_realloc hH ih hf hm

/-! ## Regions inside a well-shaped chain -/

theorem addr_ne_of_apart {x y : mem_block} (h : apart x y) (hx : 0 < x.size)
    (hy : 0 < y.size) : x.addr ≠ y.addr := by
  unfold apart at h
  omega

theorem find_block_of_getElem? (l : List mem_block) (hpos : ∀ b ∈ l, 0 < b.size)
    (hdisj : l.Pairwise apart) (i : Nat) (b : mem_block) (hb : l[i]? = some b) :
    find_block b.addr l = some i := by
  induction l generalizing i with
  | nil => simp at hb
  | cons a t ih =>
    rw [List.pairwise_cons] at hdisj
    cases i with
    | zero =>
      simp only [List.getElem?_cons_zero, Option.some.injEq] at hb
      subst hb
      simp [find_block]
    | succ k =>
      simp only [List.getElem?_cons_succ] at hb
      have hbt : b ∈ t := List.getElem?_mem hb
      have hne : a.addr ≠ b.addr :=
        addr_ne_of_apart (hdisj.1 b hbt) (hpos a (by simp)) (hpos b (by simp [hbt]))
      unfold find_block
      rw [if_neg hne, ih (fun x hx => hpos x (by simp [hx])) hdisj.2 k hb]
      rfl

theorem header_of_block {H : Nat} {s : State} (hs : Shape s) {i : Nat} {b : mem_block}
    (hb : s.g_head[i]? = some b) : header_of H s (b.addr + H) = some (i, b) := by
  unfold header_of
  rw [if_neg (by omega), Nat.add_sub_cancel,
    find_block_of_getElem? s.g_head hs.pos hs.disj i b hb]
  simp only [hb]

theorem span_region (r : Nat) (t : List mem_block) :
    ∃ run post, t = run ++ post ∧ (∀ x ∈ run, x.region_start = r) ∧
      ∀ y ∈ post.head?, y.region_start ≠ r := by
  induction t with
  | nil => exact ⟨[], [], rfl, by simp, by simp⟩
  | cons a t ih =>
    by_cases ha : a.region_start = r
    · obtain ⟨run, post, e, h1, h2⟩ := ih
      refine ⟨a :: run, post, by rw [e]; rfl, ?_, h2⟩
      intro x hx
      rcases List.mem_cons.1 hx with rfl | hx
      · exact ha
      · exact h1 x hx
    · refine ⟨[], a :: t, rfl, by simp, ?_⟩
      intro y hy
      simp only [List.head?_cons, Option.mem_def, Option.some.injEq] at hy
      rw [← hy]; exact ha

theorem runs_other_region (r : Nat) (l : List mem_block) (p : Option Nat)
    (hr : runs p l) (hp : p ≠ some r) (ha : ∀ z ∈ l, z.addr ≠ r) :
    ∀ z ∈ l, z.region_start ≠ r := by
  induction l generalizing p with
  | nil => intro z hz; cases hz
  | cons a t ih =>
    have har : a.region_start ≠ r := by
      rcases hr.1 with h1 | h1
      · rw [h1]; exact ha a (by simp)
      · intro e
        rw [h1, e] at hp
        exact hp rfl
    intro z hz
    rcases List.mem_cons.1 hz with rfl | hz
    · exact har
    · exact ih (some a.region_start) hr.2 (by simpa using har)
        (fun z hz => ha z (by simp [hz])) z hz

theorem region_start_block (r : Nat) (l : List mem_block) (p : Option Nat)
    (hr : runs p l) (hp : p ≠ some r) (hex : ∃ x ∈ l, x.region_start = r) :
    ∃ pre h t, l = pre ++ h :: t ∧ (∀ y ∈ pre, y.region_start ≠ r) ∧
      h.addr = r ∧ h.region_start = r := by
  induction l generalizing p with
  | nil =>
    obtain ⟨x, hx, _⟩ := hex
    cases hx
  | cons a t ih =>
    by_cases ha : a.region_start = r
    · refine ⟨[], a, t, rfl, by simp, ?_, ha⟩
      rcases hr.1 with h1 | h1
      · rw [← h1]; exact ha
      · rw [h1, ha] at hp
        exact absurd rfl hp
    · obtain ⟨x, hx, hxr⟩ := hex
      have hxt : x ∈ t := by
        rcases List.mem_cons.1 hx with rfl | hx
        · exact absurd hxr ha
        · exact hx
      obtain ⟨pre, h, t2, e, h1, h2, h3⟩ :=
        ih (some a.region_start) hr.2 (by simpa using ha) ⟨x, hxt, hxr⟩
      refine ⟨a :: pre, h, t2, by rw [e]; rfl, ?_, h2, h3⟩
      intro y hy
      rcases List.mem_cons.1 hy with rfl | hy
      · exact ha
      · exact h1 y hy

/-- In a well-shaped chain the blocks of a region form one run, which starts
with the block stored at the region start. -/
theorem region_decomp {l : List mem_block} (hS : ShapeL l) (r : Nat)
    (hex : ∃ x ∈ l, x.region_start = r) :
    ∃ pre h run post, l = pre ++ (h :: run) ++ post ∧
      (∀ y ∈ pre, y.region_start ≠ r ∧ y.addr ≠ r) ∧ h.addr = r ∧
      (∀ y ∈ h :: run, y.region_start = r) ∧ (∀ y ∈ post, y.region_start ≠ r) := by
  obtain ⟨pre, h, t, e, hpre, hha, hhr⟩ :=
    region_start_block r l none hS.run (by simp) hex
  obtain ⟨run, post, et, hrun, hpost⟩ := span_region r t
  have el : l = pre ++ (h :: run) ++ post := by
    rw [e, et]; simp
  have hdisj := hS.disj
  rw [e, List.pairwise_append, List.pairwise_cons] at hdisj
  obtain ⟨_, ⟨hht, _⟩, hpreh⟩ := hdisj
  have hposh : 0 < h.size := hS.pos h (by rw [e]; simp)
  have hall : ∀ y ∈ h :: run, y.region_start = r := by
    intro y hy
    rcases List.mem_cons.1 hy with rfl | hy
    · exact hhr
    · exact hrun y hy
  refine ⟨pre, h, run, post, el, ?_, hha, hall, ?_⟩
  · intro y hy
    refine ⟨hpre y hy, ?_⟩
    have := addr_ne_of_apart (hpreh y hy h (by simp)) (hS.pos y (by rw [e]; simp [hy])) hposh
    rw [hha] at this; exact this
  · have hr := hS.run
    rw [el, runs_append] at hr
    have hr2 := hr.2
    rw [last_region_append, last_region_of_all _ r (h :: run) (by simp) hall] at hr2
    have haddr : ∀ z ∈ post, z.addr ≠ r := by
      intro z hz
      have hzt : z ∈ t := by rw [et]; simp [hz]
      have := addr_ne_of_apart (hht z hzt) hposh (hS.pos z (by rw [e]; simp [hzt]))
      rw [hha] at this
      exact fun e2 => this e2.symm
    cases post with
    | nil => intro y hy; cases hy
    | cons y t2 =>
      have hy : y.region_start ≠ r := hpost y (by simp)
      have hself : y.region_start = y.addr := by
        rcases hr2.1 with h3 | h3
        · exact h3
        · simp only [Option.some.injEq] at h3
          exact absurd h3.symm hy
      exact runs_other_region r (y :: t2) none (runs_of_self _ none y t2 hr2 hself)
        (by simp) haddr

theorem scan_empty (r : Nat) (run post : List mem_block)
    (hrun : ∀ x ∈ run, x.region_start = r ∧ x.usage = 0)
    (hpost : ∀ y ∈ post.head?, y.region_start ≠ r) :
    region_scan r (run ++ post) = (true, post) := by
  induction run with
  | nil =>
    cases post with
    | nil => rfl
    | cons y t =>
      have hy : y.region_start ≠ r := hpost y (by simp)
      simp only [List.nil_append, region_scan, if_neg hy]
  | cons a t ih =>
    have ha := hrun a (by simp)
    simp only [List.cons_append, region_scan, ha.1, ha.2, if_true, ne_eq, not_true_eq_false,
      if_false]
    exact ih (fun x hx => hrun x (by simp [hx]))

theorem scan_busy (r : Nat) (run post : List mem_block)
    (hrun : ∀ x ∈ run, x.region_start = r) (hex : ∃ x ∈ run, x.usage ≠ 0) :
    (region_scan r (run ++ post)).1 = false := by
  induction run with
  | nil =>
    obtain ⟨x, hx, _⟩ := hex
    cases hx
  | cons a t ih =>
    have ha := hrun a (by simp)
    simp only [List.cons_append, region_scan, ha, if_true]
    by_cases hu : a.usage ≠ 0
    · rw [if_pos hu]
    · rw [if_neg hu]
      obtain ⟨x, hx, hxu⟩ := hex
      refine ih (fun x hx => hrun x (by simp [hx])) ⟨x, ?_, hxu⟩
      rcases List.mem_cons.1 hx with rfl | hx
      · exact absurd hxu hu
      · exact hx

/-- Evaluation of `free` on a chain whose region decomposition is known. -/
theorem free_eval {H : Nat} {s : State} {ptr i : Nat} {block h : mem_block}
    {pre run post : List mem_block} (ret : Int) (hp : ptr ≠ 0)
    (hh : header_of H s ptr = some (i, block))
    (e : s.g_head.set i { block with usage := 0 } = pre ++ (h :: run) ++ post)
    (hpre : ∀ y ∈ pre, y.addr ≠ block.region_start) (hha : h.addr = block.region_start)
    (hrun : ∀ y ∈ h :: run, y.region_start = block.region_start)
    (hpost : ∀ y ∈ post, y.region_start ≠ block.region_start) :
    free H s ptr ret =
      if ∀ y ∈ h :: run, y.usage = 0 then some { s with g_head := pre ++ post }
      else some { s with g_head := s.g_head.set i { block with usage := 0 } } := by
  unfold free
  rw [if_neg hp]
  simp only [hh]
  have hp1 : ∀ a ∈ pre, (fun b : mem_block => decide (b.addr ≠ block.region_start)) a = true := by
    intro a ha
    simpa using hpre a ha
  have hd : List.dropWhile (fun b : mem_block => decide (b.addr ≠ block.region_start))
      (s.g_head.set i { block with usage := 0 }) = (h :: run) ++ post := by
    rw [e, List.append_assoc, List.dropWhile_append_of_pos hp1, List.cons_append,
      List.dropWhile_cons_of_neg (by simp [hha])]
  have ht : List.takeWhile (fun b : mem_block => decide (b.addr ≠ block.region_start))
      (s.g_head.set i { block with usage := 0 }) = pre := by
    rw [e, List.append_assoc, List.takeWhile_append_of_pos hp1, List.cons_append,
      List.takeWhile_cons_of_neg (by simp [hha])]
    simp
  rw [hd, ht]
  simp only [List.cons_append]
  by_cases hall : ∀ y ∈ h :: run, y.usage = 0
  · rw [if_pos hall]
    have hsc := scan_empty block.region_start (h :: run) post
      (fun x hx => ⟨hrun x hx, hall x hx⟩)
      (fun y hy => hpost y (List.mem_of_mem_head? hy))
    rw [List.cons_append] at hsc
    rw [hsc]
    simp only [if_true]
    split_ifs with hpe
    all_goals first
      | rfl
      | (rw [hpe]; rfl)
  · rw [if_neg hall]
    have hex : ∃ x ∈ h :: run, x.usage ≠ 0 := by
      by_contra hc
      exact hall (fun y hy => by
        by_contra hu
        exact hc ⟨y, hy, hu⟩)
    have hsc := scan_busy block.region_start (h :: run) post hrun hex
    rw [List.cons_append] at hsc
    rw [hsc]
    simp

/-! ## Release -/

theorem filter_region (r : Nat) (pre run post : List mem_block)
    (hpre : ∀ y ∈ pre, y.region_start ≠ r) (hrun : ∀ y ∈ run, y.region_start = r)
    (hpost : ∀ y ∈ post, y.region_start ≠ r) :
    (pre ++ run ++ post).filter (fun x => decide (x.region_start ≠ r)) = pre ++ post := by
  rw [List.filter_append, List.filter_append]
  have h1 : pre.filter (fun x => decide (x.region_start ≠ r)) = pre :=
    List.filter_eq_self.2 (fun y hy => by simpa using hpre y hy)
  have h2 : run.filter (fun x => decide (x.region_start ≠ r)) = [] :=
    List.filter_eq_nil_iff.2 (fun y hy => by simpa using hrun y hy)
  have h3 : post.filter (fun x => decide (x.region_start ≠ r)) = post :=
    List.filter_eq_self.2 (fun y hy => by simpa using hpost y hy)
  rw [h1, h2, h3, List.append_nil]

theorem filter_region_set (r : Nat) (l : List mem_block) (i : Nat) (b b1 : mem_block)
    (hb : l[i]? = some b) (hr : b.region_start = r) (hr1 : b1.region_start = r) :
    (l.set i b1).filter (fun x => decide (x.region_start ≠ r)) =
      l.filter (fun x => decide (x.region_start ≠ r)) := by
  rw [set_of_getElem? b1 hb]
  conv_rhs => rw [(take_drop_of_getElem? hb).1]
  simp [List.filter_append, List.filter_cons, hr, hr1]

theorem mem_region_run {l pre run post : List mem_block} {r : Nat} {c : mem_block}
    (e : l = pre ++ run ++ post) (hpre : ∀ y ∈ pre, y.region_start ≠ r)
    (hpost : ∀ y ∈ post, y.region_start ≠ r) (hc : c ∈ l) (hcr : c.region_start = r) :
    c ∈ run := by
  rw [e, List.mem_append, List.mem_append] at hc
  rcases hc with (hc | hc) | hc
  · exact absurd hcr (hpre c hc)
  · exact hc
  · exact absurd hcr (hpost c hc)

/-- The part of C9 that holds, in states reached without a write outside a
block: in a reachable state, releasing the payload pointer of a block `b`
whose region holds another block with nonzero usage only sets the usage of `b`
to 0: no block is removed, merged or resized and the order of the chain is
unchanged.  Releasing `NULL` changes nothing. -/
theorem free_without_reclaim (H : Nat) (hH : 0 < H) (s : State) (hR : Reachable H s)
    (i j : Nat) (b c : mem_block) (hb : s.g_head[i]? = some b) (hc : s.g_head[j]? = some c)
    (hij : j ≠ i) (hreg : c.region_start = b.region_start) (hcu : c.usage ≠ 0) (ret : Int) :
    free H s (b.addr + H) ret =
      some { s with g_head := s.g_head.set i { b with usage := 0 } } ∧
    (s.g_head.set i { b with usage := 0 }).length = s.g_head.length ∧
    (s.g_head.set i { b with usage := 0 })[i]? = some { b with usage := 0 } ∧
    (∀ k, k ≠ i → (s.g_head.set i { b with usage := 0 })[k]? = s.g_head[k]?) ∧
    free H s 0 ret = some s := by
  have hs : Shape s := reachable_shape hH hR
  have hi : i < s.g_head.length := (List.getElem?_eq_some.1 hb).1
  have hh : header_of H s (b.addr + H) = some (i, b) := header_of_block hs hb
  have hs1 : ShapeL (s.g_head.set i { b with usage := 0 }) :=
    shape_set { b with usage := 0 } hs hb rfl rfl rfl
  have hc1 : (s.g_head.set i { b with usage := 0 })[j]? = some c := by
    rw [List.getElem?_set_ne (Ne.symm hij)]; exact hc
  have hcm : c ∈ s.g_head.set i { b with usage := 0 } := List.getElem?_mem hc1
  obtain ⟨pre, h, run, post, e, hpre, hha, hrun, hpost⟩ :=
    region_decomp hs1 b.region_start ⟨c, hcm, hreg⟩
  have hcr : c ∈ h :: run := mem_region_run e (fun y hy => (hpre y hy).1) hpost hcm hreg
  refine ⟨?_, by simp, by simp [hi], ?_, by simp [free]⟩
  · rw [free_eval ret (by omega) hh e (fun y hy => (hpre y hy).2) hha hrun hpost]
    rw [if_neg (fun hall => hcu (hall c hcr))]
  · intro k hk
    rw [List.getElem?_set_ne (Ne.symm hk)]

/-- The part of C10 that holds, in states reached without a write outside a
block: in a reachable state, releasing the payload pointer of a block `b`
such that every other block of its region has usage 0 removes exactly the
blocks of that region from the chain, whatever `munmap` returns: the chain is
`pre ++ run ++ post` with `run` the blocks of the region, and becomes
`pre ++ post`.  The cases `pre = []` and `post = []` are the four cases of
the unlinking. -/
theorem free_unlinks_region (H : Nat) (hH : 0 < H) (s : State) (hR : Reachable H s)
    (i : Nat) (b : mem_block) (hb : s.g_head[i]? = some b)
    (honly : ∀ k c, s.g_head[k]? = some c → k ≠ i →
      c.region_start = b.region_start → c.usage = 0) (ret : Int) :
    free H s (b.addr + H) ret =
      some { s with g_head :=
        s.g_head.filter (fun x => decide (x.region_start ≠ b.region_start)) } ∧
    ∃ pre run post, s.g_head = pre ++ run ++ post ∧ b ∈ run ∧
      (∀ x ∈ run, x.region_start = b.region_start) ∧
      (∀ x ∈ pre, x.region_start ≠ b.region_start) ∧
      (∀ x ∈ post, x.region_start ≠ b.region_start) ∧
      s.g_head.filter (fun x => decide (x.region_start ≠ b.region_start)) = pre ++ post := by
  have hs : Shape s := reachable_shape hH hR
  have hi : i < s.g_head.length := (List.getElem?_eq_some.1 hb).1
  have hbm : b ∈ s.g_head := List.getElem?_mem hb
  have hh : header_of H s (b.addr + H) = some (i, b) := header_of_block hs hb
  have hs1 : ShapeL (s.g_head.set i { b with usage := 0 }) :=
    shape_set { b with usage := 0 } hs hb rfl rfl rfl
  have hb1 : (s.g_head.set i { b with usage := 0 })[i]? = some { b with usage := 0 } := by
    simp [hi]
  obtain ⟨pre, h, run, post, e, hpre, hha, hrun, hpost⟩ :=
    region_decomp hs1 b.region_start ⟨_, List.getElem?_mem hb1, rfl⟩
  have hall : ∀ y ∈ h :: run, y.usage = 0 := by
    intro y hy
    have hym : y ∈ s.g_head.set i { b with usage := 0 } := by
      rw [e]; simp only [List.mem_append]; exact Or.inl (Or.inr hy)
    obtain ⟨k, hk⟩ := List.mem_iff_getElem?.1 hym
    by_cases hki : k = i
    · rw [hki, hb1] at hk
      simp only [Option.some.injEq] at hk
      rw [← hk]
    · rw [List.getElem?_set_ne (Ne.symm hki)] at hk
      exact honly k y hk hki (hrun y hy)
  obtain ⟨pre2, h2, run2, post2, e2, hpre2, _, hrun2, hpost2⟩ :=
    region_decomp hs b.region_start ⟨b, hbm, rfl⟩
  have hf2 := filter_region b.region_start pre2 (h2 :: run2) post2
    (fun y hy => (hpre2 y hy).1) hrun2 hpost2
  rw [← e2] at hf2
  refine ⟨?_, pre2, h2 :: run2, post2, e2,
    mem_region_run e2 (fun y hy => (hpre2 y hy).1) hpost2 hbm rfl, hrun2,
    fun y hy => (hpre2 y hy).1, hpost2, hf2⟩
  rw [free_eval ret (by omega) hh e (fun y hy => (hpre y hy).2) hha hrun hpost, if_pos hall]
  have hf := filter_region b.region_start pre (h :: run) post
    (fun y hy => (hpre y hy).1) hrun hpost
  rw [← e, filter_region_set b.region_start s.g_head i b { b with usage := 0 } hb rfl rfl] at hf
  rw [hf]

/-! ## Usage of the block returned by `malloc` -/

theorem split_usage {H : Nat} {s s1 : State} {i size j : Nat}
    (hsp : split H s i size = some (s1, j)) :
    ∃ b, s1.g_head[j]? = some b ∧ b.usage = size := by
  unfold split at hsp
  cases hb : s.g_head[i]? with
  | none => simp [hb] at hsp
  | some curr =>
    have hi : i < s.g_head.length := (List.getElem?_eq_some.1 hb).1
    simp only [hb] at hsp
    by_cases h0 : curr.usage = 0
    · rw [if_pos h0] at hsp
      simp only [Option.some.injEq, Prod.mk.injEq] at hsp
      obtain ⟨rfl, rfl⟩ := hsp
      exact ⟨{ curr with usage := size }, by simp [hi], rfl⟩
    · rw [if_neg h0] at hsp
      by_cases hg : H ≤ curr.usage ∧ curr.usage + H ≤ curr.size
      · rw [if_pos hg] at hsp
        simp only [Option.some.injEq, Prod.mk.injEq] at hsp
        obtain ⟨rfl, rfl⟩ := hsp
        refine ⟨(populate s.g_allocations (curr.addr + curr.usage) size
          (curr.size - curr.usage) curr.region_start).1, ?_, rfl⟩
        simp only
        rw [List.getElem?_append_right (by rw [List.length_take]; omega)]
        have : i + 1 - (List.take i s.g_head).length = 1 := by
          rw [List.length_take]; omega
        rw [this]
        simp
      · rw [if_neg hg] at hsp
        cases hsp

/-- In a well-shaped state the block in front of a non-null pointer returned by
`malloc(size)` has the rounded request `block_size H size` as its usage. -/
theorem malloc_usage {H : Nat} (hH : 0 < H) {env : Option String} {s s1 : State}
    {size p : Nat} {os : Option Nat} (h : Shape s)
    (hf : Fresh s (region_size_of (block_size H size)) os)
    (hm : malloc H env s size os = some (s1, p)) (hp : p ≠ 0) :
    ∃ i b, header_of H s1 p = some (i, b) ∧ b.usage = block_size H size := by
  have hs1 : Shape s1 := shape_malloc hH h hf hm
  unfold malloc at hm
  by_cases hz : size = 0
  · rw [if_pos hz] at hm
    simp only [Option.some.injEq, Prod.mk.injEq] at hm
    exact absurd hm.2.symm hp
  · rw [if_neg hz] at hm
    simp only at hm
    cases hl : s.g_head with
    | nil =>
      simp only [hl] at hm
      cases hos : request (region_size_of (block_size H size)) os with
      | none =>
        simp only [hos, Option.some.injEq, Prod.mk.injEq] at hm
        exact absurd hm.2.symm hp
      | some a =>
        simp only [hos, Option.some.injEq, Prod.mk.injEq] at hm
        obtain ⟨e1, e2⟩ := hm
        have hb : s1.g_head[0]? = some (region_block s.g_allocations a (block_size H size)
            (region_size_of (block_size H size))).1 := by
          rw [← e1]; rfl
        have := header_of_block (H := H) hs1 hb
        rw [← e2]
        exact ⟨0, _, this, rfl⟩
    | cons b0 rest =>
      simp only [hl] at hm
      cases hre : reuse H env s (block_size H size) with
      | none => simp [hre] at hm
      | some q =>
        obtain ⟨s2, r⟩ := q
        cases r with
        | some j =>
          simp only [hre] at hm
          cases hj : s2.g_head[j]? with
          | none => simp [hj] at hm
          | some c =>
            simp only [hj, Option.some.injEq, Prod.mk.injEq] at hm
            obtain ⟨e1, e2⟩ := hm
            subst e1
            have hcu : c.usage = block_size H size := by
              unfold reuse at hre
              cases hsel : select_policy env s (block_size H size) with
              | none => simp [hsel] at hre
              | some k =>
                simp only [hsel, Option.map_eq_some'] at hre
                obtain ⟨q2, hq2, e3⟩ := hre
                simp only [Prod.mk.injEq, Option.some.injEq] at e3
                obtain ⟨b, hb, hbu⟩ := split_usage (j := q2.2) hq2
                rw [e3.1, e3.2, hj] at hb
                simp only [Option.some.injEq] at hb
                rw [hb]; exact hbu
            rw [← e2]
            exact ⟨j, c, header_of_block hs1 hj, hcu⟩
        | none =>
          have e : s2 = s := reuse_miss hre
          subst e
          simp only [hre] at hm
          cases hos : request (region_size_of (block_size H size)) os with
          | none =>
            simp only [hos, Option.some.injEq, Prod.mk.injEq] at hm
            exact absurd hm.2.symm hp
          | some a =>
            simp only [hos, Option.some.injEq, Prod.mk.injEq] at hm
            obtain ⟨e1, e2⟩ := hm
            have hb : s1.g_head[s2.g_head.length]? =
                some (region_block s2.g_allocations a (block_size H size)
                  (region_size_of (block_size H size))).1 := by
              rw [← e1]
              simp
            have := header_of_block (H := H) hs1 hb
            rw [← e2]
            exact ⟨_, _, this, rfl⟩

/-- Rounding of `malloc` on the requests that do not wrap: in every reachable
state, for `0 < size` with `size + H + 7 < 2^64`, the block in front of a
non-null result has as usage the smallest multiple of 8 not below `size + H`,
so that `size` payload bytes follow the header. -/
theorem malloc_rounding_no_wrap {H : Nat} (hH : 0 < H) {env : Option String} {s s1 : State}
    {size p : Nat} {os : Option Nat} (hR : Reachable H s)
    (hf : Fresh s (region_size_of (block_size H size)) os)
    (hw : size + H + 7 < WORD)
    (hm : malloc H env s size os = some (s1, p)) (hp : p ≠ 0) :
    ∃ i b, header_of H s1 p = some (i, b) ∧ 8 ∣ b.usage ∧ size + H ≤ b.usage ∧
      b.usage < size + H + 8 ∧ size ≤ b.usage - H := by
  obtain ⟨i, b, hh, hu⟩ := malloc_usage hH (reachable_shape hH hR) hf hm hp
  obtain ⟨h1, h2, h3⟩ := block_size_no_wrap H size hw
  rw [← hu] at h1 h2 h3
  exact ⟨i, b, hh, h1, h2, h3, by omega⟩

/-- For every header size between 2 bytes and one page, `malloc(2^64 - 1)` in
the empty allocator succeeds with a block whose usage is below `H + 7`. -/
theorem malloc_wraps_any_header (H : Nat) (h0 : 1 < H) (h1 : H ≤ 4096) :
    ∃ s1 b, malloc H none State.init (2 ^ 64 - 1) (some 4096) = some (s1, 4096 + H) ∧
      s1.g_head = [b] ∧ b.addr = 4096 ∧ b.size = 4096 ∧ b.usage < H + 7 := by
  have e1 : (2 ^ 64 - 1 + H) % WORD = H - 1 := by
    rw [WORD_eq]; omega
  have hb : block_size H (2 ^ 64 - 1) = align8 (H - 1) := by
    unfold block_size; rw [e1]
  have hx : align8 (H - 1) % 8 = 0 ∧ H - 1 ≤ align8 (H - 1) ∧ align8 (H - 1) < H + 7 := by
    have e : align8 (H - 1) =
        if (H - 1) % 8 ≠ 0 then (H - 1 + (8 - (H - 1) % 8)) % WORD else H - 1 := rfl
    have hlt : H - 1 + (8 - (H - 1) % 8) < WORD := by
      rw [WORD_eq]; omega
    by_cases h8 : (H - 1) % 8 ≠ 0
    · rw [e, if_pos h8, Nat.mod_eq_of_lt hlt]
      omega
    · rw [e, if_neg h8]
      omega
  have hr : region_size_of (align8 (H - 1)) = 4096 := by
    obtain ⟨h2, h3, h4⟩ := hx
    unfold region_size_of page_sz
    simp only
    rw [WORD_eq]
    split_ifs <;> omega
  refine ⟨⟨[(region_block 0 4096 (align8 (H - 1)) 4096).1], 1⟩,
    (region_block 0 4096 (align8 (H - 1)) 4096).1, ?_, rfl, rfl, rfl, hx.2.2⟩
  unfold malloc
  rw [if_neg (by norm_num)]
  simp only [State.init, hb, hr, request]
  rfl

/-! ## Instances on concrete states -/

theorem part_state_reachable : Reachable 80 part_state :=
  @Reachable.malloc 80 State.init part_state none 10 4176 (some 4096)
    Reachable.init (by decide)
    (fun a ha => by
      cases ha
      exact ⟨by decide, by decide, fun b hb => (List.not_mem_nil b hb).elim⟩)
    rfl

theorem two_blocks_reachable : Reachable 80 two_blocks :=
  @Reachable.malloc 80 part_state two_blocks none 10 4272 none
    part_state_reachable (by decide) (fun a ha => by cases ha) rfl

/-- Instance of `free_without_reclaim`: releasing the first of two used blocks of one region. -/
theorem free_without_reclaim_witness :
    free 80 two_blocks 4176 0 =
      some { g_head := [blk 4096 0 96 0 4096 (some 4096), blk 4192 1 4000 96 4096 none]
             g_allocations := 2 } :=
  (free_without_reclaim 80 (by decide) two_blocks two_blocks_reachable 0 1
    (blk 4096 0 96 96 4096 (some 4096)) (blk 4192 1 4000 96 4096 none) rfl rfl
    (by decide) rfl (by decide) 0).1

/-- Instance of `free_unlinks_region`: one block is allocated in the empty allocator and
released; the directory is empty afterwards. -/
theorem free_unlinks_region_witness :
    ∃ s1 p, malloc 80 none State.init 10 (some 4096) = some (s1, p) ∧
      s1.g_head.length = 1 ∧ free 80 s1 p 0 = some { s1 with g_head := [] } :=
  ⟨part_state, 4176, rfl, rfl,
    (free_unlinks_region 80 (by decide) part_state part_state_reachable 0
      (blk 4096 0 4096 96 4096 (some 4096)) rfl
      (fun k c hk hk0 _ => by
        cases k with
        | zero => exact absurd rfl hk0
        | succ k => simp [part_state] at hk) 0).1⟩

/-! ## Case analysis of the operations -/

theorem reachable_of_reachableIf {ok : Nat → Prop} {H : Nat} {s : State}
    (h : ReachableIf ok H s) : Reachable H s := by
  induction h with
  | init => exact Reachable.init
  | malloc _ hs _ hf hm ih => exact Reachable.malloc ih hs hf hm
  | malloc_name _ hs _ hf hm ih => exact Reachable.malloc_name ih hs hf hm
  | calloc _ hn hs _ hf hm ih => exact Reachable.calloc ih hn hs hf hm
  | free _ hfr ih => exact Reachable.free ih hfr
  | realloc _ hs _ hf hm ih => exact Reachable.realloc ih hs hf hm

theorem reachableIf_of_reachable {H : Nat} {s : State} (h : Reachable H s) :
    ReachableIf (fun _ => True) H s := by
  induction h with
  | init => exact ReachableIf.init
  | malloc _ hs hf hm ih => exact ReachableIf.malloc ih hs trivial hf hm
  | malloc_name _ hs hf hm ih => exact ReachableIf.malloc_name ih hs trivial hf hm
  | calloc _ hn hs hf hm ih => exact ReachableIf.calloc ih hn hs trivial hf hm
  | free _ hfr ih => exact ReachableIf.free ih hfr
  | realloc _ hs hf hm ih => exact ReachableIf.realloc ih hs trivial hf hm

theorem select_policy_fits {env : Option String} {s : State} {size i : Nat}
    (hs : size < WORD) (h : select_policy env s size = some i) :
    ∃ b, s.g_head[i]? = some b ∧ size ≤ free_space b := by
  unfold select_policy at h
  simp only at h
  split_ifs at h
  · unfold first_fit at h
    obtain ⟨j, b, hi, hb, hsz, _⟩ := (first_fit_from_some size s.g_head 0 i).1 h
    have : i = j := by omega
    subst this
    exact ⟨b, hb, hsz⟩
  · unfold best_fit at h
    rw [Option.map_eq_some'] at h
    obtain ⟨⟨i1, d⟩, h1, h2⟩ := h
    simp only at h2
    subst h2
    rcases best_fit_from_some size hs s.g_head 0 none i1 d h1 with
      ⟨e, _⟩ | ⟨j, b, hi, hb, hd, hsz, _⟩
    · cases e
    · have : i1 = j := by omega
      subst this
      exact ⟨b, hb, by omega⟩
  · unfold worst_fit at h
    rw [Option.map_eq_some'] at h
    obtain ⟨⟨i1, d⟩, h1, h2⟩ := h
    simp only at h2
    subst h2
    rcases worst_fit_from_some size s.g_head 0 none i1 d h1 with
      ⟨e, _⟩ | ⟨j, b, hi, hb, hd, hsz, _⟩
    · cases e
    · have : i1 = j := by omega
      subst this
      exact ⟨b, hb, by omega⟩

/-- The block cut off by `split` from the used block `b` for a request `u`. -/
theorem split_cases {H : Nat} {s s1 : State} {i u j : Nat}
    (hsp : split H s i u = some (s1, j)) :
    ∃ b, s.g_head[i]? = some b ∧
      ((b.usage = 0 ∧ s1 = { s with g_head := s.g_head.set i { b with usage := u } } ∧ j = i) ∨
       (b.usage ≠ 0 ∧ H ≤ b.usage ∧ b.usage + H ≤ b.size ∧
        s1 = { g_head := s.g_head.take i ++ { b with size := b.usage } ::
                 (populate s.g_allocations (b.addr + b.usage) u (b.size - b.usage)
                   b.region_start).1 :: s.g_head.drop (i + 1)
               g_allocations := s.g_allocations + 1 } ∧ j = i + 1)) := by
  unfold split at hsp
  cases hb : s.g_head[i]? with
  | none => simp [hb] at hsp
  | some curr =>
    simp only [hb] at hsp
    refine ⟨curr, rfl, ?_⟩
    by_cases h0 : curr.usage = 0
    · rw [if_pos h0] at hsp
      simp only [Option.some.injEq, Prod.mk.injEq] at hsp
      exact Or.inl ⟨h0, hsp.1.symm, hsp.2.symm⟩
    · rw [if_neg h0] at hsp
      by_cases hg : H ≤ curr.usage ∧ curr.usage + H ≤ curr.size
      · rw [if_pos hg] at hsp
        simp only [Option.some.injEq, Prod.mk.injEq] at hsp
        exact Or.inr ⟨h0, hg.1, hg.2, hsp.1.symm, hsp.2.symm⟩
      · rw [if_neg hg] at hsp
        cases hsp

/-- The four outcomes of `malloc`: nothing changes and `NULL` is returned, a
region is mapped, a free block is taken whole, or a used block is cut. -/
theorem malloc_cases {H : Nat} {env : Option String} {s s1 : State} {size p : Nat}
    {os : Option Nat} (hm : malloc H env s size os = some (s1, p)) :
    (s1 = s ∧ p = 0) ∨
    (∃ a, size ≠ 0 ∧ request (region_size_of (block_size H size)) os = some a ∧
      s1 = { g_head := s.g_head ++ [(region_block s.g_allocations a (block_size H size)
                 (region_size_of (block_size H size))).1]
             g_allocations := s.g_allocations + 1 } ∧ p = a + H) ∨
    (∃ i b, size ≠ 0 ∧ s.g_head[i]? = some b ∧ block_size H size ≤ free_space b ∧
      ((b.usage = 0 ∧
        s1 = { s with g_head := s.g_head.set i { b with usage := block_size H size } } ∧
        p = b.addr + H) ∨
       (b.usage ≠ 0 ∧ H ≤ b.usage ∧ b.usage + H ≤ b.size ∧
        s1 = { g_head := s.g_head.take i ++ { b with size := b.usage } ::
                 (populate s.g_allocations (b.addr + b.usage) (block_size H size)
                   (b.size - b.usage) b.region_start).1 :: s.g_head.drop (i + 1)
               g_allocations := s.g_allocations + 1 } ∧
        p = b.addr + b.usage + H))) := by
  unfold malloc at hm
  by_cases hz : size = 0
  · rw [if_pos hz] at hm
    simp only [Option.some.injEq, Prod.mk.injEq] at hm
    exact Or.inl ⟨hm.1.symm, hm.2.symm⟩
  · rw [if_neg hz] at hm
    simp only at hm
    cases hl : s.g_head with
    | nil =>
      simp only [hl] at hm
      cases hos : request (region_size_of (block_size H size)) os with
      | none =>
        simp only [hos, Option.some.injEq, Prod.mk.injEq] at hm
        exact Or.inl ⟨hm.1.symm, hm.2.symm⟩
      | some a =>
        simp only [hos, Option.some.injEq, Prod.mk.injEq] at hm
        exact Or.inr (Or.inl ⟨a, hz, rfl, by rw [← hm.1]; rfl, hm.2.symm⟩)
    | cons b0 rest =>
      simp only [hl] at hm
      rw [← hl]
      cases hre : reuse H env s (block_size H size) with
      | none => simp [hre] at hm
      | some q =>
        obtain ⟨s2, r⟩ := q
        cases r with
        | some j =>
          simp only [hre] at hm
          cases hj : s2.g_head[j]? with
          | none => simp [hj] at hm
          | some c =>
            simp only [hj, Option.some.injEq, Prod.mk.injEq] at hm
            obtain ⟨e1, e2⟩ := hm
            subst e1
            unfold reuse at hre
            cases hsel : select_policy env s (block_size H size) with
            | none => simp [hsel] at hre
            | some i =>
              simp only [hsel, Option.map_eq_some'] at hre
              obtain ⟨q2, hq2, e3⟩ := hre
              simp only [Prod.mk.injEq, Option.some.injEq] at e3
              obtain ⟨b, hb, hfit⟩ := select_policy_fits (block_size_lt H size) hsel
              obtain ⟨b2, hb2, hc⟩ := split_cases (j := q2.2) hq2
              rw [hb] at hb2
              simp only [Option.some.injEq] at hb2
              subst hb2
              have hi : i < s.g_head.length := (List.getElem?_eq_some.1 hb).1
              refine Or.inr (Or.inr ⟨i, b, hz, hb, hfit, ?_⟩)
              rcases hc with ⟨h0, hs1, hji⟩ | ⟨h0, hg1, hg2, hs1, hji⟩
              · left
                refine ⟨h0, by rw [← e3.1, hs1], ?_⟩
                rw [← e3.1, hs1, ← e3.2, hji] at hj
                simp only [List.getElem?_set_self hi, Option.some.injEq] at hj
                rw [← e2, ← hj]
              · right
                refine ⟨h0, hg1, hg2, by rw [← e3.1, hs1], ?_⟩
                rw [← e3.1, hs1, ← e3.2, hji] at hj
                simp only at hj
                rw [List.getElem?_append_right (by rw [List.length_take]; omega)] at hj
                have hlen : i + 1 - (List.take i s.g_head).length = 1 := by
                  rw [List.length_take]; omega
                rw [hlen] at hj
                simp only [List.getElem?_cons_succ, List.getElem?_cons_zero,
                  Option.some.injEq] at hj
                rw [← e2, ← hj]
                rfl
        | none =>
          have e : s2 = s := reuse_miss hre
          subst e
          simp only [hre] at hm
          cases hos : request (region_size_of (block_size H size)) os with
          | none =>
            simp only [hos, Option.some.injEq, Prod.mk.injEq] at hm
            exact Or.inl ⟨hm.1.symm, hm.2.symm⟩
          | some a =>
            simp only [hos, Option.some.injEq, Prod.mk.injEq] at hm
            exact Or.inr (Or.inl ⟨a, hz, rfl, by rw [← hm.1]; rfl, hm.2.symm⟩)


/-- The outcomes of `free` in a well-shaped state: nothing happens for `NULL`;
otherwise the usage of the block is cleared and the run of its region is
unlinked when all its blocks are free. -/
theorem free_cases {H : Nat} {s s1 : State} {ptr : Nat} {ret : Int} (hs : Shape s)
    (hf : free H s ptr ret = some s1) :
    (ptr = 0 ∧ s1 = s) ∨
    ∃ i b pre h run post, ptr ≠ 0 ∧ header_of H s ptr = some (i, b) ∧
      s.g_head.set i { b with usage := 0 } = pre ++ (h :: run) ++ post ∧
      (∀ y ∈ pre, y.region_start ≠ b.region_start) ∧
      (∀ y ∈ h :: run, y.region_start = b.region_start) ∧
      (∀ y ∈ post, y.region_start ≠ b.region_start) ∧
      (((∀ y ∈ h :: run, y.usage = 0) ∧ s1 = { s with g_head := pre ++ post }) ∨
       ((∃ y ∈ h :: run, y.usage ≠ 0) ∧
        s1 = { s with g_head := s.g_head.set i { b with usage := 0 } })) := by
  by_cases hp : ptr = 0
  · left
    unfold free at hf
    rw [if_pos hp] at hf
    simp only [Option.some.injEq] at hf
    exact ⟨hp, hf.symm⟩
  · right
    cases hh : header_of H s ptr with
    | none =>
      unfold free at hf
      rw [if_neg hp] at hf
      simp [hh] at hf
    | some q =>
      obtain ⟨i, b⟩ := q
      have hb := header_of_getElem? hh
      have hi : i < s.g_head.length := (List.getElem?_eq_some.1 hb).1
      have hs1 : ShapeL (s.g_head.set i { b with usage := 0 }) :=
        shape_set { b with usage := 0 } hs hb rfl rfl rfl
      have hb1 : (s.g_head.set i { b with usage := 0 })[i]? = some { b with usage := 0 } := by
        simp [hi]
      obtain ⟨pre, h, run, post, e, hpre, hha, hrun, hpost⟩ :=
        region_decomp hs1 b.region_start ⟨_, List.getElem?_mem hb1, rfl⟩
      rw [free_eval ret hp hh e (fun y hy => (hpre y hy).2) hha hrun hpost] at hf
      refine ⟨i, b, pre, h, run, post, hp, rfl, e, fun y hy => (hpre y hy).1, hrun, hpost, ?_⟩
      by_cases hall : ∀ y ∈ h :: run, y.usage = 0
      · rw [if_pos hall] at hf
        simp only [Option.some.injEq] at hf
        exact Or.inl ⟨hall, hf.symm⟩
      · rw [if_neg hall] at hf
        simp only [Option.some.injEq] at hf
        refine Or.inr ⟨?_, hf.symm⟩
        by_contra hc
        exact hall (fun y hy => by
          by_contra hu
          exact hc ⟨y, hy, hu⟩)

/-- Induction over the reachable states along the four primitive effects:
`malloc` with a nonzero size, `free`, the in-place update of `realloc` and the
renaming of `malloc_name`. -/
theorem reachableIf_induction {ok : Nat → Prop} {H : Nat} (P : State → Prop)
    (h0 : P State.init)
    (hmalloc : ∀ (s s1 : State) (env : Option String) (size p : Nat) (os : Option Nat),
      ReachableIf ok H s → P s → size < WORD → ok size → size ≠ 0 →
      Fresh s (region_size_of (block_size H size)) os →
      malloc H env s size os = some (s1, p) → P s1)
    (hfree : ∀ (s s1 : State) (ptr : Nat) (ret : Int),
      ReachableIf ok H s → P s → free H s ptr ret = some s1 → P s1)
    (hresize : ∀ (s : State) (ptr i : Nat) (curr : mem_block) (size : Nat),
      ReachableIf ok H s → P s → size < WORD → ok size → size ≠ 0 →
      header_of H s ptr = some (i, curr) → block_size H size ≤ curr.size →
      P { s with g_head := s.g_head.set i { curr with usage := block_size H size } })
    (hname : ∀ (s : State) (ptr i : Nat) (block : mem_block) (name : String),
      ReachableIf ok H s → P s → header_of H s ptr = some (i, block) →
      P { s with g_head := s.g_head.set i { block with name := name } })
    {s : State} (h : ReachableIf ok H s) : P s := by
  have hmal : ∀ (s s1 : State) (env : Option String) (size p : Nat) (os : Option Nat),
      ReachableIf ok H s → P s → size < WORD → ok size →
      Fresh s (region_size_of (block_size H size)) os →
      malloc H env s size os = some (s1, p) → P s1 := by
    intro s s1 env size p os hr hp hs hk hf hm
    by_cases hz : size = 0
    · unfold malloc at hm
      rw [if_pos hz] at hm
      simp only [Option.some.injEq, Prod.mk.injEq] at hm
      rw [← hm.1]; exact hp
    · exact hmalloc s s1 env size p os hr hp hs hk hz hf hm
  induction h with
  | init => exact h0
  | malloc hr hs hk hf hm ih => exact hmal _ _ _ _ _ _ hr ih hs hk hf hm
  | @malloc_name s s1 env size p name_sz name os hr hs hk hf hm ih =>
    unfold malloc_name at hm
    cases hma : malloc H env s size os with
    | none => simp [hma] at hm
    | some q =>
      obtain ⟨s2, ptr⟩ := q
      have hr2 : ReachableIf ok H s2 := ReachableIf.malloc hr hs hk hf hma
      have hp2 : P s2 := hmal _ _ _ _ _ _ hr ih hs hk hf hma
      simp only [hma] at hm
      cases hh : header_of H s2 ptr with
      | none => simp [hh] at hm
      | some q2 =>
        obtain ⟨i, block⟩ := q2
        simp only [hh] at hm
        split_ifs at hm
        simp only [Option.some.injEq, Prod.mk.injEq] at hm
        rw [← hm.1]
        exact hname s2 ptr i block name hr2 hp2 hh
  | @calloc s s1 env nmemb size p os hr hn hs hk hf hm ih =>
    unfold calloc at hm
    simp only at hm
    cases hma : malloc H env s ((nmemb * size) % WORD) os with
    | none => simp [hma] at hm
    | some q =>
      obtain ⟨s2, ptr⟩ := q
      have hlt : (nmemb * size) % WORD < WORD := Nat.mod_lt _ (by rw [WORD_eq]; norm_num)
      have hp2 : P s2 := hmal _ _ _ _ _ _ hr ih hlt hk hf hma
      simp only [hma] at hm
      split_ifs at hm
      · simp only [Option.some.injEq, Prod.mk.injEq] at hm
        rw [← hm.1]; exact hp2
      · cases hh : header_of H s2 ptr with
        | none => simp [hh] at hm
        | some q2 =>
          obtain ⟨i, block⟩ := q2
          simp only [hh] at hm
          split_ifs at hm
          simp only [Option.some.injEq, Prod.mk.injEq] at hm
          rw [← hm.1]; exact hp2
  | free hr hfr ih => exact hfree _ _ _ _ hr ih hfr
  | @realloc s s1 env ptr size p os ret hr hs hk hf hm ih =>
    unfold realloc at hm
    simp only at hm
    split_ifs at hm with hp hz
    · exact hmal _ _ _ _ _ _ hr ih hs hk hf hm
    · rw [Option.map_eq_some'] at hm
      obtain ⟨s2, hfr, e⟩ := hm
      simp only [Prod.mk.injEq] at e
      rw [← e.1]; exact hfree _ _ _ _ hr ih hfr
    · cases hh : header_of H s ptr with
      | none => simp [hh] at hm
      | some q =>
        obtain ⟨i, curr⟩ := q
        simp only [hh] at hm
        split_ifs at hm with hfit
        · simp only [Option.some.injEq, Prod.mk.injEq] at hm
          rw [← hm.1]
          exact hresize s ptr i curr size hr ih hs hk hz hh hfit
        · cases hma : malloc H env s size os with
          | none => simp [hma] at hm
          | some q2 =>
            obtain ⟨s2, new_ptr⟩ := q2
            have hr2 : ReachableIf ok H s2 := ReachableIf.malloc hr hs hk hf hma
            have hp2 : P s2 := hmal _ _ _ _ _ _ hr ih hs hk hf hma
            simp only [hma] at hm
            split_ifs at hm with hnp
            · simp only [Option.some.injEq, Prod.mk.injEq] at hm
              rw [← hm.1]; exact hp2
            · cases ho : header_of H s2 ptr with
              | none => simp [ho] at hm
              | some qo =>
                cases hn : header_of H s2 new_ptr with
                | none => simp [ho, hn] at hm
                | some qn =>
                  simp only [ho, hn] at hm
                  split_ifs at hm
                  rw [Option.map_eq_some'] at hm
                  obtain ⟨s3, hfr, e⟩ := hm
                  simp only [Prod.mk.injEq] at e
                  rw [← e.1]; exact hfree _ _ _ _ hr2 hp2 hfr

/-! ## Per-block invariants -/

theorem free_space_le (b : mem_block) (h : b.usage ≤ b.size) :
    free_space b ≤ b.size - b.usage := by
  unfold free_space
  have e : b.size + WORD - b.usage = (b.size - b.usage) + WORD := by omega
  rw [e, Nat.add_mod_right]
  exact Nat.mod_le _ _

theorem mem_cut {l : List mem_block} {i : Nat} {b1 n1 x : mem_block}
    (hx : x ∈ l.take i ++ b1 :: n1 :: l.drop (i + 1)) : x ∈ l ∨ x = b1 ∨ x = n1 := by
  rcases List.mem_append.1 hx with h | h
  · exact Or.inl (List.mem_of_mem_take h)
  · rcases List.mem_cons.1 h with h | h
    · exact Or.inr (Or.inl h)
    · rcases List.mem_cons.1 h with h | h
      · exact Or.inr (Or.inr h)
      · exact Or.inl (List.mem_of_mem_drop h)

theorem request_some {rsz a : Nat} {os : Option Nat} (h : request rsz os = some a) :
    rsz ≠ 0 ∧ os = some a := by
  unfold request at h
  split_ifs at h with h0
  exact ⟨h0, h⟩

/-- Blocks left by `free` come from the chain, with at most the usage cleared. -/
theorem free_mem {H : Nat} {s s1 : State} {ptr : Nat} {ret : Int} (hs : Shape s)
    (hf : free H s ptr ret = some s1) {x : mem_block} (hx : x ∈ s1.g_head) :
    x ∈ s.g_head ∨ ∃ b ∈ s.g_head, x = { b with usage := 0 } := by
  rcases free_cases hs hf with ⟨_, e⟩ | ⟨i, b, pre, h, run, post, _, hh, e, _, _, _, hc⟩
  · rw [e] at hx; exact Or.inl hx
  · have hb := header_of_getElem? hh
    have hset : x ∈ s.g_head.set i { b with usage := 0 } := by
      rcases hc with ⟨_, e1⟩ | ⟨_, e1⟩
      · rw [e1] at hx
        rw [e]
        simp only [List.mem_append] at hx ⊢
        rcases hx with hx | hx
        · exact Or.inl (Or.inl hx)
        · exact Or.inr hx
      · rw [e1] at hx; exact hx
    rcases List.mem_or_eq_of_mem_set hset with h1 | h1
    · exact Or.inl h1
    · exact Or.inr ⟨b, List.getElem?_mem hb, h1⟩

/-- Every block of a reachable state is sound. -/
theorem reachable_sound {H : Nat} (hH : 0 < H) {s : State} (h : Reachable H s) :
    ∀ b ∈ s.g_head, Sound b := by
  refine @reachableIf_induction (fun _ => True) H
    (fun s => ∀ b ∈ s.g_head, Sound b) ?_ ?_ ?_ ?_ ?_ s (reachableIf_of_reachable h)
  · intro b hb; cases hb
  · intro s s1 env size p os hr ih hs _ hz hf hm x hx
    rcases malloc_cases hm with ⟨e, _⟩ | ⟨a, _, hreq, e, _⟩ | ⟨i, b, _, hb, hfit, hc⟩
    · rw [e] at hx; exact ih x hx
    · rw [e] at hx
      simp only [List.mem_append, List.mem_singleton] at hx
      rcases hx with hx | hx
      · exact ih x hx
      · obtain ⟨hr0, hos⟩ := request_some hreq
        obtain ⟨ha, hsp, _⟩ := hf a hos
        have hspec := region_size_of_spec _ (block_size_lt H size) hr0
        rw [hx]
        exact ⟨hspec.2.1, ha, ha, hsp⟩
    · have hbs : Sound b := ih b (List.getElem?_mem hb)
      have hle := free_space_le b hbs.usage_le
      rcases hc with ⟨h0, e, _⟩ | ⟨h0, hg1, hg2, e, _⟩
      · rw [e] at hx
        rcases List.mem_or_eq_of_mem_set hx with hx | hx
        · exact ih x hx
        · rw [hx]
          exact ⟨by simp only; omega, hbs.addr_pos, hbs.start_pos, hbs.in_space⟩
      · rw [e] at hx
        rcases mem_cut hx with hx | hx | hx
        · exact ih x hx
        · rw [hx]
          exact ⟨le_refl _, hbs.addr_pos, hbs.start_pos, by
            have := hbs.in_space
            simp only; omega⟩
        · rw [hx]
          have := hbs.in_space
          have := hbs.addr_pos
          exact ⟨by simp only [populate]; omega, by simp only [populate]; omega,
            hbs.start_pos, by simp only [populate]; omega⟩
  · intro s s1 ptr ret hr ih hf x hx
    have hs : Shape s := reachable_shape hH (reachable_of_reachableIf hr)
    rcases free_mem hs hf hx with h1 | ⟨b, hb, e⟩
    · exact ih x h1
    · have hbs := ih b hb
      rw [e]
      exact ⟨Nat.zero_le _, hbs.addr_pos, hbs.start_pos, hbs.in_space⟩
  · intro s ptr i curr size hr ih _ _ _ hh hfit x hx
    have hb := header_of_getElem? hh
    rcases List.mem_or_eq_of_mem_set hx with hx | hx
    · exact ih x hx
    · have hbs := ih curr (List.getElem?_mem hb)
      rw [hx]
      exact ⟨hfit, hbs.addr_pos, hbs.start_pos, hbs.in_space⟩
  · intro s ptr i block name hr ih hh x hx
    have hb := header_of_getElem? hh
    rcases List.mem_or_eq_of_mem_set hx with hx | hx
    · exact ih x hx
    · have hbs := ih block (List.getElem?_mem hb)
      rw [hx]
      exact ⟨hbs.usage_le, hbs.addr_pos, hbs.start_pos, hbs.in_space⟩

/-! ## Occupied regions -/

theorem mem_set_of_ne {l : List mem_block} {i : Nat} {b c : mem_block} (b1 : mem_block)
    (hb : l[i]? = some b) (hc : c ∈ l) (hne : c ≠ b) : c ∈ l.set i b1 := by
  obtain ⟨k, hk⟩ := List.mem_iff_getElem?.1 hc
  have hki : k ≠ i := by
    intro e
    rw [e, hb] at hk
    simp only [Option.some.injEq] at hk
    exact hne hk.symm
  have : (l.set i b1)[k]? = some c := by
    rw [List.getElem?_set_ne (Ne.symm hki)]; exact hk
  exact List.getElem?_mem this

theorem mem_cut_of_ne {l : List mem_block} {i : Nat} {b c : mem_block} (b1 n1 : mem_block)
    (hb : l[i]? = some b) (hc : c ∈ l) (hne : c ≠ b) :
    c ∈ l.take i ++ b1 :: n1 :: l.drop (i + 1) := by
  rw [(take_drop_of_getElem? hb).1] at hc
  simp only [List.mem_append, List.mem_cons] at hc ⊢
  rcases hc with hc | hc | hc
  · exact Or.inl hc
  · exact absurd hc hne
  · exact Or.inr (Or.inr (Or.inr hc))

theorem occupied_set {l : List mem_block} {i : Nat} {b : mem_block} (b1 : mem_block)
    (h : Occupied l) (hb : l[i]? = some b) (hr : b1.region_start = b.region_start)
    (hu : b.usage ≠ 0 → b1.usage ≠ 0) : Occupied (l.set i b1) := by
  have hi : i < l.length := (List.getElem?_eq_some.1 hb).1
  have hb1 : b1 ∈ l.set i b1 := List.mem_set l i hi b1
  intro x hx
  have hy : ∃ y ∈ l, y.region_start = x.region_start := by
    rcases List.mem_or_eq_of_mem_set hx with hx | hx
    · exact ⟨x, hx, rfl⟩
    · exact ⟨b, List.getElem?_mem hb, by rw [hx, hr]⟩
  obtain ⟨y, hy, hyr⟩ := hy
  obtain ⟨c, hc, hcr, hcu⟩ := h y hy
  by_cases hcb : c = b
  · subst hcb
    exact ⟨b1, hb1, by rw [hr, hcr, hyr], hu hcu⟩
  · exact ⟨c, mem_set_of_ne b1 hb hc hcb, by rw [hcr, hyr], hcu⟩

theorem occupied_cut {l : List mem_block} {i : Nat} {b : mem_block} (b1 n1 : mem_block)
    (h : Occupied l) (hb : l[i]? = some b) (hr : b1.region_start = b.region_start)
    (hu : b1.usage ≠ 0) (hn : n1.region_start = b.region_start) :
    Occupied (l.take i ++ b1 :: n1 :: l.drop (i + 1)) := by
  have hb1 : b1 ∈ l.take i ++ b1 :: n1 :: l.drop (i + 1) := by simp
  intro x hx
  have hy : ∃ y ∈ l, y.region_start = x.region_start := by
    rcases mem_cut hx with hx | hx | hx
    · exact ⟨x, hx, rfl⟩
    · exact ⟨b, List.getElem?_mem hb, by rw [hx, hr]⟩
    · exact ⟨b, List.getElem?_mem hb, by rw [hx, hn]⟩
  obtain ⟨y, hy, hyr⟩ := hy
  obtain ⟨c, hc, hcr, hcu⟩ := h y hy
  by_cases hcb : c = b
  · subst hcb
    exact ⟨b1, hb1, by rw [hr, hcr, hyr], hu⟩
  · exact ⟨c, mem_cut_of_ne b1 n1 hb hc hcb, by rw [hcr, hyr], hcu⟩

theorem occupied_append {l : List mem_block} (nb : mem_block) (h : Occupied l)
    (hu : nb.usage ≠ 0) : Occupied (l ++ [nb]) := by
  intro x hx
  simp only [List.mem_append, List.mem_singleton] at hx
  rcases hx with hx | hx
  · obtain ⟨c, hc, hcr, hcu⟩ := h x hx
    exact ⟨c, by simp [hc], hcr, hcu⟩
  · exact ⟨nb, by simp, by rw [hx], hu⟩

theorem occupied_free {H : Nat} {s s1 : State} {ptr : Nat} {ret : Int} (hs : Shape s)
    (h : Occupied s.g_head) (hf : free H s ptr ret = some s1) : Occupied s1.g_head := by
  rcases free_cases hs hf with ⟨_, e⟩ | ⟨i, b, pre, hd, run, post, _, hh, e, hpre, hrun, hpost, hc⟩
  · rw [e]; exact h
  · have hb := header_of_getElem? hh
    -- blocks of other regions keep their witness
    have other : ∀ x ∈ s.g_head.set i { b with usage := 0 },
        x.region_start ≠ b.region_start →
        ∃ c ∈ s.g_head.set i { b with usage := 0 },
          c.region_start = x.region_start ∧ c.usage ≠ 0 := by
      intro x hx hxr
      have hxl : x ∈ s.g_head := by
        rcases List.mem_or_eq_of_mem_set hx with hx | hx
        · exact hx
        · rw [hx] at hxr; exact absurd rfl hxr
      obtain ⟨c, hcm, hcr, hcu⟩ := h x hxl
      have hcb : c ≠ b := by
        intro e1
        rw [e1] at hcr
        exact hxr hcr.symm
      exact ⟨c, mem_set_of_ne _ hb hcm hcb, hcr, hcu⟩
    rcases hc with ⟨hall, e1⟩ | ⟨⟨y, hy, hyu⟩, e1⟩
    · rw [e1]
      intro x hx
      simp only [List.mem_append] at hx
      have hxr : x.region_start ≠ b.region_start := by
        rcases hx with hx | hx
        · exact hpre x hx
        · exact hpost x hx
      have hxs : x ∈ s.g_head.set i { b with usage := 0 } := by
        rw [e]
        simp only [List.mem_append]
        rcases hx with hx | hx
        · exact Or.inl (Or.inl hx)
        · exact Or.inr hx
      obtain ⟨c, hcm, hcr, hcu⟩ := other x hxs hxr
      refine ⟨c, ?_, hcr, hcu⟩
      rw [e] at hcm
      simp only [List.mem_append] at hcm ⊢
      rcases hcm with (hcm | hcm) | hcm
      · exact Or.inl hcm
      · exact absurd (hcr ▸ hrun c hcm) hxr
      · exact Or.inr hcm
    · rw [e1]
      intro x hx
      by_cases hxr : x.region_start = b.region_start
      · refine ⟨y, ?_, by rw [hrun y hy, hxr], hyu⟩
        simp only
        rw [e]
        simp only [List.mem_append]
        exact Or.inl (Or.inr hy)
      · exact other x hx hxr

theorem block_size_pos {H size : Nat} (hH : 0 < H) (h : NoWrap H size) :
    block_size H size ≠ 0 := by
  have := (block_size_no_wrap H size h).2.1
  omega

/-- When no request wraps, every region of a reachable directory holds a block
with nonzero usage. -/
theorem reachable_nowrap_occupied {H : Nat} (hH : 0 < H) {s : State}
    (h : ReachableIf (NoWrap H) H s) : Occupied s.g_head := by
  refine @reachableIf_induction (NoWrap H) H (fun s => Occupied s.g_head)
    ?_ ?_ ?_ ?_ ?_ s h
  · intro b hb; cases hb
  · intro s s1 env size p os hr ih hs hk hz hf hm
    have hu : block_size H size ≠ 0 := block_size_pos hH hk
    rcases malloc_cases hm with ⟨e, _⟩ | ⟨a, _, hreq, e, _⟩ | ⟨i, b, _, hb, hfit, hc⟩
    · rw [e]; exact ih
    · rw [e]
      exact occupied_append _ ih hu
    · rcases hc with ⟨h0, e, _⟩ | ⟨h0, hg1, hg2, e, _⟩
      · rw [e]
        exact occupied_set _ ih hb rfl (fun _ => hu)
      · rw [e]
        exact occupied_cut _ _ ih hb rfl h0 rfl
  · intro s s1 ptr ret hr ih hf
    exact occupied_free (reachable_shape hH (reachable_of_reachableIf hr)) ih hf
  · intro s ptr i curr size hr ih _ hk _ hh hfit
    exact occupied_set _ ih (header_of_getElem? hh) rfl (fun _ => block_size_pos hH hk)
  · intro s ptr i block name hr ih hh
    exact occupied_set _ ih (header_of_getElem? hh) rfl (fun hu => hu)

/-! ## Release and reuse in reachable states -/

/-- In a well-shaped state `free` on the payload pointer of a block of the
chain returns; the region of the block is gone afterwards exactly when, once
the usage of the block is cleared, all blocks of the region are free. -/
theorem free_region_iff {H : Nat} (hH : 0 < H) {s : State} (hs : Shape s) {i : Nat}
    {b : mem_block} (hb : s.g_head[i]? = some b) (ret : Int) :
    ∃ s1, free H s (b.addr + H) ret = some s1 ∧
      ((∀ x ∈ s1.g_head, x.region_start ≠ b.region_start) ↔
        (∀ x ∈ s.g_head.set i { b with usage := 0 },
          x.region_start = b.region_start → x.usage = 0)) ∧
      ((∃ x ∈ s1.g_head, x.region_start = b.region_start) →
        s1 = { s with g_head := s.g_head.set i { b with usage := 0 } }) := by
  have hi : i < s.g_head.length := (List.getElem?_eq_some.1 hb).1
  have hh : header_of H s (b.addr + H) = some (i, b) := header_of_block hs hb
  have hs1 : ShapeL (s.g_head.set i { b with usage := 0 }) :=
    shape_set { b with usage := 0 } hs hb rfl rfl rfl
  have hb1 : (s.g_head.set i { b with usage := 0 })[i]? = some { b with usage := 0 } := by
    simp [hi]
  obtain ⟨pre, h, run, post, e, hpre, hha, hrun, hpost⟩ :=
    region_decomp hs1 b.region_start ⟨_, List.getElem?_mem hb1, rfl⟩
  have hev := free_eval ret (by omega) hh e (fun y hy => (hpre y hy).2) hha hrun hpost
  by_cases hall : ∀ y ∈ h :: run, y.usage = 0
  · rw [if_pos hall] at hev
    refine ⟨_, hev, ?_, ?_⟩
    · constructor
      · intro _ x hx hxr
        rw [e] at hx
        exact hall x (mem_region_run rfl (fun y hy => (hpre y hy).1) hpost hx hxr)
      · intro _ x hx
        simp only [List.mem_append] at hx
        rcases hx with hx | hx
        · exact (hpre x hx).1
        · exact hpost x hx
    · rintro ⟨x, hx, hxr⟩
      simp only [List.mem_append] at hx
      rcases hx with hx | hx
      · exact absurd hxr (hpre x hx).1
      · exact absurd hxr (hpost x hx)
  · rw [if_neg hall] at hev
    refine ⟨_, hev, ?_, fun _ => rfl⟩
    constructor
    · intro hno
      exact absurd rfl (hno { b with usage := 0 } (List.getElem?_mem hb1))
    · intro hz
      exfalso
      apply hall
      intro y hy
      refine hz y ?_ (hrun y hy)
      rw [e]
      simp only [List.mem_append]
      exact Or.inl (Or.inr hy)

/-- For every header size, `realloc(p, 2^64 - H)` on the payload pointer of a
block of a reachable directory clears the usage of the block in place and
returns `p`: the sum `size + H` wraps to 0. -/
theorem realloc_wrap_any_header {H : Nat} (hH : 0 < H) (hw : H < WORD) {env : Option String}
    {s : State} (hR : Reachable H s) {i : Nat} {b : mem_block} (hb : s.g_head[i]? = some b)
    (os : Option Nat) (ret : Int) :
    realloc H env s (b.addr + H) (WORD - H) os ret =
      some ({ s with g_head := s.g_head.set i { b with usage := 0 } }, b.addr + H) := by
  have hh : header_of H s (b.addr + H) = some (i, b) :=
    header_of_block (reachable_shape hH hR) hb
  have e0 : align8 ((WORD - H + H) % WORD) = 0 := by
    rw [Nat.sub_add_cancel (le_of_lt hw), Nat.mod_self]
    rfl
  unfold realloc
  simp only
  rw [if_neg (by omega), if_neg (by omega)]
  simp only [hh, e0]
  rw [if_pos (Nat.zero_le _)]

/-- C11 fails through a wrapping `realloc`: in the reachable state with one
block of size 4096 and usage 96 (header of 80 bytes), `realloc(p, 2^64 - 80)`
computes `check_size = 0`, sets the usage of the block to 0 and returns `p`;
the region stays in the directory although all its blocks have usage 0. -/
theorem realloc_wrap_empties_region :
    ∃ s1, realloc 80 none part_state 4176 (2 ^ 64 - 80) none 0 = some (s1, 4176) ∧
      Reachable 80 s1 ∧ s1.g_head = [blk 4096 0 4096 0 4096 (some 4096)] ∧
      ¬ Occupied s1.g_head :=
  ⟨⟨[blk 4096 0 4096 0 4096 (some 4096)], 1⟩, rfl,
    @Reachable.realloc 80 part_state ⟨[blk 4096 0 4096 0 4096 (some 4096)], 1⟩ none 4176
      (2 ^ 64 - 80) 4176 none 0 part_state_reachable (by decide) (fun a ha => by cases ha)
      (by rfl),
    rfl, fun h => by
      obtain ⟨c, hc, _, hcu⟩ := h (blk 4096 0 4096 0 4096 (some 4096)) (by simp)
      simp only [List.mem_singleton] at hc
      rw [hc] at hcu
      exact hcu rfl⟩

/-! ## Resize -/

/-- C12: `realloc(NULL, n)` is `malloc(n)`, with the same result and the same
state; and in a reachable state, for the payload pointer `p` of a block of the
directory, `free(p)` returns and `realloc(p, 0)` returns `NULL` and leaves the
state `free(p)` leaves. -/
theorem realloc_degenerate (H : Nat) (hH : 0 < H) (env : Option String) (s : State)
    (hR : Reachable H s) (os : Option Nat) (ret : Int) :
    (∀ n, realloc H env s 0 n os ret = malloc H env s n os) ∧
    (∀ (i : Nat) (b : mem_block), s.g_head[i]? = some b →
      ∃ s1, free H s (b.addr + H) ret = some s1 ∧
        realloc H env s (b.addr + H) 0 os ret = some (s1, 0)) := by
  constructor
  · intro n
    simp [realloc]
  · intro i b hb
    obtain ⟨s1, hf, _⟩ := free_region_iff hH (reachable_shape hH hR) hb ret
    refine ⟨s1, hf, ?_⟩
    unfold realloc
    simp only
    rw [if_neg (by omega), if_pos trivial, hf]
    rfl

/-- Instance of C12 on the state with one used block. -/
theorem realloc_degenerate_witness :
    (∀ n, realloc 80 none part_state 0 n none 0 = malloc 80 none part_state n none) ∧
    (∀ (i : Nat) (b : mem_block), part_state.g_head[i]? = some b →
      ∃ s1, free 80 part_state (b.addr + 80) 0 = some s1 ∧
        realloc 80 none part_state (b.addr + 80) 0 none 0 = some (s1, 0)) :=
  realloc_degenerate 80 (by decide) none part_state part_state_reachable none 0

/-- C17: when `malloc(size)` has to map a region (the directory is empty or
the selected policy reports a miss) and the mapping fails, it returns `NULL`
and the chain and the id counter are exactly as before. -/
theorem malloc_out_of_memory (H : Nat) (env : Option String) (s : State) (size : Nat)
    (os : Option Nat) (hz : size ≠ 0)
    (hmiss : s.g_head = [] ∨ select_policy env s (block_size H size) = none)
    (hos : request (region_size_of (block_size H size)) os = none) :
    malloc H env s size os = some (s, 0) := by
  unfold malloc
  rw [if_neg hz]
  simp only
  cases hl : s.g_head with
  | nil => simp only [hos]
  | cons b rest =>
    have hsel : select_policy env s (block_size H size) = none := by
      rcases hmiss with h | h
      · rw [hl] at h; cases h
      · exact h
    simp only [reuse, hsel, hos]

/-- Instance of C17: the first allocation with a failing `mmap`. -/
theorem malloc_out_of_memory_witness :
    malloc 80 none State.init 10 none = some (State.init, 0) :=
  malloc_out_of_memory 80 none State.init 10 none (by decide) (Or.inl rfl) rfl

/-! ## Labels -/

/-- The part of C18 that holds: when `malloc(size)` returns a non-null pointer
in a well-shaped state and the label fits the field, `malloc_name` returns the
same pointer and the same directory with the label of the returned block set. -/
theorem malloc_name_label {H name_sz : Nat} (hH : 0 < H) {env : Option String}
    {s s1 : State} {size p : Nat} {os : Option Nat} (name : String) (h : Shape s)
    (hf : Fresh s (region_size_of (block_size H size)) os)
    (hm : malloc H env s size os = some (s1, p)) (hp : p ≠ 0)
    (hn : name.utf8ByteSize < name_sz) :
    ∃ i b, header_of H s1 p = some (i, b) ∧
      malloc_name H name_sz env s size name os =
        some ({ s1 with g_head := s1.g_head.set i { b with name := name } }, p) := by
  obtain ⟨i, b, hh, _⟩ := malloc_usage hH h hf hm hp
  refine ⟨i, b, hh, ?_⟩
  unfold malloc_name
  simp only [hm, hh]
  rw [if_pos hn]

/-- When `malloc` returns `NULL`, `malloc_name` writes the label through the
pointer `NULL - 1`, which is no header of the directory. -/
theorem malloc_name_of_null {H name_sz : Nat} (hH : 0 < H) {env : Option String}
    {s s1 : State} {size : Nat} {os : Option Nat} (name : String)
    (hm : malloc H env s size os = some (s1, 0)) :
    malloc_name H name_sz env s size name os = none := by
  unfold malloc_name
  simp only [hm]
  have : header_of H s1 0 = none := by
    unfold header_of
    rw [if_pos hH]
  rw [this]

/-- C18 fails for a size of 0: `malloc(0)` returns `NULL` and leaves the state
unchanged, but `malloc_name(0, label)` then applies `sprintf` to the header
in front of `NULL`, which is outside the directory, instead of returning
`NULL`. -/
theorem malloc_name_null :
    malloc 80 none part_state 0 none = some (part_state, 0) ∧
    header_of 80 part_state 0 = none ∧
    malloc_name 80 32 none part_state 0 "x" none = none :=
  ⟨rfl, rfl, rfl⟩

/-! ## Usage bound -/

/-- C20 as stated fails: in the reachable state after two calls `malloc(10)`
with a header of 80 bytes the first block has size 96 and usage 96, which is
more than `size - H = 16`. -/
theorem usage_bound_counterexample :
    Reachable 80 two_blocks ∧
    ∃ b ∈ two_blocks.g_head, b.size = 96 ∧ b.usage = 96 ∧ ¬ (b.usage ≤ b.size - 80) :=
  ⟨two_blocks_reachable, blk 4096 0 96 96 4096 (some 4096), by simp [two_blocks], rfl, rfl,
    by decide⟩

/-- C20 (amended): in every state reached by calls whose writes all stay
inside the block they are made for, every block of the directory satisfies
`usage ≤ size`; the usage counts the header. -/
theorem usage_le_size (H : Nat) (hH : 0 < H) (s : State) (hR : Reachable H s) :
    ∀ b ∈ s.g_head, b.usage ≤ b.size :=
  fun b hb => (reachable_sound hH hR b hb).usage_le

/-- Instance of the amended C20 on the second block of the state with two used
blocks. -/
theorem usage_le_size_witness :
    (blk 4192 1 4000 96 4096 none).usage ≤ (blk 4192 1 4000 96 4096 none).size :=
  usage_le_size 80 (by decide) two_blocks two_blocks_reachable
    (blk 4192 1 4000 96 4096 none) (by simp [two_blocks])

/-! ## Copy made by `realloc` -/

/-- The growing case of `realloc`, the part of C14 that holds: when the block
of `ptr` is too small, the inner `malloc(size)` returns `q ≠ NULL` and the copy
stays inside the new block, the result is `q`, the state is the one `free(ptr)`
leaves after that `malloc`, and `memcpy` is called with the usage of the old
block as its length. -/
theorem realloc_grow {H : Nat} {env : Option String} {s s1 s2 : State}
    {ptr size q r i : Nat} {curr : mem_block} {os : Option Nat} {ret : Int}
    (hp : ptr ≠ 0) (hz : size ≠ 0) (hh : header_of H s ptr = some (i, curr))
    (hlt : curr.size < block_size H size) (hm : malloc H env s size os = some (s1, q))
    (hq : q ≠ 0) (hr : realloc H env s ptr size os ret = some (s2, r)) :
    r = q ∧ free H s1 ptr ret = some s2 ∧
      ∃ k old, header_of H s1 ptr = some (k, old) ∧
        realloc_memcpy H env s ptr size os = some (q, ptr, old.usage) := by
  have hlt1 : ¬ curr.size ≥ align8 ((size + H) % WORD) := by
    have : block_size H size = align8 ((size + H) % WORD) := rfl
    omega
  unfold realloc at hr
  simp only at hr
  rw [if_neg hp, if_neg hz] at hr
  simp only [hh] at hr
  rw [if_neg hlt1] at hr
  simp only [hm] at hr
  rw [if_neg hq] at hr
  cases ho : header_of H s1 ptr with
  | none => simp [ho] at hr
  | some qo =>
    obtain ⟨k, old⟩ := qo
    cases hn : header_of H s1 q with
    | none => simp [ho, hn] at hr
    | some qn =>
      simp only [ho, hn] at hr
      split_ifs at hr
      rw [Option.map_eq_some'] at hr
      obtain ⟨s3, hfr, e⟩ := hr
      simp only [Prod.mk.injEq] at e
      refine ⟨e.2.symm, by rw [hfr, e.1], k, old, rfl, ?_⟩
      unfold realloc_memcpy
      simp only
      rw [if_neg hp, if_neg hz]
      simp only [hh]
      rw [if_neg hlt1]
      simp only [hm]
      rw [if_neg hq]
      simp only [ho]

/-- C14 fails on the number of bytes copied: in the reachable state with two
used blocks of usage 96 (header of 80 bytes, 16 payload bytes each),
`realloc(p, 20)` on the first block allocates a new block and calls `memcpy`
with length 96, the usage of the old block with its header, which is more than
`min(96, 20) = 20`, more than `newSize` and more than the 16 bytes the old
payload holds. -/
theorem realloc_copies_usage :
    Reachable 80 two_blocks ∧
    realloc 80 none two_blocks 4176 20 none 0 =
      some ({ g_head := [blk 4096 0 96 0 4096 (some 4096), blk 4192 1 96 96 4096 none,
                         blk 4288 2 3904 104 4096 none]
              g_allocations := 3 }, 4368) ∧
    realloc_memcpy 80 none two_blocks 4176 20 none = some (4368, 4176, 96) ∧
    ¬ (96 = min 96 20) ∧ ¬ (96 ≤ 20) ∧ ¬ (96 ≤ 96 - 80) :=
  ⟨two_blocks_reachable, rfl, rfl, by decide, by decide, by decide⟩

/-! ## Live allocations -/

/-- The part of C16 that is a property of the directory: in every reachable
state the usage of a block ends inside the block, and the blocks, hence their
payload ranges `[addr + H, addr + usage)`, are pairwise disjoint. -/
theorem reachable_payloads {H : Nat} (hH : 0 < H) {s : State} (hR : Reachable H s) :
    (∀ b ∈ s.g_head, b.addr ≤ b.addr + H ∧ b.addr + b.usage ≤ b.addr + b.size) ∧
    s.g_head.Pairwise (fun b c =>
      b.addr + b.usage ≤ c.addr + H ∨ c.addr + c.usage ≤ b.addr + H) := by
  have hsound := reachable_sound hH hR
  constructor
  · intro b hb
    have := (hsound b hb).usage_le
    omega
  · have hd := (reachable_shape hH hR).disj
    have hd2 : s.g_head.Pairwise (fun b c => (b ∈ s.g_head ∧ c ∈ s.g_head) ∧ apart b c) := by
      rw [List.pairwise_iff_getElem] at hd ⊢
      intro i j hi hj hij
      exact ⟨⟨List.getElem_mem hi, List.getElem_mem hj⟩, hd i j hi hj hij⟩
    refine hd2.imp ?_
    intro b c ⟨⟨hb, hc⟩, hbc⟩
    have h1 := (hsound b hb).usage_le
    have h2 := (hsound c hc).usage_le
    unfold apart at hbc
    omega

theorem find_block_addr (a : Nat) (l : List mem_block) (k : Nat) (c : mem_block)
    (hf : find_block a l = some k) (hc : l[k]? = some c) : c.addr = a := by
  induction l generalizing k with
  | nil => simp [find_block] at hf
  | cons x t ih =>
    unfold find_block at hf
    by_cases hx : x.addr = a
    · rw [if_pos hx] at hf
      simp only [Option.some.injEq] at hf
      subst hf
      simp only [List.getElem?_cons_zero, Option.some.injEq] at hc
      rw [← hc]; exact hx
    · rw [if_neg hx, Option.map_eq_some'] at hf
      obtain ⟨m, hm, e⟩ := hf
      subst e
      simp only [List.getElem?_cons_succ] at hc
      exact ih m hm hc

theorem header_of_addr {H : Nat} {s : State} {ptr i : Nat} {b : mem_block}
    (h : header_of H s ptr = some (i, b)) : ptr = b.addr + H := by
  unfold header_of at h
  split_ifs at h with hlt
  cases hf : find_block (ptr - H) s.g_head with
  | none => simp [hf] at h
  | some k =>
    simp only [hf] at h
    cases hk : s.g_head[k]? with
    | none => simp [hk] at h
    | some c =>
      simp only [hk, Option.some.injEq, Prod.mk.injEq] at h
      obtain ⟨rfl, rfl⟩ := h
      have := find_block_addr _ _ _ _ hf hk
      omega

/-- The `size` bytes handed out by a `malloc` that does not wrap lie inside
the payload range of the returned block. -/
theorem malloc_payload_no_wrap {H : Nat} (hH : 0 < H) {env : Option String} {s s1 : State}
    {size p : Nat} {os : Option Nat} (hR : Reachable H s)
    (hf : Fresh s (region_size_of (block_size H size)) os) (hw : NoWrap H size)
    (hm : malloc H env s size os = some (s1, p)) (hp : p ≠ 0) :
    ∃ (i : Nat) (b : mem_block),
      s1.g_head[i]? = some b ∧ p = b.addr + H ∧ p + size ≤ b.addr + b.usage := by
  obtain ⟨i, b, hh, _, h2, _, _⟩ := malloc_rounding_no_wrap hH hR hf hw hm hp
  have hb := header_of_getElem? hh
  have hpb : p = b.addr + H := header_of_addr hh
  exact ⟨i, b, hb, hpb, by omega⟩

/-- C16 fails for a request that wraps: `malloc(2^64 - 1)` in the empty
allocator returns the pointer 4176 to a block of usage 80 (header of 80
bytes); the next `malloc(10)` cuts that block behind its usage and returns
4256.  Both allocations are live, and the 10 bytes at 4256 lie inside the
`2^64 - 1` bytes at 4176 handed to the first caller. -/
theorem malloc_wrap_overlaps :
    ∃ s1 s2, malloc 80 none State.init (2 ^ 64 - 1) (some 4096) = some (s1, 4176) ∧
      malloc 80 none s1 10 none = some (s2, 4256) ∧ Reachable 80 s2 ∧
      s2.g_head = [blk 4096 0 80 80 4096 (some 4096), blk 4176 1 4016 96 4096 none] ∧
      4176 ≤ 4256 ∧ 4256 + 10 ≤ 4176 + (2 ^ 64 - 1) := by
  have h1 : Reachable 80 wrapped_state :=
    @Reachable.malloc 80 State.init wrapped_state none (2 ^ 64 - 1) 4176 (some 4096)
      Reachable.init (by decide)
      (fun a ha => by
        cases ha
        exact ⟨by decide, by decide, fun b hb => (List.not_mem_nil b hb).elim⟩)
      (by rfl)
  have h2 : Reachable 80
      ⟨[blk 4096 0 80 80 4096 (some 4096), blk 4176 1 4016 96 4096 none], 2⟩ :=
    @Reachable.malloc 80 wrapped_state _ none 10 4256 none h1 (by decide)
      (fun a ha => by cases ha) (by rfl)
  exact ⟨wrapped_state, _, by rfl, by rfl, h2, rfl, by decide, by decide⟩

/-! ## Introspection -/

theorem last_region_mem (done : List mem_block) (p : Option Nat) (c : Nat)
    (h : last_region p done = some c) (hne : done ≠ []) :
    ∃ x ∈ done, x.region_start = c := by
  induction done generalizing p with
  | nil => exact absurd rfl hne
  | cons a t ih =>
    cases t with
    | nil =>
      simp only [last_region, Option.some.injEq] at h
      exact ⟨a, by simp, h⟩
    | cons b t2 =>
      have h2 : last_region (some a.region_start) (b :: t2) = some c := by
        simpa [last_region] using h
      obtain ⟨x, hx, hxc⟩ := ih (some a.region_start) h2 (by simp)
      exact ⟨x, List.mem_cons_of_mem _ hx, hxc⟩

theorem last_region_none (done : List mem_block) (h : last_region none done = none) :
    done = [] := by
  cases done with
  | nil => rfl
  | cons a t =>
    exfalso
    have : ∀ (l : List mem_block) (q : Nat), last_region (some q) l ≠ none := by
      intro l
      induction l with
      | nil => intro q; simp [last_region]
      | cons x t ih => intro q; simpa [last_region] using ih x.region_start
    exact this t a.region_start (by simpa [last_region] using h)

/-- No block in front of the block stored at a region start belongs to that
region. -/
theorem no_earlier_region {done rest : List mem_block} {b : mem_block}
    (h : ShapeL (done ++ b :: rest)) : ∀ x ∈ done, x.region_start ≠ b.addr := by
  intro x hx hxr
  have hrun : runs none done := ((runs_append none done (b :: rest)).1 h.run).1
  obtain ⟨pre, hd, t, e, _, hha, _⟩ :=
    region_start_block b.addr done none hrun (by simp) ⟨x, hx, hxr⟩
  have hdm : hd ∈ done := by rw [e]; simp
  have hdisj := h.disj
  rw [List.pairwise_append] at hdisj
  have hap := hdisj.2.2 hd hdm b (by simp)
  exact addr_ne_of_apart hap (h.pos hd (by simp [hdm])) (h.pos b (by simp)) hha

theorem layout_cons (H : Nat) (b : mem_block) (l : List mem_block) :
    layout H (b :: l) =
      (if b.region_start = b.addr then [region_line b, block_line H b]
        else [block_line H b]) ++ layout H l := by
  simp [layout, List.flatMap_cons]

theorem write_memory_from_layout (H : Nat) (chain : List mem_block) (hS : ShapeL chain)
    (hpos : ∀ b ∈ chain, 0 < b.region_start) (rest done : List mem_block)
    (e : chain = done ++ rest) :
    write_memory_from H chain rest ((last_region none done).getD 0) =
      some (layout H rest) := by
  induction rest generalizing done with
  | nil => simp [write_memory_from, layout]
  | cons b t ih =>
    have hbm : b ∈ chain := by rw [e]; simp
    have e2 : chain = (done ++ [b]) ++ t := by rw [e]; simp
    have hlast : last_region none (done ++ [b]) = some b.region_start := by
      rw [last_region_append]; rfl
    have ih2 := ih (done ++ [b]) e2
    rw [hlast] at ih2
    simp only [Option.getD_some] at ih2
    have hrun : runs (last_region none done) (b :: t) := by
      have := hS.run
      rw [e, runs_append] at this
      exact this.2
    have hSe : ShapeL (done ++ b :: t) := by rw [← e]; exact hS
    unfold write_memory_from
    rw [layout_cons]
    by_cases hself : b.region_start = b.addr
    · have htrig : b.region_start ≠ (last_region none done).getD 0 := by
        cases hl : last_region none done with
        | none =>
          simp only [Option.getD_none]
          have := hpos b hbm
          omega
        | some c =>
          simp only [Option.getD_some]
          have hne : done ≠ [] := by
            intro h0
            rw [h0] at hl
            simp [last_region] at hl
          obtain ⟨x, hx, hxc⟩ := last_region_mem done none c hl hne
          have := no_earlier_region hSe x hx
          rw [hxc, ← hself] at this
          exact fun h => this h.symm
      rw [if_pos htrig, if_pos hself]
      have hidx : chain[done.length]? = some b := by
        rw [e, List.getElem?_append_right (le_refl _)]
        simp
      have hfind : find_block b.region_start chain = some done.length := by
        rw [hself]
        exact find_block_of_getElem? chain hS.pos hS.disj done.length b hidx
      simp only [hfind, hidx, ih2, Option.map_some']
      rfl
    · have hcur : last_region none done = some b.region_start := by
        rcases hrun.1 with h1 | h1
        · exact absurd h1 hself
        · exact h1
      rw [hcur]
      simp only [Option.getD_some, ne_eq, not_true_eq_false, if_false]
      rw [if_neg hself, ih2]
      rfl

theorem layout_blocks (H : Nat) (l : List mem_block) :
    (layout H l).filter Line.is_block = l.map (block_line H) := by
  induction l with
  | nil => rfl
  | cons b t ih =>
    rw [layout_cons, List.filter_append, ih]
    by_cases hself : b.region_start = b.addr
    · rw [if_pos hself]; rfl
    · rw [if_neg hself]; rfl

theorem layout_regions (H : Nat) (l : List mem_block) :
    (layout H l).filter (fun x => !x.is_block) =
      (l.filter (fun b => decide (b.region_start = b.addr))).map region_line := by
  induction l with
  | nil => rfl
  | cons b t ih =>
    rw [layout_cons, List.filter_append, ih]
    by_cases hself : b.region_start = b.addr
    · have h1 : List.filter (fun x => !x.is_block) [region_line b, block_line H b] =
          [region_line b] := rfl
      have h2 : (b :: t).filter (fun b => decide (b.region_start = b.addr)) =
          b :: t.filter (fun b => decide (b.region_start = b.addr)) :=
        List.filter_cons_of_pos (by simpa using hself)
      rw [if_pos hself, h1, h2]
      rfl
    · have h1 : List.filter (fun x => !x.is_block) [block_line H b] = [] := rfl
      have h2 : (b :: t).filter (fun b => decide (b.region_start = b.addr)) =
          t.filter (fun b => decide (b.region_start = b.addr)) :=
        List.filter_cons_of_neg (by simpa using hself)
      rw [if_neg hself, h1, h2]
      rfl

theorem addr_nodup {l : List mem_block} (h : ShapeL l) : (l.map (fun b => b.addr)).Nodup := by
  rw [List.Nodup, List.pairwise_map]
  have hd := h.disj
  have hd2 : l.Pairwise (fun b c => (b ∈ l ∧ c ∈ l) ∧ apart b c) := by
    rw [List.pairwise_iff_getElem] at hd ⊢
    intro i j hi hj hij
    exact ⟨⟨List.getElem_mem hi, List.getElem_mem hj⟩, hd i j hi hj hij⟩
  refine hd2.imp ?_
  intro b c ⟨⟨hb, hc⟩, hbc⟩
  exact addr_ne_of_apart hbc (h.pos b hb) (h.pos c hc)

/-- The part of C19 that holds, in states reached without a write outside a
block: in a reachable state `write_memory` prints the layout of the chain
and leaves the state as it is.  The `[BLOCK]` lines are those of the blocks in
chain order, with last field 0 for usage 0 and `usage - H` (on `size_t`)
otherwise.  A `[REGION]` line stands immediately before the `[BLOCK]` line of
a block exactly when the block is stored at its region start; these blocks
have pairwise distinct addresses, every region of the directory has one, and
no block of the region comes before it, so each region gets one line, in front
of its first block. -/
theorem write_memory_layout (H : Nat) (hH : 0 < H) (s : State) (hR : Reachable H s) :
    write_memory H s = some (s, layout H s.g_head) ∧
    (layout H s.g_head).filter Line.is_block = s.g_head.map (block_line H) ∧
    (∀ b ∈ s.g_head, (b.usage = 0 → payload_in_use H b = 0) ∧
      (b.usage ≠ 0 → payload_in_use H b = (b.usage + WORD - H) % WORD) ∧
      (H ≤ b.usage → payload_in_use H b = b.usage - H)) ∧
    (layout H s.g_head).filter (fun x => !x.is_block) =
      (s.g_head.filter (fun b => decide (b.region_start = b.addr))).map region_line ∧
    ((s.g_head.filter (fun b => decide (b.region_start = b.addr))).map
      (fun b => b.addr)).Nodup ∧
    (∀ b ∈ s.g_head, ∃ h ∈ s.g_head, h.region_start = h.addr ∧ h.addr = b.region_start) ∧
    (∀ (pre post : List mem_block) (b : mem_block), s.g_head = pre ++ b :: post →
      b.region_start = b.addr → ∀ x ∈ pre, x.region_start ≠ b.region_start) := by
  have hS : Shape s := reachable_shape hH hR
  have hsound := reachable_sound hH hR
  refine ⟨?_, layout_blocks H _, ?_, layout_regions H _, ?_, ?_, ?_⟩
  · unfold write_memory
    have := write_memory_from_layout H s.g_head hS (fun b hb => (hsound b hb).start_pos)
      s.g_head [] rfl
    simp only [last_region, Option.getD_none] at this
    rw [this]
    rfl
  · intro b hb
    have hb2 := hsound b hb
    refine ⟨fun h0 => by simp [payload_in_use, h0], fun h0 => by simp [payload_in_use, h0], ?_⟩
    intro hle
    unfold payload_in_use
    have h1 := hb2.usage_le
    have h2 := hb2.in_space
    have h3 := hb2.addr_pos
    by_cases h0 : b.usage = 0
    · rw [if_pos h0]; omega
    · rw [if_neg h0]
      have e : b.usage + WORD - H = (b.usage - H) + WORD := by omega
      rw [e, Nat.add_mod_right]
      exact Nat.mod_eq_of_lt (by omega)
  · exact ((addr_nodup hS).sublist (List.Sublist.map _ (List.filter_sublist _)))
  · intro b hb
    obtain ⟨pre, h, run, post, e, _, hha, hrun, _⟩ :=
      region_decomp hS b.region_start ⟨b, hb, rfl⟩
    refine ⟨h, ?_, ?_, hha⟩
    · rw [e]; simp
    · rw [hrun h (by simp), hha]
  · intro pre post b e hself x hx
    have hSe : ShapeL (pre ++ b :: post) := by rw [← e]; exact hS
    rw [hself]
    exact no_earlier_region hSe x hx

/-- Instance of `write_memory_layout` on the state with two used blocks of one region. -/
theorem write_memory_layout_witness :
    write_memory 80 two_blocks =
      some (two_blocks,
        [Line.region 4096 (some 8192) (some 4096),
         Line.block 4096 4192 0 "Allocation 0" 96 96 16,
         Line.block 4192 8192 1 "Allocation 1" 4000 96 16]) :=
  (write_memory_layout 80 (by decide) two_blocks two_blocks_reachable).1

/-! ## Physical tiling -/

theorem tiles_append (l1 l2 : List mem_block) (st fin : Option Cursor) :
    tiles st (l1 ++ l2) fin ↔ ∃ mid, tiles st l1 mid ∧ tiles mid l2 fin := by
  induction l1 generalizing st with
  | nil =>
    constructor
    · intro h; exact ⟨st, rfl, h⟩
    · rintro ⟨mid, h1, h2⟩
      have e : st = mid := h1
      rw [e]; exact h2
  | cons b t ih =>
    constructor
    · intro h
      rcases h with ⟨h1, h2, rsz, h3, h4⟩ | ⟨h1, c, h2, h3, h4, h5⟩
      · obtain ⟨mid, g1, g2⟩ := (ih _).1 h4
        exact ⟨mid, Or.inl ⟨h1, h2, rsz, h3, g1⟩, g2⟩
      · obtain ⟨mid, g1, g2⟩ := (ih _).1 h5
        exact ⟨mid, Or.inr ⟨h1, c, h2, h3, h4, g1⟩, g2⟩
    · rintro ⟨mid, (⟨h1, h2, rsz, h3, h4⟩ | ⟨h1, c, h2, h3, h4, h5⟩), h6⟩
      · exact Or.inl ⟨h1, h2, rsz, h3, (ih _).2 ⟨mid, h4, h6⟩⟩
      · exact Or.inr ⟨h1, c, h2, h3, h4, (ih _).2 ⟨mid, h5, h6⟩⟩

/-- After a non-empty walk the cursor stands in the region of some block of
the walk. -/
theorem tiles_last {l : List mem_block} {st fin : Option Cursor} (h : tiles st l fin)
    (hne : l ≠ []) : ∃ c, fin = some c ∧ ∃ x ∈ l, x.region_start = c.start := by
  induction l generalizing st with
  | nil => exact absurd rfl hne
  | cons b t ih =>
    have key : ∀ c1 : Cursor, c1.start = b.region_start → tiles (some c1) t fin →
        ∃ c, fin = some c ∧ ∃ x ∈ b :: t, x.region_start = c.start := by
      intro c1 hc1 ht
      cases t with
      | nil =>
        have e : some c1 = fin := ht
        exact ⟨c1, e.symm, b, List.mem_cons_self _ _, hc1.symm⟩
      | cons y t2 =>
        obtain ⟨c, hc, x, hx, hxr⟩ := ih ht (List.cons_ne_nil _ _)
        exact ⟨c, hc, x, List.mem_cons_of_mem _ hx, hxr⟩
    rcases h with ⟨h1, _, rsz, _, h4⟩ | ⟨_, c, _, h3, _, h5⟩
    · exact key ⟨b.addr, b.addr + b.size, b.addr + rsz⟩ h1.symm h4
    · exact key ⟨c.start, c.next + b.size, c.stop⟩ h3.symm h5

theorem tiles_congr {b b1 : mem_block} (ha : b1.addr = b.addr) (hs : b1.size = b.size)
    (hr : b1.region_start = b.region_start) (hz : b1.region_size = b.region_size)
    (st fin : Option Cursor) (rest : List mem_block) :
    tiles st (b1 :: rest) fin ↔ tiles st (b :: rest) fin := by
  simp only [tiles, ha, hs, hr, hz]

/-- Replacing a block by one with the same address, size, back-reference and
region size keeps the tiling. -/
theorem tiled_update {pre post : List mem_block} {b b1 : mem_block}
    (h : Tiled (pre ++ b :: post)) (ha : b1.addr = b.addr) (hs : b1.size = b.size)
    (hr : b1.region_start = b.region_start) (hz : b1.region_size = b.region_size) :
    Tiled (pre ++ b1 :: post) := by
  obtain ⟨fin, ht, hc⟩ := h
  obtain ⟨mid, h1, h2⟩ := (tiles_append _ _ _ _).1 ht
  exact ⟨fin, (tiles_append _ _ _ _).2 ⟨mid, h1, (tiles_congr ha hs hr hz _ _ _).2 h2⟩, hc⟩

/-- Cutting a block behind its first `u` bytes keeps the tiling. -/
theorem tiled_cut {pre post : List mem_block} {b b1 n1 : mem_block} {u : Nat}
    (h : Tiled (pre ++ b :: post)) (hu : 0 < u) (hle : u ≤ b.size)
    (ha : b1.addr = b.addr) (hs : b1.size = u)
    (hr : b1.region_start = b.region_start) (hz : b1.region_size = b.region_size)
    (hna : n1.addr = b.addr + u) (hns : n1.size = b.size - u)
    (hnr : n1.region_start = b.region_start) :
    Tiled (pre ++ b1 :: n1 :: post) := by
  obtain ⟨fin, ht, hc⟩ := h
  obtain ⟨mid, h1, h2⟩ := (tiles_append _ _ _ _).1 ht
  refine ⟨fin, (tiles_append _ _ _ _).2 ⟨mid, h1, ?_⟩, hc⟩
  have e : u + (b.size - u) = b.size := by omega
  rcases h2 with ⟨g1, g2, rsz, g3, g4⟩ | ⟨g1, c, g2, g3, g4, g5⟩
  · refine Or.inl ⟨by rw [hr, ha]; exact g1, g2, rsz, by rw [hz]; exact g3, ?_⟩
    refine Or.inr ⟨by rw [hnr, hna, g1]; omega, ⟨b1.addr, b1.addr + b1.size, b1.addr + rsz⟩,
      rfl, by rw [hnr, ha]; exact g1, by rw [hna, ha, hs], ?_⟩
    simp only [ha, hs, hns, Nat.add_assoc, e]
    exact g4
  · refine Or.inr ⟨by rw [hr, ha]; exact g1, c, g2, by rw [hr]; exact g3, by rw [ha]; exact g4, ?_⟩
    refine Or.inr ⟨by rw [hnr, hna]; omega, ⟨c.start, c.next + b1.size, c.stop⟩,
      rfl, by rw [hnr]; exact g3, by rw [hna, hs, g4], ?_⟩
    simp only [hs, hns, Nat.add_assoc, e]
    exact g5

/-- Appending the single block of a fresh region keeps the tiling. -/
theorem tiled_append {l : List mem_block} {b : mem_block} (h : Tiled l)
    (hr : b.region_start = b.addr) (hz : b.region_size = some b.size) :
    Tiled (l ++ [b]) := by
  obtain ⟨fin, ht, hc⟩ := h
  exact ⟨some ⟨b.addr, b.addr + b.size, b.addr + b.size⟩,
    (tiles_append _ _ _ _).2 ⟨fin, ht, Or.inl ⟨hr, hc, b.size, hz, rfl⟩⟩, rfl⟩

/-- Removing the whole run of a region keeps the tiling. -/
theorem tiled_remove {pre post run : List mem_block} {h : mem_block} {r : Nat}
    (ht : Tiled (pre ++ (h :: run) ++ post))
    (hpre : ∀ y ∈ pre, y.region_start ≠ r) (hrun : ∀ y ∈ h :: run, y.region_start = r)
    (hpost : ∀ y ∈ post, y.region_start ≠ r) : Tiled (pre ++ post) := by
  obtain ⟨fin, ht, hc⟩ := ht
  obtain ⟨m2, h12, h3⟩ := (tiles_append _ _ _ _).1 ht
  obtain ⟨m1, h1, h2⟩ := (tiles_append _ _ _ _).1 h12
  have hr : h.region_start = r := hrun h (List.mem_cons_self _ _)
  have hm1 : closed m1 := by
    rcases h2 with ⟨_, g2, _⟩ | ⟨_, c, g2, g3, _⟩
    · exact g2
    · exfalso
      cases pre with
      | nil =>
        have e : none = m1 := h1
        rw [← e] at g2
        cases g2
      | cons y t =>
        obtain ⟨c1, hc1, x, hx, hxr⟩ := tiles_last h1 (List.cons_ne_nil _ _)
        rw [hc1] at g2
        cases g2
        exact hpre x hx (by rw [hxr, ← g3, hr])
  cases post with
  | nil =>
    have e : m2 = fin := h3
    rw [List.append_nil]
    exact ⟨m1, h1, hm1⟩
  | cons y t =>
    refine ⟨fin, (tiles_append _ _ _ _).2 ⟨m1, h1, ?_⟩, hc⟩
    rcases h3 with ⟨g1, _, rsz, g3, g4⟩ | ⟨_, c, g2, g3, _⟩
    · exact Or.inl ⟨g1, hm1, rsz, g3, g4⟩
    · exfalso
      obtain ⟨c1, hc1, x, hx, hxr⟩ := tiles_last h2 (List.cons_ne_nil _ _)
      rw [hc1] at g2
      cases g2
      exact hpost y (List.mem_cons_self _ _) (by rw [g3, ← hxr, hrun x hx])

/-- A walk through blocks of the current region that do not start it: the
blocks are laid one after the other and the cursor advances by their sizes. -/
theorem tiles_run {r e : Nat} {run : List mem_block} {nxt : Nat} {fin : Option Cursor}
    (hrun : ∀ y ∈ run, y.region_start = r ∧ y.addr ≠ r)
    (h : tiles (some ⟨r, nxt, e⟩) run fin) :
    fin = some ⟨r, nxt + (run.map (fun y => y.size)).sum, e⟩ ∧ laid_from nxt run := by
  induction run generalizing nxt with
  | nil =>
    have e1 : some (Cursor.mk r nxt e) = fin := h
    exact ⟨by simp [← e1], trivial⟩
  | cons y t ih =>
    obtain ⟨hy1, hy2⟩ := hrun y (List.mem_cons_self _ _)
    rcases h with ⟨g1, _⟩ | ⟨_, c, g2, _, g4, g5⟩
    · exact absurd (g1.symm.trans hy1) hy2
    · cases g2
      obtain ⟨i1, i2⟩ := ih (fun z hz => hrun z (List.mem_cons_of_mem _ hz)) g5
      refine ⟨?_, g4, i2⟩
      rw [i1]
      simp only [List.map_cons, List.sum_cons, Nat.add_assoc]

/-- A tiled chain of good shape is tiled region by region. -/
theorem tiled_regions {l : List mem_block} (hS : ShapeL l) (ht : Tiled l) : RegionTiling l := by
  intro b hb
  obtain ⟨pre, h, run, post, e, hpre, hh, hrun, hpost⟩ := region_decomp hS b.region_start ⟨b, hb, rfl⟩
  have hbm : b ∈ h :: run := by
    rw [e] at hb
    simp only [List.mem_append] at hb
    rcases hb with (hb | hb) | hb
    · exact absurd rfl (hpre b hb).1
    · exact hb
    · exact absurd rfl (hpost b hb)
  have hrun2 : ∀ y ∈ run, y.region_start = b.region_start ∧ y.addr ≠ b.region_start := by
    intro y hy
    refine ⟨hrun y (List.mem_cons_of_mem _ hy), ?_⟩
    have hd := hS.disj
    rw [e] at hd
    have hd1 := (List.pairwise_append.1 (List.pairwise_append.1 hd).1).2.1
    have hap : apart h y := List.rel_of_pairwise_cons hd1 hy
    have hhm : h ∈ l := by rw [e]; simp
    have hym : y ∈ l := by rw [e]; simp [hy]
    have := addr_ne_of_apart hap (hS.pos h hhm) (hS.pos y hym)
    rw [← hh]
    exact fun e2 => this e2.symm
  obtain ⟨fin, ht, hc⟩ := ht
  rw [e] at ht
  obtain ⟨m2, h12, h3⟩ := (tiles_append _ _ _ _).1 ht
  obtain ⟨m1, h1, h2⟩ := (tiles_append _ _ _ _).1 h12
  have hhr : h.region_start = h.addr := by rw [hh]; exact hrun h (List.mem_cons_self _ _)
  rcases h2 with ⟨_, _, rsz, g3, g4⟩ | ⟨g1, _⟩
  swap
  · rw [hhr] at g1; exact absurd g1 (Nat.lt_irrefl _)
  rw [hh] at g4
  obtain ⟨i1, i2⟩ := tiles_run hrun2 g4
  have hm2 : closed m2 := by
    cases post with
    | nil =>
      have e1 : m2 = fin := h3
      rw [e1]; exact hc
    | cons y t =>
      rcases h3 with ⟨_, g2, _⟩ | ⟨_, c, g2, g3, _⟩
      · exact g2
      · exfalso
        rw [i1] at g2
        cases g2
        exact hpost y (List.mem_cons_self _ _) g3
  rw [i1] at hm2
  have hsum : b.region_start + h.size + (run.map (fun y => y.size)).sum = b.region_start + rsz :=
    hm2
  refine ⟨pre, h, run, post, rsz, e, hbm, hrun, ?_, ⟨hh, i2⟩, g3, ?_⟩
  · intro y hy
    rcases List.mem_append.1 hy with hy | hy
    · exact (hpre y hy).1
    · exact hpost y hy
  · simp only [List.map_cons, List.sum_cons]
    omega

theorem tiled_set {l : List mem_block} {i : Nat} {b b1 : mem_block} (h : Tiled l)
    (hb : l[i]? = some b) (ha : b1.addr = b.addr) (hs : b1.size = b.size)
    (hr : b1.region_start = b.region_start) (hz : b1.region_size = b.region_size) :
    Tiled (l.set i b1) := by
  rw [set_of_getElem? b1 hb]
  rw [(take_drop_of_getElem? hb).1] at h
  exact tiled_update h ha hs hr hz

/-- Every reachable chain is a sequence of completely tiled regions. -/
theorem reachable_tiled {H : Nat} (hH : 0 < H) {s : State} (h : Reachable H s) :
    Tiled s.g_head := by
  refine @reachableIf_induction (fun _ => True) H
    (fun s => Tiled s.g_head) ?_ ?_ ?_ ?_ ?_ s (reachableIf_of_reachable h)
  · exact ⟨none, rfl, trivial⟩
  · intro s s1 env size p os hr ih hs _ hz hf hm
    rcases malloc_cases hm with ⟨e, _⟩ | ⟨a, _, hreq, e, _⟩ | ⟨i, b, _, hb, hfit, hc⟩
    · rw [e]; exact ih
    · rw [e]
      exact tiled_append ih rfl rfl
    · rcases hc with ⟨h0, e, _⟩ | ⟨h0, hg1, hg2, e, _⟩
      · rw [e]
        exact tiled_set ih hb rfl rfl rfl rfl
      · rw [e]
        have ih1 := ih
        rw [(take_drop_of_getElem? hb).1] at ih1
        exact tiled_cut ih1 (Nat.lt_of_lt_of_le hH hg1) (by omega) rfl rfl rfl rfl rfl rfl rfl
  · intro s s1 ptr ret hr ih hf
    have hs : Shape s := reachable_shape hH (reachable_of_reachableIf hr)
    rcases free_cases hs hf with ⟨_, e⟩ | ⟨i, b, pre, h, run, post, _, hh, e, h1, h2, h3, hc⟩
    · rw [e]; exact ih
    · have hb := header_of_getElem? hh
      have hset : Tiled (s.g_head.set i { b with usage := 0 }) :=
        tiled_set ih hb rfl rfl rfl rfl
      rcases hc with ⟨_, e1⟩ | ⟨_, e1⟩
      · rw [e1]
        rw [e] at hset
        exact tiled_remove hset h1 h2 h3
      · rw [e1]; exact hset
  · intro s ptr i curr size hr ih _ _ _ hh hfit
    exact tiled_set ih (header_of_getElem? hh) rfl rfl rfl rfl
  · intro s ptr i block name hr ih hh
    exact tiled_set ih (header_of_getElem? hh) rfl rfl rfl rfl

/-- The part of C21 that holds: in every state reached without a write outside
a block, the blocks of each region, taken in list
order, tile the region.  For every block `b` of the chain, the blocks with the
back-reference of `b` form one run `h :: run` of the chain; the run is laid
from the region base on (`h` starts at the base and every following block
starts at the address plus the size of its predecessor), and the sizes of the
blocks of the run sum to the region size recorded in `h`.  Every block has a
positive size, so that consecutive blocks of a run do not overlap. -/
theorem region_tiling (H : Nat) (hH : 0 < H) (s : State) (hR : Reachable H s) :
    RegionTiling s.g_head ∧ ∀ b ∈ s.g_head, 0 < b.size :=
  ⟨tiled_regions (reachable_shape hH hR) (reachable_tiled hH hR), (reachable_shape hH hR).pos⟩

/-- Instance of `region_tiling` at the second block of `two_blocks`: the region at 4096
consists of the blocks at 4096 and 4192, whose sizes sum to 4096. -/
theorem region_tiling_witness :
    ∃ pre h run post rsz, two_blocks.g_head = pre ++ (h :: run) ++ post ∧
      blk 4192 1 4000 96 4096 none ∈ h :: run ∧
      (∀ y ∈ h :: run, y.region_start = 4096) ∧
      (∀ y ∈ pre ++ post, y.region_start ≠ 4096) ∧
      laid_from 4096 (h :: run) ∧
      h.region_size = some rsz ∧ ((h :: run).map (fun y => y.size)).sum = rsz :=
  (region_tiling 80 (by decide) two_blocks two_blocks_reachable).1
    (blk 4192 1 4000 96 4096 none) (by simp [two_blocks])

/-! ## Region runs -/

/-- A chain of good shape consists of region runs. -/
theorem shape_region_runs {l : List mem_block} (hS : ShapeL l) : RegionRuns l := by
  intro b hb
  obtain ⟨pre, h, run, post, e, hpre, hh, hrun, hpost⟩ := region_decomp hS b.region_start ⟨b, hb, rfl⟩
  have hbm : b ∈ h :: run := by
    rw [e] at hb
    simp only [List.mem_append] at hb
    rcases hb with (hb | hb) | hb
    · exact absurd rfl (hpre b hb).1
    · exact hb
    · exact absurd rfl (hpost b hb)
  refine ⟨pre, h, run, post, e, hbm, hrun, ?_, hh, ?_⟩
  · intro y hy
    rcases List.mem_append.1 hy with hy | hy
    · exact (hpre y hy).1
    · exact hpost y hy
  · rw [hh]; exact hrun h (List.mem_cons_self _ _)

/-- A call of a public operation in a reachable state leads to a reachable
state. -/
theorem reachable_next {H : Nat} {s s1 : State} (hR : Reachable H s) (hT : Transition H s s1) :
    Reachable H s1 := by
  cases hT with
  | malloc h1 h2 h3 => exact Reachable.malloc hR h1 h2 h3
  | malloc_name h1 h2 h3 => exact Reachable.malloc_name hR h1 h2 h3
  | calloc h1 h2 h3 h4 => exact Reachable.calloc hR h1 h2 h3 h4
  | free h1 => exact Reachable.free hR h1
  | realloc h1 h2 h3 => exact Reachable.realloc hR h1 h2 h3

/-- The part of C22 that holds: in every state reached without a write outside
a block, the blocks that share a region
back-reference form one run of the chain whose first block is stored at the
region start and refers to itself, and every call of a public operation
(`malloc`, `malloc_name`, `calloc`, `free`, `realloc`) leads to a state with
the same property. -/
theorem region_runs (H : Nat) (hH : 0 < H) (s : State) (hR : Reachable H s) :
    RegionRuns s.g_head ∧ ∀ s1, Transition H s s1 → RegionRuns s1.g_head :=
  ⟨shape_region_runs (reachable_shape hH hR),
   fun _ hT => shape_region_runs (reachable_shape hH (reachable_next hR hT))⟩

/-- Instance of `region_runs` at the state `two_blocks`. -/
theorem region_runs_witness :
    RegionRuns two_blocks.g_head ∧
      ∀ s1, Transition 80 two_blocks s1 → RegionRuns s1.g_head :=
  region_runs 80 (by decide) two_blocks two_blocks_reachable

/-! ## Identifiers -/

theorem later_refl (s : State) : Later s s :=
  ⟨le_refl _, fun x hx => Or.inl ⟨x, hx, rfl, rfl⟩⟩

theorem later_trans {s s1 s2 : State} (h1 : Later s s1) (h2 : Later s1 s2) : Later s s2 := by
  refine ⟨le_trans h1.1 h2.1, fun x hx => ?_⟩
  rcases h2.2 x hx with ⟨y, hy, e1, e2⟩ | h
  · rcases h1.2 y hy with ⟨z, hz, e3, e4⟩ | h
    · exact Or.inl ⟨z, hz, e3.trans e1, e4.trans e2⟩
    · exact Or.inr (by rw [← e1]; exact h)
  · exact Or.inr (le_trans h1.1 h)

theorem later_set {s : State} {i : Nat} {b : mem_block} (b1 : mem_block)
    (hb : s.g_head[i]? = some b) (hid : b1.alloc_id = b.alloc_id) (ha : b1.addr = b.addr) :
    Later s { s with g_head := s.g_head.set i b1 } := by
  refine ⟨le_refl _, fun x hx => ?_⟩
  rcases List.mem_or_eq_of_mem_set hx with hx | hx
  · exact Or.inl ⟨x, hx, rfl, rfl⟩
  · exact Or.inl ⟨b, List.getElem?_mem hb, by rw [hx, hid], by rw [hx, ha]⟩

theorem later_malloc {H : Nat} {env : Option String} {s s1 : State} {size p : Nat}
    {os : Option Nat} (hm : malloc H env s size os = some (s1, p)) : Later s s1 := by
  rcases malloc_cases hm with ⟨e, _⟩ | ⟨a, _, hreq, e, _⟩ | ⟨i, b, _, hb, hfit, hc⟩
  · rw [e]; exact later_refl s
  · rw [e]
    refine ⟨Nat.le_succ _, fun x hx => ?_⟩
    simp only [List.mem_append, List.mem_singleton] at hx
    rcases hx with hx | hx
    · exact Or.inl ⟨x, hx, rfl, rfl⟩
    · exact Or.inr (by rw [hx]; exact le_refl _)
  · rcases hc with ⟨h0, e, _⟩ | ⟨h0, hg1, hg2, e, _⟩
    · rw [e]
      exact later_set _ hb rfl rfl
    · rw [e]
      refine ⟨Nat.le_succ _, fun x hx => ?_⟩
      rcases mem_cut hx with hx | hx | hx
      · exact Or.inl ⟨x, hx, rfl, rfl⟩
      · exact Or.inl ⟨b, List.getElem?_mem hb, by rw [hx], by rw [hx]⟩
      · exact Or.inr (by rw [hx]; exact le_refl _)

theorem later_free {H : Nat} {s s1 : State} {ptr : Nat} {ret : Int} (hs : Shape s)
    (hf : free H s ptr ret = some s1) : Later s s1 := by
  have hg : s1.g_allocations = s.g_allocations := by
    rcases free_cases hs hf with ⟨_, e⟩ | ⟨i, b, pre, h, run, post, _, hh, e, _, _, _, hc⟩
    · rw [e]
    · rcases hc with ⟨_, e1⟩ | ⟨_, e1⟩ <;> rw [e1]
  refine ⟨by rw [hg], fun x hx => ?_⟩
  rcases free_mem hs hf hx with h1 | ⟨b, hb, e⟩
  · exact Or.inl ⟨x, h1, rfl, rfl⟩
  · exact Or.inl ⟨b, hb, by rw [e], by rw [e]⟩

theorem later_malloc_name {H name_sz : Nat} {env : Option String} {s s1 : State}
    {size p : Nat} {name : String} {os : Option Nat}
    (hm : malloc_name H name_sz env s size name os = some (s1, p)) : Later s s1 := by
  unfold malloc_name at hm
  cases h1 : malloc H env s size os with
  | none => rw [h1] at hm; cases hm
  | some q =>
    obtain ⟨s2, ptr⟩ := q
    rw [h1] at hm
    simp only at hm
    cases h2 : header_of H s2 ptr with
    | none => rw [h2] at hm; cases hm
    | some q2 =>
      obtain ⟨i, block⟩ := q2
      rw [h2] at hm
      simp only at hm
      split_ifs at hm
      simp only [Option.some.injEq, Prod.mk.injEq] at hm
      rw [← hm.1]
      exact later_trans (later_malloc h1) (later_set _ (header_of_getElem? h2) rfl rfl)

theorem later_calloc {H : Nat} {env : Option String} {s s1 : State} {nmemb size p : Nat}
    {os : Option Nat} (hm : calloc H env s nmemb size os = some (s1, p)) : Later s s1 := by
  unfold calloc at hm
  simp only at hm
  cases h1 : malloc H env s ((nmemb * size) % WORD) os with
  | none => rw [h1] at hm; cases hm
  | some q =>
    obtain ⟨s2, ptr⟩ := q
    rw [h1] at hm
    simp only at hm
    have e : s1 = s2 := by
      split_ifs at hm with h0
      · simp only [Option.some.injEq, Prod.mk.injEq] at hm
        exact hm.1.symm
      · cases h2 : header_of H s2 ptr with
        | none => rw [h2] at hm; cases hm
        | some q2 =>
          rw [h2] at hm
          simp only at hm
          split_ifs at hm
          simp only [Option.some.injEq, Prod.mk.injEq] at hm
          exact hm.1.symm
    rw [e]
    exact later_malloc h1

theorem later_realloc {H : Nat} (hH : 0 < H) {env : Option String} {s s1 : State}
    {ptr size p : Nat} {os : Option Nat} {ret : Int} (hR : Reachable H s) (hs : size < WORD)
    (hf : Fresh s (region_size_of (block_size H size)) os)
    (hr : realloc H env s ptr size os ret = some (s1, p)) : Later s s1 := by
  unfold realloc at hr
  simp only at hr
  split_ifs at hr with h1 h2
  · exact later_malloc hr
  · cases hfr : free H s ptr ret with
    | none => rw [hfr] at hr; cases hr
    | some s2 =>
      rw [hfr] at hr
      simp only [Option.map_some', Option.some.injEq, Prod.mk.injEq] at hr
      rw [← hr.1]
      exact later_free (reachable_shape hH hR) hfr
  · cases hh : header_of H s ptr with
    | none => rw [hh] at hr; cases hr
    | some q =>
      obtain ⟨i, curr⟩ := q
      rw [hh] at hr
      simp only at hr
      split_ifs at hr with h3
      · simp only [Option.some.injEq, Prod.mk.injEq] at hr
        rw [← hr.1]
        exact later_set _ (header_of_getElem? hh) rfl rfl
      · cases hm : malloc H env s size os with
        | none => rw [hm] at hr; cases hr
        | some q1 =>
          obtain ⟨s2, np⟩ := q1
          rw [hm] at hr
          simp only at hr
          have l1 : Later s s2 := later_malloc hm
          have hR2 : Reachable H s2 := Reachable.malloc hR hs hf hm
          split_ifs at hr with h4
          · simp only [Option.some.injEq, Prod.mk.injEq] at hr
            rw [← hr.1]; exact l1
          · cases ho : header_of H s2 ptr with
            | none => rw [ho] at hr; cases hr
            | some qo =>
              cases hn : header_of H s2 np with
              | none => rw [ho, hn] at hr; cases hr
              | some qn =>
                rw [ho, hn] at hr
                simp only at hr
                split_ifs at hr with h5
                cases hfr : free H s2 ptr ret with
                | none => rw [hfr] at hr; cases hr
                | some s3 =>
                  rw [hfr] at hr
                  simp only [Option.map_some', Option.some.injEq, Prod.mk.injEq] at hr
                  rw [← hr.1]
                  exact later_trans l1 (later_free (reachable_shape hH hR2) hfr)

/-- A call of a public operation in a reachable state leads to a later state. -/
theorem later_next {H : Nat} (hH : 0 < H) {s s1 : State} (hR : Reachable H s)
    (hT : Transition H s s1) : Later s s1 := by
  cases hT with
  | malloc h1 h2 h3 => exact later_malloc h3
  | malloc_name h1 h2 h3 => exact later_malloc_name h3
  | calloc h1 h2 h3 h4 => exact later_calloc h4
  | free h1 => exact later_free (reachable_shape hH hR) h1
  | realloc h1 h2 h3 => exact later_realloc hH hR h1 h2 h3

/-- Any number of calls of public operations in a reachable state leads to a
reachable, later state. -/
theorem later_steps {H : Nat} (hH : 0 < H) {s s1 : State} (hR : Reachable H s)
    (hT : Relation.ReflTransGen (Transition H) s s1) : Reachable H s1 ∧ Later s s1 := by
  induction hT with
  | refl => exact ⟨hR, later_refl s⟩
  | tail _ h2 ih => exact ⟨reachable_next ih.1 h2, later_trans ih.2 (later_next hH ih.1 h2)⟩

theorem unique_set {l : List mem_block} {g i : Nat} {b : mem_block} (b1 : mem_block)
    (h : UniqueIds ⟨l, g⟩) (hb : l[i]? = some b) (hid : b1.alloc_id = b.alloc_id) :
    UniqueIds ⟨l.set i b1, g⟩ := by
  obtain ⟨h1, h2⟩ := h
  refine ⟨fun x hx => ?_, ?_⟩
  · rcases List.mem_or_eq_of_mem_set hx with hx | hx
    · exact h1 x hx
    · rw [hx, hid]; exact h1 b (List.getElem?_mem hb)
  · have e1 : l.set i b1 = l.take i ++ b1 :: l.drop (i + 1) := set_of_getElem? b1 hb
    have e2 := (take_drop_of_getElem? hb).1
    have h3 : (l.map (fun b => b.alloc_id)).Nodup := h2
    rw [e2] at h3
    show ((l.set i b1).map (fun b => b.alloc_id)).Nodup
    rw [e1]
    simp only [List.map_append, List.map_cons] at h3 ⊢
    rw [hid]; exact h3

theorem unique_cut {l : List mem_block} {g i : Nat} {b : mem_block} (b1 n1 : mem_block)
    (h : UniqueIds ⟨l, g⟩) (hb : l[i]? = some b) (hid : b1.alloc_id = b.alloc_id)
    (hn : n1.alloc_id = g) :
    UniqueIds ⟨l.take i ++ b1 :: n1 :: l.drop (i + 1), g + 1⟩ := by
  obtain ⟨h1, h2⟩ := h
  refine ⟨fun x hx => ?_, ?_⟩
  · rcases mem_cut hx with hx | hx | hx
    · exact Nat.lt_succ_of_lt (h1 x hx)
    · rw [hx, hid]; exact Nat.lt_succ_of_lt (h1 b (List.getElem?_mem hb))
    · rw [hx, hn]; exact Nat.lt_succ_self _
  · have e2 := (take_drop_of_getElem? hb).1
    have h3 : (l.map (fun b => b.alloc_id)).Nodup := h2
    have hlt : ∀ k ∈ l.map (fun b => b.alloc_id), k ≠ g := by
      intro k hk
      obtain ⟨x, hx, e⟩ := List.mem_map.1 hk
      have hxg : x.alloc_id < g := h1 x hx
      omega
    rw [e2] at h3 hlt
    show ((l.take i ++ b1 :: n1 :: l.drop (i + 1)).map (fun b => b.alloc_id)).Nodup
    have hperm : (l.take i ++ b1 :: n1 :: l.drop (i + 1)).Perm
        (n1 :: (l.take i ++ b1 :: l.drop (i + 1))) := by
      have := @List.perm_middle _ n1 (l.take i ++ [b1]) (l.drop (i + 1))
      simpa using this
    rw [(hperm.map _).nodup_iff]
    simp only [List.map_append, List.map_cons, hid, hn] at h3 hlt ⊢
    exact List.nodup_cons.2 ⟨fun hm => hlt g hm rfl, h3⟩

theorem unique_append {l : List mem_block} {g : Nat} (n1 : mem_block)
    (h : UniqueIds ⟨l, g⟩) (hn : n1.alloc_id = g) : UniqueIds ⟨l ++ [n1], g + 1⟩ := by
  obtain ⟨h1, h2⟩ := h
  refine ⟨fun x hx => ?_, ?_⟩
  · simp only [List.mem_append, List.mem_singleton] at hx
    rcases hx with hx | hx
    · exact Nat.lt_succ_of_lt (h1 x hx)
    · rw [hx, hn]; exact Nat.lt_succ_self _
  · have h3 : (l.map (fun b => b.alloc_id)).Nodup := h2
    show ((l ++ [n1]).map (fun b => b.alloc_id)).Nodup
    rw [((List.perm_append_singleton n1 l).map _).nodup_iff]
    simp only [List.map_cons, hn]
    refine List.nodup_cons.2 ⟨fun hm => ?_, h3⟩
    obtain ⟨x, hx, e⟩ := List.mem_map.1 hm
    have hxg : x.alloc_id < g := h1 x hx
    omega

/-- In every reachable state the ids are below the counter and pairwise
distinct. -/
theorem reachable_ids {H : Nat} (hH : 0 < H) {s : State} (h : Reachable H s) :
    UniqueIds s := by
  refine @reachableIf_induction (fun _ => True) H
    (fun s => UniqueIds s) ?_ ?_ ?_ ?_ ?_ s (reachableIf_of_reachable h)
  · exact ⟨fun b hb => (List.not_mem_nil b hb).elim, List.nodup_nil⟩
  · intro s s1 env size p os hr ih hs _ hz hf hm
    rcases malloc_cases hm with ⟨e, _⟩ | ⟨a, _, hreq, e, _⟩ | ⟨i, b, _, hb, hfit, hc⟩
    · rw [e]; exact ih
    · rw [e]
      exact unique_append _ ih rfl
    · rcases hc with ⟨h0, e, _⟩ | ⟨h0, hg1, hg2, e, _⟩
      · rw [e]
        exact unique_set _ ih hb rfl
      · rw [e]
        exact unique_cut _ _ ih hb rfl rfl
  · intro s s1 ptr ret hr ih hf
    have hs : Shape s := reachable_shape hH (reachable_of_reachableIf hr)
    rcases free_cases hs hf with ⟨_, e⟩ | ⟨i, b, pre, h, run, post, _, hh, e, h1, h2, h3, hc⟩
    · rw [e]; exact ih
    · have hb := header_of_getElem? hh
      have hset : UniqueIds ⟨s.g_head.set i { b with usage := 0 }, s.g_allocations⟩ :=
        unique_set _ ih hb rfl
      rcases hc with ⟨_, e1⟩ | ⟨_, e1⟩
      · rw [e1]
        rw [e] at hset
        obtain ⟨g1, g2⟩ := hset
        have hsub : List.Sublist (pre ++ post) (pre ++ (h :: run) ++ post) := by
          rw [List.append_assoc]
          exact List.Sublist.append (List.Sublist.refl _) (List.sublist_append_right _ _)
        exact ⟨fun x hx => g1 x (hsub.subset hx), List.Nodup.sublist (hsub.map _) g2⟩
      · rw [e1]; exact hset
  · intro s ptr i curr size hr ih _ _ _ hh hfit
    exact unique_set _ ih (header_of_getElem? hh) rfl
  · intro s ptr i block name hr ih hh
    exact unique_set _ ih (header_of_getElem? hh) rfl

/-- The part of C23 that holds, with the id counter taken as a natural number:
in every state reached without a write outside a block, the ids of the blocks of the directory are
pairwise distinct and each is strictly below the id counter; and across any
sequence of calls of public operations the counter does not decrease and every
block of the later state either carries the id of a block of the earlier state
stored at the same address, or an id that is not below the earlier counter and
hence differs from every id assigned before.  An id is therefore never given
to a second block, also after its region is reclaimed. -/
theorem ids_never_reused (H : Nat) (hH : 0 < H) (s s1 : State) (hR : Reachable H s)
    (hT : Relation.ReflTransGen (Transition H) s s1) :
    UniqueIds s ∧ UniqueIds s1 ∧ Later s s1 :=
  ⟨reachable_ids hH hR, reachable_ids hH (later_steps hH hR hT).1, (later_steps hH hR hT).2⟩

/-- Instance of `ids_never_reused` at the call `malloc(10)` that leads from `part_state` to
`two_blocks`. -/
theorem ids_never_reused_witness :
    UniqueIds part_state ∧ UniqueIds two_blocks ∧ Later part_state two_blocks :=
  ids_never_reused 80 (by decide) part_state two_blocks part_state_reachable
    (Relation.ReflTransGen.single
      (@Transition.malloc 80 part_state two_blocks none 10 4272 none
        (by decide) (fun a ha => by cases ha) rfl))

/-! ## Splitting a used block -/

/-- Without wrapping requests the usage of a block is 0 or counts a header. -/
theorem reachable_nowrap_usage {H : Nat} {s : State} (h : ReachableIf (NoWrap H) H s) :
    ∀ b ∈ s.g_head, b.usage = 0 ∨ H ≤ b.usage := by
  have hbs : ∀ size, NoWrap H size → H ≤ block_size H size := fun size hw =>
    le_trans (Nat.le_add_left _ _) (block_size_no_wrap H size hw).2.1
  refine @reachableIf_induction (NoWrap H) H
    (fun s => ∀ b ∈ s.g_head, b.usage = 0 ∨ H ≤ b.usage) ?_ ?_ ?_ ?_ ?_ s h
  · intro b hb; cases hb
  · intro s s1 env size p os hr ih hs hw hz hf hm x hx
    rcases malloc_cases hm with ⟨e, _⟩ | ⟨a, _, hreq, e, _⟩ | ⟨i, b, _, hb, hfit, hc⟩
    · rw [e] at hx; exact ih x hx
    · rw [e] at hx
      simp only [List.mem_append, List.mem_singleton] at hx
      rcases hx with hx | hx
      · exact ih x hx
      · rw [hx]; exact Or.inr (hbs size hw)
    · rcases hc with ⟨h0, e, _⟩ | ⟨h0, hg1, hg2, e, _⟩
      · rw [e] at hx
        rcases List.mem_or_eq_of_mem_set hx with hx | hx
        · exact ih x hx
        · rw [hx]; exact Or.inr (hbs size hw)
      · rw [e] at hx
        rcases mem_cut hx with hx | hx | hx
        · exact ih x hx
        · rw [hx]; exact Or.inr hg1
        · rw [hx]; exact Or.inr (hbs size hw)
  · intro s s1 ptr ret hr ih hf x hx
    by_cases hH : 0 < H
    · have hs : Shape s := reachable_shape hH (reachable_of_reachableIf hr)
      rcases free_mem hs hf hx with h1 | ⟨b, hb, e⟩
      · exact ih x h1
      · rw [e]; exact Or.inl rfl
    · exact Or.inr (by omega)
  · intro s ptr i curr size hr ih _ hw _ hh hfit x hx
    rcases List.mem_or_eq_of_mem_set hx with hx | hx
    · exact ih x hx
    · rw [hx]; exact Or.inr (hbs size hw)
  · intro s ptr i block name hr ih hh x hx
    rcases List.mem_or_eq_of_mem_set hx with hx | hx
    · exact ih x hx
    · rw [hx]; exact ih block (List.getElem?_mem (header_of_getElem? hh))

/-- Without wrapping requests, a used block chosen by a placement policy has
room for the new header behind its used part, which counts a header itself:
`split` is called inside its domain. -/
theorem split_guard_no_wrap {H : Nat} (hH : 0 < H) {s : State}
    (hR : ReachableIf (NoWrap H) H s) {env : Option String} {size i : Nat} {b : mem_block}
    (hw : NoWrap H size)
    (hsel : select_policy env s (block_size H size) = some i) (hb : s.g_head[i]? = some b)
    (hu : b.usage ≠ 0) : H ≤ b.usage ∧ b.usage + H ≤ b.size := by
  obtain ⟨b2, hb2, hfit⟩ := select_policy_fits (block_size_lt H size) hsel
  rw [hb] at hb2
  cases hb2
  have hsd := reachable_sound hH (reachable_of_reachableIf hR) b (List.getElem?_mem hb)
  have h1 := free_space_le b hsd.usage_le
  have h2 := (block_size_no_wrap H size hw).2.1
  have h3 := hsd.usage_le
  rcases reachable_nowrap_usage hR b (List.getElem?_mem hb) with h | h
  · exact absurd h hu
  · exact ⟨h, by omega⟩

/-- The part of C24 that holds: let `b` be a partially used block whose usage counts a
header (`H ≤ b.usage`) and which has room for a header behind its used part
(`b.usage + H ≤ b.size`).  Then `split(b, size)` shrinks `b` to size
`b.usage` and leaves every other field of `b` unchanged; it creates a block at
address `b.addr + b.usage` with size `b.size - b.usage`, usage `size`, the
value of the id counter as id (an id carried by no block whose id is below the
counter), the back-reference of `b` and no region size; the new block is
linked right after `b` and in front of the old successor of `b`; the counter
is incremented; the new block is returned; and the two sizes sum to the old
size of `b`. -/
theorem split_used_block (H : Nat) (s : State) (i size : Nat) (b : mem_block)
    (hb : s.g_head[i]? = some b) (h0 : 0 < b.usage) (hu : H ≤ b.usage)
    (hroom : b.usage + H ≤ b.size) :
    ∃ s1 b1 n1, split H s i size = some (s1, i + 1) ∧
      s1.g_head = s.g_head.take i ++ b1 :: n1 :: s.g_head.drop (i + 1) ∧
      (∀ k, k < i → s1.g_head[k]? = s.g_head[k]?) ∧
      s1.g_head[i]? = some b1 ∧ s1.g_head[i + 1]? = some n1 ∧
      (∀ k, s1.g_head[i + 2 + k]? = s.g_head[i + 1 + k]?) ∧
      b1 = { b with size := b.usage } ∧
      n1.addr = b.addr + b.usage ∧ n1.size = b.size - b.usage ∧ n1.usage = size ∧
      n1.alloc_id = s.g_allocations ∧ n1.region_start = b.region_start ∧
      n1.region_size = none ∧
      (∀ x ∈ s.g_head, x.alloc_id < s.g_allocations → x.alloc_id ≠ n1.alloc_id) ∧
      s1.g_allocations = s.g_allocations + 1 ∧
      b1.size + n1.size = b.size := by
  have hi : i < s.g_head.length := (List.getElem?_eq_some.1 hb).1
  have hlen : (s.g_head.take i).length = i := by
    rw [List.length_take]; omega
  refine ⟨⟨s.g_head.take i ++ { b with size := b.usage } ::
      (populate s.g_allocations (b.addr + b.usage) size (b.size - b.usage) b.region_start).1 ::
      s.g_head.drop (i + 1), s.g_allocations + 1⟩,
    { b with size := b.usage }, (populate s.g_allocations (b.addr + b.usage) size
    (b.size - b.usage) b.region_start).1, ?_, rfl, ?_, ?_, ?_, ?_, rfl, rfl, rfl, rfl, rfl, rfl,
    rfl, ?_, rfl, ?_⟩
  · unfold split
    rw [hb]
    have hne : b.usage ≠ 0 := by omega
    simp only [hne, if_false, hu, hroom, and_self, if_true]
    rfl
  · intro k hk
    rw [List.getElem?_append_left (by omega), List.getElem?_take_of_lt hk]
  · rw [List.getElem?_append_right (by omega), hlen]
    simp
  · rw [List.getElem?_append_right (by omega), hlen]
    simp
  · intro k
    rw [List.getElem?_append_right (by omega), hlen]
    have e : i + 2 + k - i = k + 2 := by omega
    rw [e]
    simp only [List.getElem?_cons_succ, List.getElem?_drop]
  · intro x _ hx
    show x.alloc_id ≠ s.g_allocations
    omega
  · show b.usage + (b.size - b.usage) = b.size
    omega

/-- Instance of `split_used_block` at the block of `part_state` (size 4096, usage
96) and a request of 200 bytes. -/
theorem split_used_block_witness :
    ∃ s1 b1 n1, split 80 part_state 0 200 = some (s1, 1) ∧
      s1.g_head = part_state.g_head.take 0 ++ b1 :: n1 :: part_state.g_head.drop 1 ∧
      (∀ k, k < 0 → s1.g_head[k]? = part_state.g_head[k]?) ∧
      s1.g_head[0]? = some b1 ∧ s1.g_head[1]? = some n1 ∧
      (∀ k, s1.g_head[0 + 2 + k]? = part_state.g_head[0 + 1 + k]?) ∧
      b1 = blk 4096 0 96 96 4096 (some 4096) ∧
      n1.addr = 4096 + 96 ∧ n1.size = 4096 - 96 ∧ n1.usage = 200 ∧
      n1.alloc_id = 1 ∧ n1.region_start = 4096 ∧ n1.region_size = none ∧
      (∀ x ∈ part_state.g_head, x.alloc_id < 1 → x.alloc_id ≠ n1.alloc_id) ∧
      s1.g_allocations = 1 + 1 ∧ b1.size + n1.size = 4096 :=
  split_used_block 80 part_state 0 200 (blk 4096 0 4096 96 4096 (some 4096)) rfl
    (by decide) (by decide) (by decide)

/-! ## Capacity -/

/-- The part of C25 that holds: in every state reached without a write outside
a block, every block satisfies `usage ≤ size`, and
the `size_t` subtraction `size - usage` evaluated by the placement policies
equals the difference of the two numbers (it does not wrap); a block selected
by `first_fit`, `best_fit` or `worst_fit` for a request therefore has room for
the request behind its used part. -/
theorem no_capacity_underflow (H : Nat) (hH : 0 < H) (s : State) (hR : Reachable H s) :
    (∀ b ∈ s.g_head, b.usage ≤ b.size ∧ free_space b = b.size - b.usage) ∧
    ∀ (env : Option String) (size i : Nat), size < WORD →
      select_policy env s size = some i →
      ∃ b, s.g_head[i]? = some b ∧ b.usage + size ≤ b.size := by
  have key : ∀ b ∈ s.g_head, b.usage ≤ b.size ∧ free_space b = b.size - b.usage := by
    intro b hb
    have hsd := reachable_sound hH hR b hb
    have h1 := hsd.in_space
    have h2 := hsd.addr_pos
    exact ⟨hsd.usage_le, free_space_eq b hsd.usage_le (by omega)⟩
  refine ⟨key, fun env size i hs hsel => ?_⟩
  obtain ⟨b, hb, hfit⟩ := select_policy_fits hs hsel
  obtain ⟨k1, k2⟩ := key b (List.getElem?_mem hb)
  exact ⟨b, hb, by omega⟩

/-- Instance of `no_capacity_underflow` at the state `two_blocks`. -/
theorem no_capacity_underflow_witness :
    (∀ b ∈ two_blocks.g_head, b.usage ≤ b.size ∧ free_space b = b.size - b.usage) ∧
    ∀ (env : Option String) (size i : Nat), size < WORD →
      select_policy env two_blocks size = some i →
      ∃ b, two_blocks.g_head[i]? = some b ∧ b.usage + size ≤ b.size :=
  no_capacity_underflow 80 (by decide) two_blocks two_blocks_reachable

/-! ## Writes outside a block

The theorems of this part evaluate the code at the two call sequences that
make it write outside a block: a growing `realloc` whose `memcpy` of
`curr->usage` bytes is longer than the payload of the new block, and a `split`
of a block whose usage is a wrapped request smaller than a header.  The list
of headers is followed up to the write, the machine through it. -/

theorem four_blocks_reachable : Reachable 80 four_blocks := by
  have h1 : Reachable 80 ⟨[blk 4096 0 4096 104 4096 (some 4096)], 1⟩ :=
    @Reachable.malloc 80 State.init _ none 24 4176 (some 4096)
      Reachable.init (by decide)
      (fun a ha => by
        cases ha
        exact ⟨by decide, by decide, fun b hb => (List.not_mem_nil b hb).elim⟩)
      (by rfl)
  have h2 : Reachable 80
      ⟨[blk 4096 0 104 104 4096 (some 4096), blk 4200 1 3992 96 4096 none], 2⟩ :=
    @Reachable.malloc 80 _ _ none 10 4280 none h1 (by decide)
      (fun a ha => by cases ha) (by rfl)
  have h3 : Reachable 80
      ⟨[blk 4096 0 104 104 4096 (some 4096), blk 4200 1 96 96 4096 none,
        blk 4296 2 3896 96 4096 none], 3⟩ :=
    @Reachable.malloc 80 _ _ none 10 4376 none h2 (by decide)
      (fun a ha => by cases ha) (by rfl)
  exact @Reachable.malloc 80 _ four_blocks none 10 4472 none h3 (by decide)
    (fun a ha => by cases ha) (by rfl)

theorem head_freed_reachable : Reachable 80 head_freed_state :=
  @Reachable.free 80 four_blocks head_freed_state 4176 0 four_blocks_reachable (by rfl)

/-- The call `realloc(4376, 20)` on the list of headers, in the state
`head_freed_state` reached by `malloc(24)`, `malloc(10)` three times and
`free(4176)`: the block at 4296 is
too small for the rounded request 104, `malloc(20)` hands out the free block
at 4096 (pointer 4176, 24 payload bytes up to 4200), and `memcpy` is called
with the length 96, so that it writes up to 4272, over the header of the block
at 4200.  In the state the copy leaves, `free(4376)` gives `overrun_state`. -/
theorem overrun_trace :
    Reachable 80 head_freed_state ∧
    header_of 80 head_freed_state 4376 = some (2, blk 4296 2 96 96 4096 none) ∧
    block_size 80 20 = 104 ∧
    malloc 80 none head_freed_state 20 none =
      some (⟨[blk 4096 0 104 104 4096 (some 4096), blk 4200 1 96 96 4096 none,
              blk 4296 2 96 96 4096 none, blk 4392 3 3800 96 4096 none], 4⟩, 4176) ∧
    realloc_memcpy 80 none head_freed_state 4376 20 none = some (4176, 4376, 96) ∧
    4096 + 104 < 4176 + 96 ∧
    free 80 copied_state 4376 0 = some overrun_state :=
  ⟨head_freed_reachable, by rfl, by rfl, by rfl, by rfl, by decide, by rfl⟩

/-- The two calls `malloc(2^64 - 72)` and `malloc(10)` from the initial state,
on the list of headers: the first request wraps to 8 and leaves one block of
usage 8, and for the second the placement policy selects that block, so that
`split` writes the new header at 4104, inside the header of the block at
4096. -/
theorem clobber_trace :
    malloc 80 none State.init (2 ^ 64 - 72) (some 4096) = some (short_state, 4176) ∧
    Reachable 80 short_state ∧
    block_size 80 10 = 96 ∧
    select_policy none short_state 96 = some 0 := by
  have h1 : Reachable 80 short_state :=
    @Reachable.malloc 80 State.init short_state none (2 ^ 64 - 72) 4176 (some 4096)
      Reachable.init (by decide)
      (fun a ha => by
        cases ha
        exact ⟨by decide, by decide, fun b hb => (List.not_mem_nil b hb).elim⟩)
      (by rfl)
  exact ⟨by rfl, h1, by rfl, by rfl⟩

/-- In a chain of region runs, a block between two blocks of one region
belongs to that region. -/
theorem regionRuns_between {l : List mem_block} (h : RegionRuns l) {i j k : Nat}
    {x y z : mem_block} (hi : l[i]? = some x) (hj : l[j]? = some y) (hk : l[k]? = some z)
    (hij : i < j) (hjk : j < k) (hxz : z.region_start = x.region_start) :
    y.region_start = x.region_start := by
  obtain ⟨pre, h0, run, post, e, _, hrun, hout, _, _⟩ := h x (List.getElem?_mem hi)
  rw [e] at hi hj hk
  have hp : pre.length ≤ i := by
    by_contra hlt
    rw [List.append_assoc, List.getElem?_append_left (by omega)] at hi
    exact hout x (List.mem_append_left _ (List.getElem?_mem hi)) rfl
  have hq : k < pre.length + (h0 :: run).length := by
    by_contra hge
    rw [List.getElem?_append_right (by rw [List.length_append]; omega)] at hk
    exact hout z (List.mem_append_right _ (List.getElem?_mem hk)) hxz
  rw [List.getElem?_append_left (by rw [List.length_append]; omega),
    List.getElem?_append_right (by omega)] at hj
  exact hrun y (List.getElem?_mem hj)

/-- In a tiled chain, the sizes of the blocks with the back-reference of a
block sum to the region size recorded in a block stored at that address. -/
theorem regionTiling_sum {l : List mem_block} (h : RegionTiling l) {b : mem_block}
    (hb : b ∈ l) :
    ∃ h0 ∈ l, ∃ rsz, h0.addr = b.region_start ∧ h0.region_size = some rsz ∧
      ((l.filter (fun y => decide (y.region_start = b.region_start))).map
        (fun y => y.size)).sum = rsz := by
  obtain ⟨pre, h0, run, post, rsz, e, _, hrun, hout, hlaid, hsz, hsum⟩ := h b hb
  refine ⟨h0, by rw [e]; simp, rsz, hlaid.1, hsz, ?_⟩
  have e1 : (pre.filter (fun y => decide (y.region_start = b.region_start))) = [] :=
    List.filter_eq_nil_iff.2 (fun y hy => by
      simpa using hout y (List.mem_append_left _ hy))
  have e2 : (post.filter (fun y => decide (y.region_start = b.region_start))) = [] :=
    List.filter_eq_nil_iff.2 (fun y hy => by
      simpa using hout y (List.mem_append_right _ hy))
  have e3 : ((h0 :: run).filter (fun y => decide (y.region_start = b.region_start))) =
      h0 :: run :=
    List.filter_eq_self.2 (fun y hy => by simpa using hrun y hy)
  rw [e, List.filter_append, List.filter_append, e1, e2, e3, List.nil_append, List.append_nil]
  exact hsum

/-! ## The machine at the two call sequences -/

/-- On two calls `malloc(10)` the machine leaves the directory of
`two_blocks` (the region size word of the second header, never written, is
0) and returns the pointers 4176 and 4272. -/
theorem machine_two_blocks :
    ((Machine.malloc layout80 8 none Machine.init 10 (some 4096)).bind (fun r1 =>
      (Machine.malloc layout80 8 none r1.1 10 none).map (fun r2 =>
        (r2.1.directory layout80 8, r1.2, r2.2)))) =
      some (⟨[blk 4096 0 96 96 4096 (some 4096), blk 4192 1 4000 96 4096 (some 0)], 2⟩,
        4176, 4272) := by
  decide

/-- The calls `malloc(2^64 - 72)` and `malloc(10)` return 4176 and 4184 and
leave the directory `clobbered_state`. -/
theorem clobber_run_directory :
    clobber_run.map (fun r => (r.1.directory layout80 8, r.2)) =
      some (clobbered_state, 4176, 4184) := by
  decide

/-- The calls `a = malloc(24)`, `malloc(10)`, `o = malloc(10)`, `malloc(10)`,
`free(a)`, `q = realloc(o, 20)` give `o = 4376` and `q = 4176` and leave the
directory `overrun_state`. -/
theorem overrun_run_directory :
    overrun_run.map (fun r => (r.1.directory layout80 8, r.2)) =
      some (overrun_state, 4376, 4176) := by
  decide

/-- C9 fails behind the copy of `realloc`.  The calls `a = malloc(24)`,
`malloc(10)`, `o = malloc(10)`, `malloc(10)`, `free(a)`, `q = realloc(o, 20)`
leave the directory `overrun_state`: the copy of 96 bytes into the 24 payload
bytes at `q = 4176` has overwritten the header at 4200.  The region of `q`
still holds the used block at 4392, but `free(q)` stops its scan at the
overwritten header, finds the region empty, moves `g_head` to 4200 and unmaps
the page: the three blocks behind stay in the chain, in unmapped memory.  The
list-level `free` gives the same chain in that state. -/
theorem free_reclaims_used_region :
    overrun_run.map (fun r => (r.1.directory layout80 8, r.2)) =
      some (overrun_state, 4376, 4176) ∧
    (∃ c ∈ overrun_state.g_head, c.addr ≠ 4096 ∧ c.region_start = 4096 ∧ c.usage ≠ 0) ∧
    (overrun_run.bind (fun r => Machine.free layout80 8 r.1 r.2.2 0)).map
        (fun M => (M.directory layout80 8, M.mapped 4096, M.mapped 4392)) =
      some (⟨[torn_block, blk 4296 2 96 0 4096 (some 0), blk 4392 3 3800 96 4096 (some 0)], 4⟩,
        false, false) ∧
    free 80 overrun_state 4176 0 =
      some ⟨[torn_block, blk 4296 2 96 0 4096 (some 0), blk 4392 3 3800 96 4096 (some 0)], 4⟩ :=
  ⟨overrun_run_directory,
    ⟨blk 4392 3 3800 96 4096 (some 0), by decide, by decide, by decide, by decide⟩,
    by decide, by rfl⟩

/-- C10 fails behind the header that `split` writes into a header.  The
calls `malloc(2^64 - 72)` and `p = malloc(10)` leave the directory
`clobbered_state`, in which the block of `p = 4184`, stored at 4104, is the
only block with the back-reference 4096.  `free(p)` clears the usage of that
block, which is also the back-reference of the header at 4096, starts its scan
at 4096, finds the region empty and unmaps the page, but removes no block:
both blocks stay in the chain, in unmapped memory. -/
theorem free_keeps_unmapped_blocks :
    clobber_run.map (fun r => (r.1.directory layout80 8, r.2)) =
      some (clobbered_state, 4176, 4184) ∧
    clobbered_state.g_head.filter (fun b => decide (b.region_start = 4096)) = [inner_block] ∧
    (clobber_run.bind (fun r => Machine.free layout80 8 r.1 r.2.2 0)).map
        (fun M => (M.directory layout80 8, M.mapped 4096, M.mapped 4104)) =
      some (⟨[{ clobbered_block with region_start := 0 }, { inner_block with usage := 0 }], 2⟩,
        false, false) :=
  ⟨clobber_run_directory, by rfl, by decide⟩

/-- C19 fails behind a wrapping request and behind a write outside a block.
After `malloc(2^64 - 72)` the only block has usage 8, less than the header of
80 bytes, and the last field of its `[BLOCK]` line is `8 - 80` on `size_t`,
that is `2^64 - 72`, not a number of payload bytes.  After the next
`malloc(10)`, and after the calls of `overrun_run`, a header has the
back-reference 96 or 0; `write_memory` reads the region size through it, at an
address that is not mapped, and prints no line list. -/
theorem write_memory_wrapped_payload :
    (Machine.malloc layout80 8 none Machine.init (2 ^ 64 - 72) (some 4096)).bind
        (fun r => Machine.write_memory layout80 8 r.1) =
      some [Line.region 4096 (some 8192) (some 4096),
            Line.block 4096 8192 0 "Allocation 0" 4096 8 (2 ^ 64 - 72)] ∧
    write_memory 80 short_state =
      some (short_state,
        [Line.region 4096 (some 8192) (some 4096),
         Line.block 4096 8192 0 "Allocation 0" 4096 8 (2 ^ 64 - 72)]) ∧
    clobber_run.map (fun r => (Machine.write_memory layout80 8 r.1,
        r.1.load (96 + layout80.region_size))) = some (none, none) ∧
    overrun_run.map (fun r => (Machine.write_memory layout80 8 r.1,
        r.1.load (0 + layout80.region_size))) = some (none, none) ∧
    write_memory 80 clobbered_state = none ∧ write_memory 80 overrun_state = none :=
  ⟨by decide, by rfl, by decide, by decide, by rfl, by rfl⟩

/-- C21 fails behind the copy of `realloc`.  The calls of `overrun_run`
leave the directory `overrun_state`, in which the blocks with the
back-reference 4096 are the blocks at 4096, 4296 and 4392, of sizes 104, 96
and 3800: the second does not start where the first ends, and the sizes sum to
4000, not to the region size 4096 recorded in the first block. -/
theorem overrun_breaks_tiling :
    overrun_run.map (fun r => (r.1.directory layout80 8, r.2)) =
      some (overrun_state, 4376, 4176) ∧
    ¬ RegionTiling overrun_state.g_head ∧
    (overrun_state.g_head.filter (fun b => decide (b.region_start = 4096))).map
      (fun b => (b.addr, b.size, b.region_size)) =
        [(4096, 104, some 4096), (4296, 96, some 0), (4392, 3800, some 0)] := by
  refine ⟨overrun_run_directory, fun h => ?_, by rfl⟩
  obtain ⟨h0, hm, rsz, ha, hz, hsum⟩ :=
    regionTiling_sum h (show blk 4096 0 104 104 4096 (some 4096) ∈ overrun_state.g_head from
      by decide)
  have hs : rsz = 4000 := hsum.symm
  have hcases : h0 = blk 4096 0 104 104 4096 (some 4096) ∨ h0 = torn_block ∨
      h0 = blk 4296 2 96 0 4096 (some 0) ∨ h0 = blk 4392 3 3800 96 4096 (some 0) := by
    simpa [overrun_state] using hm
  rw [hs] at hz
  rcases hcases with e | e | e | e <;> rw [e] at ha hz
  · exact absurd hz (by decide)
  · exact absurd ha (by decide)
  · exact absurd ha (by decide)
  · exact absurd ha (by decide)

/-- C22 fails behind a write outside a block.  The calls of `overrun_run`
leave the directory `overrun_state`, in which the blocks with the
back-reference 4096 stand at the positions 0, 2 and 3 of the chain, separated
by the overwritten block with the back-reference 0.  The calls of
`clobber_run` leave the directory `clobbered_state`, in which the block stored
at 4096 has the back-reference 96 and the block behind it the back-reference
4096: the run of region 4096 does not start with the block stored at 4096. -/
theorem overrun_breaks_runs :
    overrun_run.map (fun r => (r.1.directory layout80 8, r.2)) =
      some (overrun_state, 4376, 4176) ∧
    ¬ RegionRuns overrun_state.g_head ∧
    overrun_state.g_head.map (fun b => b.region_start) = [4096, 0, 4096, 4096] ∧
    clobber_run.map (fun r => (r.1.directory layout80 8, r.2)) =
      some (clobbered_state, 4176, 4184) ∧
    ¬ RegionRuns clobbered_state.g_head ∧
    clobbered_state.g_head.map (fun b => (b.addr, b.region_start)) =
      [(4096, 96), (4104, 4096)] := by
  refine ⟨overrun_run_directory, fun h => ?_, by rfl, clobber_run_directory, fun h => ?_,
    by rfl⟩
  · have := @regionRuns_between overrun_state.g_head h 0 1 2
      (blk 4096 0 104 104 4096 (some 4096)) torn_block (blk 4296 2 96 0 4096 (some 0))
      (by rfl) (by rfl) (by rfl) (by decide) (by decide) (by rfl)
    exact absurd this (by decide)
  · obtain ⟨pre, h0, run, post, e, _, hrun, _, ha, _⟩ :=
      h clobbered_block (by decide)
    have hm : h0 ∈ clobbered_state.g_head := by rw [e]; simp
    have hcases : h0 = clobbered_block ∨ h0 = inner_block := by
      simpa [clobbered_state] using hm
    rcases hcases with e1 | e1 <;> rw [e1] at ha <;> exact absurd ha (by decide)

/-- C23 fails behind the copy of `realloc`.  The calls of `overrun_run` leave
the directory `overrun_state`, in which the id counter is 4 and the block at
4200 carries the id 7598805550979902529, the first eight bytes of the label
"Allocation 3". -/
theorem overrun_breaks_ids :
    overrun_run.map (fun r => (r.1.directory layout80 8, r.2)) =
      some (overrun_state, 4376, 4176) ∧
    ¬ UniqueIds overrun_state ∧
    overrun_state.g_allocations = 4 ∧
    overrun_state.g_head.map (fun b => b.alloc_id) = [0, 7598805550979902529, 2, 3] := by
  refine ⟨overrun_run_directory, fun h => ?_, by rfl, by rfl⟩
  have := h.1 torn_block (by decide)
  exact absurd this (by decide)

/-- C24 fails for a block whose usage is smaller than a header.
`malloc(2^64 - 72)` returns 4176 and leaves the directory `short_state`: the
block `b` at 4096 has size 4096 and usage 8, so it is partially used and has
room for 96 bytes.  `split(b, 96)`, the call the next `malloc(10)` makes,
returns the address 4104 inside the header of `b` and leaves the directory
`clobbered_state`: `b` has size 8, but its usage is 4088 and its
back-reference 96, the size and the usage of the new header written over
them. -/
theorem split_header_in_header :
    (Machine.malloc layout80 8 none Machine.init (2 ^ 64 - 72) (some 4096)).map
        (fun r => (r.1.directory layout80 8, r.2)) = some (short_state, 4176) ∧
    (∃ b, short_state.g_head[0]? = some b ∧ b.addr = 4096 ∧ 0 < b.usage ∧
      96 ≤ b.size - b.usage) ∧
    (Machine.malloc layout80 8 none Machine.init (2 ^ 64 - 72) (some 4096)).bind
        (fun r => (Machine.split layout80 r.1 4096 96).map
          (fun q => (q.1.directory layout80 8, q.2))) = some (clobbered_state, 4104) ∧
    4096 < 4104 ∧ 4104 < 4096 + layout80.sizeof ∧
    (∃ b1, clobbered_state.g_head[0]? = some b1 ∧ b1.addr = 4096 ∧ b1.size = 8 ∧
      b1.usage = 4088 ∧ b1.region_start = 96) :=
  ⟨by decide, ⟨_, rfl, rfl, by decide, by decide⟩, by decide, by decide, by decide,
    ⟨_, rfl, rfl, rfl, rfl, rfl⟩⟩

/-- C25 fails behind a write outside a block.  The calls of `overrun_run`
leave the directory `overrun_state`: the block at 4200 has size 96 and usage
4096, the subtraction `size - usage` of the policies wraps to `2^64 - 4000`,
and `first_fit` and `worst_fit` return this block for a request of 96 bytes.
The calls of `clobber_run` leave the directory `clobbered_state`: the block
at 4096 has size 8 and usage 4088, the subtraction wraps to `2^64 - 4080`,
and `first_fit` returns this block. -/
theorem capacity_underflow :
    overrun_run.map (fun r => (r.1.directory layout80 8, r.2)) =
      some (overrun_state, 4376, 4176) ∧
    (∃ b, overrun_state.g_head[1]? = some b ∧ b.addr = 4200 ∧ b.size = 96 ∧ b.usage = 4096 ∧
      free_space b = 2 ^ 64 - 4000) ∧
    overrun_run.map (fun r => (Machine.first_fit layout80 8 r.1 96,
        Machine.worst_fit layout80 8 r.1 96)) = some (some 4200, some 4200) ∧
    first_fit overrun_state 96 = some 1 ∧ worst_fit overrun_state 96 = some 1 ∧
    clobber_run.map (fun r => (r.1.directory layout80 8, r.2)) =
      some (clobbered_state, 4176, 4184) ∧
    (∃ b, clobbered_state.g_head[0]? = some b ∧ b.addr = 4096 ∧ b.size = 8 ∧ b.usage = 4088 ∧
      free_space b = 2 ^ 64 - 4080) ∧
    clobber_run.map (fun r => Machine.first_fit layout80 8 r.1 96) = some (some 4096) ∧
    first_fit clobbered_state 96 = some 0 :=
  ⟨overrun_run_directory, ⟨_, rfl, rfl, rfl, rfl, by rfl⟩, by decide, by rfl, by rfl,
    clobber_run_directory, ⟨_, rfl, rfl, rfl, rfl, by rfl⟩, by decide, by rfl⟩

end Allocator
